import Mathlib

/-! gcache: LRU map, byte-accounted tier, consistent-hash ring and group load pipeline

A shallow embedding of `lru/lru.go`, `cache.go`, `consistenthash/consistenthash.go` and
`group.go`.

* `lru.Cache` keeps the recency list `ll` (front = head of the list). The Go
  map `cache` is an index from a key to its list element; here an element is
  its position in `ll`, and the map lookup is `lru.lookup`. `ll = none`
  stands for `c.cache == nil` (a zero value, or a cache after `Clear`).
* Keys are compared with Go's `==`, the `BEq` instance of the key type, which need not be
  reflexive (`lru.IKey.nan`). The elements that the Go map still points to after they left
  the list are kept in `stale`. A key of an uncomparable dynamic type (a slice, a map, a
  function) makes the Go map access panic; such keys are no values of the key type here.
* The eviction callback acts on state outside the LRU map; that state is the
  type parameter `σ`, threaded through every operation that may call it.
* `consistenthash.Map` keeps the point list `keys` and the Go map `hashMap` as a list of
  pairs; `sort.Ints` and `sort.Search` are embedded as a sort and as the binary search.
* Go `int` / `int64` counters are `Int`; no operation here approaches 2^63.
* Mutexes are not modelled: every operation runs alone.
-/

namespace lru

/-- The Go `entry` struct: a key with its value. -/
structure entry (K V : Type) where
  key : K
  val : V
deriving DecidableEq, Repr

/-- The Go `Cache` struct. `ll = none` when `c.cache == nil`.

The key type `K` stands for the comparable Go values a `Key interface{}` can hold, and Go's
`==` on them is the `BEq` instance of `K`: symmetric and transitive, but not reflexive (a
floating-point NaN is not equal to itself, and then to no key at all).

The Go map `cache` holds a pointer to every element of `ll`; the lookup `lru.lookup` reads it
through the list. Besides those it keeps the pointers that `delete` did not find: the
elements removed from the list under a key that is not equal to itself. These are `stale`. -/
structure Cache (K V σ : Type) where
  MaxEntries : Int
  onEvicted : Option (K → V → σ → σ)
  ll : Option (List (entry K V))
  stale : List (entry K V)

variable {K V σ : Type}

/-- The map access `c.cache[key]`: the element whose key is `==` to `key`, as a position in
the list. -/
def lookup [BEq K] : List (entry K V) → K → Option Nat
  | [], _ => none
  | e :: l, key => if e.key == key then some 0 else (lookup l key).map (· + 1)

/-- `list.MoveToFront`: the element at position `i` becomes the head. -/
def moveToFront (l : List (entry K V)) (i : Nat) : List (entry K V) :=
  match l[i]? with
  | some e => e :: l.eraseIdx i
  | none => l

/-- `list.Back`: the last element, if any. -/
def back (l : List (entry K V)) : Option Nat :=
  if l.length = 0 then none else some (l.length - 1)

def New : Cache K V σ :=
  { MaxEntries := 0, onEvicted := none, ll := some [], stale := [] }

def Cache.SetMaxEntries (c : Cache K V σ) (n : Int) : Cache K V σ :=
  { c with MaxEntries := n }

def Cache.SetOnEvicted (c : Cache K V σ) (fn : Option (K → V → σ → σ)) : Cache K V σ :=
  { c with onEvicted := fn }

/-- The elements that the map points to without their being in the list; none when the map
is nil. -/
def Cache.mapStale (c : Cache K V σ) : List (entry K V) :=
  match c.ll with
  | none => []
  | some _ => c.stale

/-- `removeElement`: unlink the element, `delete(c.cache, kv.key)`, then call the callback.
The `delete` drops the pointer to the element when its key is equal to itself and finds
nothing otherwise, in which case the map keeps the pointer. -/
def Cache.removeElement [BEq K] (c : Cache K V σ) (e : Option Nat) (s : σ) :
    Cache K V σ × σ :=
  match e with
  | none => (c, s)
  | some i =>
    let l := c.ll.getD []
    match l[i]? with
    | none => (c, s)
    | some kv =>
      let c1 :=
        { c with
          ll := some (l.eraseIdx i),
          stale := if kv.key == kv.key then c.stale else kv :: c.stale }
      match c.onEvicted with
      | some fn => (c1, fn kv.key kv.val s)
      | none => (c1, s)

def Cache.Remove [BEq K] (c : Cache K V σ) (key : K) (s : σ) : Cache K V σ × σ :=
  match c.ll with
  | none => (c, s)
  | some l =>
    match lookup l key with
    | some i => c.removeElement (some i) s
    | none => (c, s)

def Cache.RemoveOldest [BEq K] (c : Cache K V σ) (s : σ) : Cache K V σ × σ :=
  match c.ll with
  | none => (c, s)
  | some l => c.removeElement (back l) s

/-- `Add`. When `c.cache == nil` a new list and a new, empty map are made first. -/
def Cache.Add [BEq K] (c : Cache K V σ) (key : K) (value : V) (s : σ) :
    Cache K V σ × σ :=
  let l := c.ll.getD []
  match lookup l key with
  | some i =>
    ({ c with
       ll := some ((moveToFront l i).modifyHead (fun e => { e with val := value })),
       stale := c.mapStale }, s)
  | none =>
    let c1 := { c with ll := some ({ key := key, val := value } :: l), stale := c.mapStale }
    if c.MaxEntries ≠ 0 ∧ ((l.length + 1 : Nat) : Int) > c.MaxEntries then
      c1.RemoveOldest s
    else (c1, s)

/-- The unexported `get`: the value stored for `key`; `none` is the miss `(nil, false)`. -/
def Cache.get [BEq K] (c : Cache K V σ) (key : K) : Option V :=
  match c.ll with
  | none => none
  | some l =>
    match lookup l key with
    | some i => l[i]?.map (·.val)
    | none => none

def Cache.Get [BEq K] (c : Cache K V σ) (key : K) : Option V :=
  match c.ll with
  | none => none
  | some _ => c.get key

def Cache.Len (c : Cache K V σ) : Int :=
  match c.ll with
  | none => 0
  | some l => (l.length : Int)

/-- The elements that `range c.cache` visits: those of the list and the stale ones. -/
def Cache.mapEntries (c : Cache K V σ) : List (entry K V) :=
  match c.ll with
  | none => []
  | some l => l ++ c.stale

/-- `Clear`: the callback runs on every element the map points to, then both structures are
dropped. Go leaves the visiting order of a map unspecified; the model visits the list front
to back, then the stale elements. -/
def Cache.Clear (c : Cache K V σ) (s : σ) : Cache K V σ × σ :=
  let s1 :=
    match c.onEvicted with
    | some fn => c.mapEntries.foldl (fun acc kv => fn kv.key kv.val acc) s
    | none => s
  ({ c with ll := none, stale := [] }, s1)

/-- The resident entries, most recently used first. -/
def Cache.entries (c : Cache K V σ) : List (entry K V) := c.ll.getD []

/-- Each key is held by one element only, as the Go map guarantees. -/
def Cache.WF (c : Cache K V σ) : Prop := (c.entries.map (·.key)).Nodup

/-- No two elements of the list have `==` keys, as the Go map guarantees: `Add` makes a new
element only after the lookup has missed. -/
def Cache.Distinct [BEq K] (c : Cache K V σ) : Prop :=
  c.entries.Pairwise (fun a b => (a.key == b.key) = false)

/-- A key as a Go interface value, as far as `==` sees it: a string, or a floating-point
NaN. -/
inductive IKey where
  | str (s : String)
  | nan

/-- Go's `==` on two such keys: equal strings are equal, a NaN is equal to nothing. -/
def IKey.eq : IKey → IKey → Bool
  | .str a, .str b => decide (a = b)
  | _, _ => false

instance IKey.instBEq : BEq IKey := ⟨IKey.eq⟩

instance IKey.instPartialEquivBEq : PartialEquivBEq IKey where
  symm := by
    intro a b h
    cases a <;> cases b <;> simp_all [BEq.beq, IKey.eq]
  trans := by
    intro a b c h1 h2
    cases a <;> cases b <;> cases c <;> simp_all [BEq.beq, IKey.eq]

instance Cache.decidableDistinct [BEq K] (c : Cache K V σ) : Decidable c.Distinct :=
  show Decidable (c.entries.Pairwise (fun a b => (a.key == b.key) = false)) from inferInstance

instance Cache.decidableWF [DecidableEq K] (c : Cache K V σ) : Decidable c.WF :=
  show Decidable ((c.entries.map (fun e => e.key)).Nodup) from inferInstance

/-- The key and value handed to the callback for an entry. -/
def entry.pair (e : entry K V) : K × V := (e.key, e.val)

/-- The entry that `Add` builds from a key and a value. -/
def entry.ofPair (p : K × V) : entry K V := { key := p.1, val := p.2 }

/-- A callback that appends each eviction to a log, in the manner of `TestEvict`
(which keeps the key only). -/
def record : K → V → List (K × V) → List (K × V) :=
  fun key value log => log ++ [(key, value)]

end lru

/-- Adding a list of key/value pairs one after the other, first pair first. -/
def lru.Cache.addAll {K V σ : Type} [BEq K] (c : lru.Cache K V σ) (kvs : List (K × V))
    (s : σ) : lru.Cache K V σ × σ :=
  kvs.foldl (fun st kv => st.1.Add kv.1 kv.2 st.2) (c, s)

namespace gcache

/-- Modelled from the spec: `ByteView` (its file is not among the sources) is an immutable
view over a byte sequence of known length; `group.go` builds one as `ByteView{b: resp.Value}`. -/
structure ByteView where
  b : List UInt8
deriving DecidableEq, Repr

def ByteView.Len (v : ByteView) : Int := (v.b.length : Int)

/-- Go `len(key)` for a string key: its size in bytes. -/
def len (key : String) : Int := (key.utf8ByteSize : Int)

/-- The closure installed by `cache.add` with `SetOnEvicted`; it writes the tier's
`nBytes` and `nEvict`, carried here as a pair. -/
def onEvicted (key : String) (value : ByteView) (st : Int × Int) : Int × Int :=
  (st.1 - (value.Len + len key), st.2 + 1)

/-- The Go `cache` struct (a tier), without its mutex. -/
structure cache where
  nBytes : Int
  lru : Option (lru.Cache String ByteView (Int × Int))
  nHit : Int
  nGet : Int
  nEvict : Int

/-- The zero value of `cache`, as the fields `mainCache` and `hotCache` of a new group. -/
def cache.zero : cache := { nBytes := 0, lru := none, nHit := 0, nGet := 0, nEvict := 0 }

def cache.add (c : cache) (key : String) (value : ByteView) : cache :=
  let l : lru.Cache String ByteView (Int × Int) :=
    match c.lru with
    | none => (lru.New).SetOnEvicted (some onEvicted)
    | some l => l
  let r := l.Add key value (c.nBytes, c.nEvict)
  { c with lru := some r.1, nBytes := r.2.1 + (value.Len + len key), nEvict := r.2.2 }

def cache.get (c : cache) (key : String) : cache × Option ByteView :=
  let c1 := { c with nGet := c.nGet + 1 }
  match c1.lru with
  | none => (c1, none)
  | some l =>
    match l.Get key with
    | some val => ({ c1 with nHit := c1.nHit + 1 }, some val)
    | none => (c1, none)

def cache.bytes (c : cache) : Int := c.nBytes

def cache.itemsLocked (c : cache) : Int :=
  match c.lru with
  | none => 0
  | some l => l.Len

def cache.items (c : cache) : Int := c.itemsLocked

structure CacheStats where
  Bytes : Int
  Items : Int
  Gets : Int
  Hits : Int
  Evictions : Int
deriving DecidableEq, Repr

def cache.stats (c : cache) : CacheStats :=
  { Bytes := c.nBytes, Items := c.itemsLocked, Gets := c.nGet, Hits := c.nHit,
    Evictions := c.nEvict }

def cache.removeOldest (c : cache) : cache :=
  match c.lru with
  | none => c
  | some l =>
    let r := l.RemoveOldest (c.nBytes, c.nEvict)
    { c with lru := some r.1, nBytes := r.2.1, nEvict := r.2.2 }

/-- The entries resident in a tier, most recent first. -/
def cache.resident (c : cache) : List (lru.entry String ByteView) :=
  match c.lru with
  | none => []
  | some l => l.entries

/-- The byte cost of an entry: `len(key) + value.Len()`. -/
def cost (e : lru.entry String ByteView) : Int := len e.key + e.val.Len

/-- The sum of the costs of the resident entries of a tier. -/
def cache.residentCost (c : cache) : Int := (c.resident.map cost).sum

/-- The operations of a tier that the claims range over. -/
inductive TierOp where
  | add (key : String) (value : ByteView)
  | get (key : String)
  | removeOldest

def cache.step (c : cache) : TierOp → cache
  | .add key value => c.add key value
  | .get key => (c.get key).1
  | .removeOldest => c.removeOldest

def cache.run (c : cache) (ops : List TierOp) : cache := ops.foldl cache.step c

abbrev error := String

/-- A remote peer (`ProtoGetter`): from the group name and the key to `resp.Value` or an error. -/
abbrev ProtoGetter := String → String → Except error (List UInt8)

/-- The `PeerPicker` interface: `PickPeer(key)`, `none` for a nil peer. -/
abbrev PeerPicker := String → Option ProtoGetter

/-- The package variable `portPicker`; `none` until `RegisterPeerPicker` is called. -/
abbrev PortPicker := Option (String → Option PeerPicker)

/-- The Go `Group` struct. `peersOnce` tells whether the `sync.Once` has run; a nil
`peers` interface is `none`. The `getter` is never nil (`NewGroup` rejects it). -/
structure Group where
  name : String
  getter : String → Except error ByteView
  peersOnce : Bool
  peers : Option PeerPicker
  cacheBytes : Int
  mainCache : cache
  hotCache : cache

/-- The group built by `NewGroup`, registry and hook apart. -/
def NewGroup (name : String) (cacheBytes : Int) (getter : String → Except error ByteView) :
    Group :=
  { name := name, getter := getter, peersOnce := false, peers := none,
    cacheBytes := cacheBytes, mainCache := cache.zero, hotCache := cache.zero }

/-- The target of `populate`: `&g.mainCache` or `&g.hotCache`. -/
inductive Tier where
  | main
  | hot
deriving DecidableEq, Repr

/-- How a run can fail to return: a call through a nil function or interface value
(a Go run-time panic), or a loop that used up the fuel given to it. -/
inductive Fault where
  | nilCall
  | outOfFuel
deriving DecidableEq, Repr

/-- A call that leaves the process, recorded in the order made. -/
inductive Upstream where
  | origin (key : String)
  | peer (key : String)
deriving DecidableEq, Repr

/-- What `Get` and `load` hand back: the group afterwards, the returned pair
`(ByteView, error)`, and the upstream calls made on the way. -/
structure Reply where
  g : Group
  value : ByteView
  err : Option error
  calls : List Upstream

def Group.Name (g : Group) : String := g.name

def Group.initPeers (portPicker : PortPicker) (g : Group) : Except Fault Group :=
  match g.peers with
  | some _ => .ok g
  | none =>
    match portPicker with
    | none => .error .nilCall
    | some pp =>
      match pp g.Name with
      | some p => .ok { g with peers := some p }
      | none => .ok g

def Group.lookupCache (g : Group) (key : String) : Group × Option ByteView :=
  if g.cacheBytes ≤ 0 then (g, none)
  else
    let r := g.mainCache.get key
    match r.2 with
    | some value => ({ g with mainCache := r.1 }, some value)
    | none =>
      let h := g.hotCache.get key
      ({ g with mainCache := r.1, hotCache := h.1 }, h.2)

def Group.getLocally (g : Group) (key : String) : ByteView × Option error :=
  match g.getter key with
  | .error err => ({ b := [] }, some err)
  | .ok val => (val, none)

/-- One pass through the body of the `for` loop of `populate` after the budget test:
pick the victim tier and drop its oldest entry. Go's `/` on `int64` truncates. -/
def Group.evictOne (g : Group) : Group :=
  if g.hotCache.bytes ≥ (g.mainCache.bytes).tdiv 8 then
    { g with hotCache := g.hotCache.removeOldest }
  else
    { g with mainCache := g.mainCache.removeOldest }

/-- The `for` loop of `populate`; `none` when `fuel` passes did not reach the `return`. -/
def Group.rebalance : Nat → Group → Option Group
  | 0, _ => none
  | fuel + 1, g =>
    if g.mainCache.bytes + g.hotCache.bytes ≤ g.cacheBytes then some g
    else Group.rebalance fuel g.evictOne

def Group.populate (fuel : Nat) (g : Group) (key : String) (val : ByteView) (tier : Tier) :
    Option Group :=
  if g.cacheBytes ≤ 0 then some g
  else
    match tier with
    | .main => Group.rebalance fuel { g with mainCache := g.mainCache.add key val }
    | .hot => Group.rebalance fuel { g with hotCache := g.hotCache.add key val }

/-- The argument `r` is the number drawn by `rand.Intn(10)`. -/
def Group.getFromPeer (fuel : Nat) (g : Group) (peer : ProtoGetter) (key : String) (r : Nat) :
    Except Fault Reply :=
  match peer g.Name key with
  | .error err => .ok { g := g, value := { b := [] }, err := some err, calls := [.peer key] }
  | .ok bytes =>
    let val : ByteView := { b := bytes }
    if r = 0 then
      match g.populate fuel key val .hot with
      | some g1 => .ok { g := g1, value := val, err := none, calls := [.peer key] }
      | none => .error .outOfFuel
    else .ok { g := g, value := val, err := none, calls := [.peer key] }

/-- Modelled from the spec: `singleflight.Group.Do` (the package is not among the sources),
for a caller that finds no call in flight for `key`: it runs `fn` itself and returns
what `fn` returned. -/
def Do {α : Type} (_key : String) (fn : Unit → α) : α := fn ()

def Group.load (fuel : Nat) (g : Group) (key : String) (r : Nat) : Except Fault Reply :=
  let res : Except Fault Reply := Do key fun _ =>
    let lc := g.lookupCache key
    match lc.2 with
    | some v => .ok { g := lc.1, value := v, err := none, calls := [] }
    | none =>
      match lc.1.peers with
      | none => .error .nilCall
      | some picker =>
        match picker key with
        | some peer => lc.1.getFromPeer fuel peer key r
        | none =>
          let got := lc.1.getLocally key
          match got.2 with
          | some _ => .ok { g := lc.1, value := { b := [] }, err := none, calls := [.origin key] }
          | none =>
            match lc.1.populate fuel key got.1 .main with
            | some g1 => .ok { g := g1, value := got.1, err := none, calls := [.origin key] }
            | none => .error .outOfFuel
  match res with
  | .error f => .error f
  | .ok view =>
    match view.err with
    | none => .ok view
    | some err => .ok { view with value := { b := [] }, err := some err }

def Group.Get (fuel : Nat) (portPicker : PortPicker) (g : Group) (key : String) (r : Nat) :
    Except Fault Reply :=
  let inited : Except Fault Group :=
    if g.peersOnce then .ok g else Group.initPeers portPicker { g with peersOnce := true }
  match inited with
  | .error f => .error f
  | .ok g1 =>
    let lc := g1.lookupCache key
    match lc.2 with
    | some v => .ok { g := lc.1, value := v, err := none, calls := [] }
    | none => lc.1.load fuel key r

/-- A run of `Get` calls one after the other, each on the group left by the one before;
a request is a key with the number drawn by `rand.Intn(10)` for it. -/
def Group.runGets (fuel : Nat) (portPicker : PortPicker) :
    Group → List (String × Nat) → Except Fault (List Reply)
  | _, [] => .ok []
  | g, req :: rest =>
    match g.Get fuel portPicker req.1 req.2 with
    | .error f => .error f
    | .ok rep =>
      match Group.runGets fuel portPicker rep.g rest with
      | .error f => .error f
      | .ok reps => .ok (rep :: reps)

/-- The shape `cache.add` gives the LRU map of a tier, which no tier operation changes: once
built it has no entry limit and carries the byte-accounting callback. -/
def cache.Tidy (c : cache) : Prop :=
  ∀ l, c.lru = some l → l.MaxEntries = 0 ∧ l.onEvicted = some onEvicted

/-- A tier that holds nothing: no bytes counted and no resident entry. -/
def cache.Empty (c : cache) : Prop :=
  c.nBytes = 0 ∧ c.Tidy ∧ c.resident = []

/-- The fields of a group that `Get` never writes after the picker is installed. -/
def Group.sameConfig (g g1 : Group) : Prop :=
  g1.name = g.name ∧ g1.getter = g.getter ∧ g1.peers = g.peers ∧ g1.cacheBytes = g.cacheBytes

/-- The number of `add` calls in `ops`, run from the tier `c`, whose key was not resident
when the call was made: the entries that have entered the tier. -/
def cache.inserted (c : cache) : List TierOp → Int
  | [] => 0
  | .add key value :: ops =>
    (if key ∈ c.resident.map (·.key) then 0 else 1) + cache.inserted (c.add key value) ops
  | .get key :: ops => cache.inserted (c.get key).1 ops
  | .removeOldest :: ops => cache.inserted c.removeOldest ops

/-- No `add` of `ops`, run from the tier `c`, names a key that is resident at that moment. -/
def cache.noReadd (c : cache) : List TierOp → Prop
  | [] => True
  | .add key value :: ops =>
    key ∉ c.resident.map (·.key) ∧ cache.noReadd (c.add key value) ops
  | .get key :: ops => cache.noReadd (c.get key).1 ops
  | .removeOldest :: ops => cache.noReadd c.removeOldest ops

instance cache.decidableNoReadd : (ops : List TierOp) → (c : cache) →
    Decidable (cache.noReadd c ops)
  | [], _ => isTrue trivial
  | .add key value :: ops, c =>
    @instDecidableAnd _ _ inferInstance (cache.decidableNoReadd ops (c.add key value))
  | .get key :: ops, c => cache.decidableNoReadd ops (c.get key).1
  | .removeOldest :: ops, c => cache.decidableNoReadd ops c.removeOldest

/-- A tier whose byte counter is the summed cost of the entries it holds. -/
def cache.Accounted (c : cache) : Prop :=
  c.Tidy ∧ c.nBytes = c.residentCost

/-- A group whose two tiers are accounted. -/
def Group.Accounted (g : Group) : Prop :=
  g.mainCache.Accounted ∧ g.hotCache.Accounted

/-- The picker that answers `PickPeer` for `g` from its next `Get` on: the one already stored
in `g.peers`, or, for a group whose `sync.Once` has not run (every group as `NewGroup` returns
it), the one that `initPeers` will store, which is what the registered provider `portPicker`
returns for the group's name. -/
def Group.routed (portPicker : PortPicker) (g : Group) (picker : PeerPicker) : Prop :=
  g.peers = some picker ∨
    (g.peersOnce = false ∧ g.peers = none ∧
      ∃ f, portPicker = some f ∧ f g.Name = some picker)

end gcache

namespace consistenthash

/-- The Go type `Hash`, a function from bytes to `uint32`. The model takes a function to
`Nat` and reduces its result modulo 2^32 where the source converts it with `int(...)`. -/
abbrev Hash := String → Nat

/-- The Go `Map` struct. The Go map `hashMap` is a list of pairs holding each point once. -/
structure Map where
  hash : Hash
  replicas : Int
  keys : List Int
  hashMap : List (Int × String)

/-- The read `hashMap[k]` of a Go map; `none` when the key is absent. -/
def mapGet : List (Int × String) → Int → Option String
  | [], _ => none
  | e :: t, k => if e.1 = k then some e.2 else mapGet t k

/-- The write `hashMap[k] = v` of a Go map: an old pair for `k` is replaced. -/
def mapSet (hm : List (Int × String)) (k : Int) (v : String) : List (Int × String) :=
  (k, v) :: hm.filter (fun e => !decide (e.1 = k))

/-- `sort.Ints`: the ascending rearrangement of the slice (for integers every sorting
algorithm gives the same result). -/
def sortInts (l : List Int) : List Int := l.insertionSort (· ≤ ·)

/-- The loop of `sort.Search`: binary search between `i` and `j`, probing `(i + j) / 2`.
The first argument bounds the number of passes; `j - i` passes are always enough. -/
def searchLoop (f : Nat → Bool) : Nat → Nat → Nat → Nat
  | 0, i, _ => i
  | fuel + 1, i, j =>
    if i < j then
      if !f ((i + j) / 2) then searchLoop f fuel ((i + j) / 2 + 1) j
      else searchLoop f fuel i ((i + j) / 2)
    else i

/-- `sort.Search(n, f)`. -/
def Search (n : Nat) (f : Nat → Bool) : Nat := searchLoop f n 0 n

/-- `New(replicas, fn)`. The library function `crc32.ChecksumIEEE`, used when `fn` is nil,
is the parameter `ChecksumIEEE`. -/
def New (ChecksumIEEE : Hash) (replicas : Int) (fn : Option Hash) : Map :=
  { hash := fn.getD ChecksumIEEE, replicas := replicas, keys := [], hashMap := [] }

def Map.IsEmpty (m : Map) : Bool := decide (m.keys.length = 0)

/-- The point `int(m.hash([]byte(s)))`. -/
def Map.point (m : Map) (s : String) : Int := ((m.hash s % 4294967296 : Nat) : Int)

/-- The inner loop of `Add` for one peer: one point per replica index `i`, hashed from
`strconv.Itoa(i) + key`. A `replicas` below 1 gives no pass. -/
def Map.addPeer (m : Map) (key : String) : Map :=
  (List.range m.replicas.toNat).foldl
    (fun acc i =>
      { acc with
        keys := acc.keys ++ [acc.point (toString i ++ key)],
        hashMap := mapSet acc.hashMap (acc.point (toString i ++ key)) key })
    m

def Map.Add (m : Map) (keys : List String) : Map :=
  let m1 := keys.foldl Map.addPeer m
  { m1 with keys := sortInts m1.keys }

def Map.Get (m : Map) (key : String) : String :=
  if m.IsEmpty then ""
  else
    let hash := m.point key
    let idx := Search m.keys.length (fun i => decide (m.keys.getD i 0 ≥ hash))
    (mapGet m.hashMap (m.keys.getD (idx % m.keys.length) 0)).getD ""

/-- `Remove`: the pairs of `hashMap` whose peer is not in `keys` are kept (the map holds
each point once, so the kept pairs are the new map), their points are the new point list. -/
def Map.Remove (m : Map) (keys : List String) : Map :=
  let kept := m.hashMap.filter (fun e => !decide (e.2 ∈ keys))
  { m with keys := sortInts (kept.map (·.1)), hashMap := kept }

/-- The calls that change a ring. -/
inductive RingOp where
  | add (peers : List String)
  | remove (peers : List String)
deriving DecidableEq, Repr

def Map.step (m : Map) : RingOp → Map
  | .add peers => m.Add peers
  | .remove peers => m.Remove peers

def Map.run (m : Map) (ops : List RingOp) : Map := ops.foldl Map.step m

/-- The peers added and not removed since, after the calls `ops` on a set `reg`. -/
def registered (reg : List String) : List RingOp → List String
  | [] => reg
  | .add peers :: ops => registered (reg ++ peers) ops
  | .remove peers :: ops => registered (reg.filter (fun p => !decide (p ∈ peers))) ops

/-- The hash of the ring scenario of the specification: the decimal value of the string. -/
def atoi (s : String) : Nat := s.data.foldl (fun n c => 10 * n + (c.toNat - 48)) 0

/-- The points that `Add` computes for one peer. -/
def Map.pointsOf (m : Map) (key : String) : List Int :=
  (List.range m.replicas.toNat).map (fun i => m.point (toString i ++ key))

/-- The peers named in the `Add` calls of `ops`. -/
def addedPeers : List RingOp → List String
  | [] => []
  | .add peers :: ops => peers ++ addedPeers ops
  | .remove _ :: ops => addedPeers ops

/-- The state invariant of a ring whose registered peers are `reg`: the back-map holds
each point once, its points are those of the point list, and each pair maps a point computed
for a registered peer to that peer. -/
def Map.Inv (m : Map) (reg : List String) : Prop :=
  (m.hashMap.map (·.1)).Nodup ∧
  (∀ x, x ∈ m.keys ↔ x ∈ m.hashMap.map (·.1)) ∧
  (∀ x v, mapGet m.hashMap x = some v → v ∈ reg ∧ x ∈ m.pointsOf v)

/-- Every peer of `reg` owns all of its points: the back-map sends each of them to it. -/
def Map.Owns (m : Map) (reg : List String) : Prop :=
  ∀ q ∈ reg, ∀ x ∈ m.pointsOf q, mapGet m.hashMap x = some q

end consistenthash

/-! ## The LRU map: lookups and removals -/

namespace lru

variable {K V σ : Type}

theorem lookup_eq_none_iff_beq [BEq K] (l : List (entry K V)) (k : K) :
    lookup l k = none ↔ ∀ e ∈ l, (e.key == k) = false := by
  induction l with
  | nil => simp [lookup]
  | cons a l ih =>
    cases ha : a.key == k with
    | true => simp [lookup, ha]
    | false => simp [lookup, ha, ih]

theorem lookup_some_beq [BEq K] (l : List (entry K V)) (k : K) (i : Nat)
    (h : lookup l k = some i) :
    ∃ e, l[i]? = some e ∧ (e.key == k) = true ∧
      l.eraseIdx i = (l.take i) ++ (l.drop (i + 1)) ∧
      ∀ x ∈ l.take i, (x.key == k) = false := by
  induction l generalizing i with
  | nil => simp [lookup] at h
  | cons a l ih =>
    cases ha : a.key == k with
    | true =>
      simp [lookup, ha] at h
      subst h
      exact ⟨a, by simp, ha, by simp, by simp⟩
    | false =>
      simp only [lookup, ha, Bool.false_eq_true, if_false, Option.map_eq_some'] at h
      obtain ⟨j, hj, rfl⟩ := h
      obtain ⟨e, he1, he2, he3, he4⟩ := ih j hj
      refine ⟨e, by simpa using he1, he2, by simp [he3], ?_⟩
      intro x hx
      simp only [List.take_succ_cons, List.mem_cons] at hx
      rcases hx with hx | hx
      · rw [hx]; exact ha
      · exact he4 x hx

theorem lookup_eq_none_iff [DecidableEq K] (l : List (entry K V)) (k : K) :
    lookup l k = none ↔ k ∉ l.map (·.key) := by
  rw [lookup_eq_none_iff_beq]
  simp only [beq_eq_false_iff_ne, ne_eq, List.mem_map, not_exists, not_and]

theorem lookup_some_spec [DecidableEq K] (l : List (entry K V)) (k : K) (i : Nat)
    (h : lookup l k = some i) :
    ∃ e, l[i]? = some e ∧ e.key = k ∧ l.eraseIdx i = (l.take i) ++ (l.drop (i + 1)) ∧
      k ∉ (l.take i).map (·.key) := by
  obtain ⟨e, h1, h2, h3, h4⟩ := lookup_some_beq l k i h
  refine ⟨e, h1, by simpa using h2, h3, ?_⟩
  intro hmem
  obtain ⟨x, hx, hxk⟩ := List.mem_map.1 hmem
  have := h4 x hx
  simp only [beq_eq_false_iff_ne, ne_eq] at this
  exact this hxk

theorem back_eraseIdx (l : List (entry K V)) (hne : l ≠ []) :
    back l = some (l.length - 1) ∧ l[l.length - 1]? = some (l.getLast hne) ∧
      l.eraseIdx (l.length - 1) = l.dropLast := by
  have hlen : l.length ≠ 0 := by simpa using hne
  refine ⟨by simp [back, hlen], ?_, ?_⟩
  · rw [← List.getLast?_eq_getElem?, List.getLast?_eq_getLast l hne]
  · rw [List.dropLast_eq_eraseIdx]
    omega

/-- What `RemoveOldest` does on a cache whose list is not empty. -/
theorem RemoveOldest_of_ne_nil_beq [BEq K] (c : Cache K V σ) (s : σ) (l : List (entry K V))
    (hl : c.ll = some l) (hne : l ≠ []) :
    c.RemoveOldest s =
      ({ c with
         ll := some l.dropLast,
         stale := if (l.getLast hne).key == (l.getLast hne).key then c.stale
           else l.getLast hne :: c.stale },
        match c.onEvicted with
        | some fn => fn (l.getLast hne).key (l.getLast hne).val s
        | none => s) := by
  obtain ⟨h1, h2, h3⟩ := back_eraseIdx l hne
  simp only [Cache.RemoveOldest, hl, h1, Cache.removeElement, Option.getD_some, h2, h3]
  cases c.onEvicted <;> rfl

/-- The same when `==` is an equality: the map forgets the element. -/
theorem RemoveOldest_of_ne_nil [DecidableEq K] (c : Cache K V σ) (s : σ)
    (l : List (entry K V)) (hl : c.ll = some l) (hne : l ≠ []) :
    c.RemoveOldest s =
      ({ c with ll := some l.dropLast },
        match c.onEvicted with
        | some fn => fn (l.getLast hne).key (l.getLast hne).val s
        | none => s) := by
  rw [RemoveOldest_of_ne_nil_beq c s l hl hne]
  simp

theorem RemoveOldest_of_nil [BEq K] (c : Cache K V σ) (s : σ) (h : c.entries = []) :
    c.RemoveOldest s = (c, s) := by
  unfold Cache.entries at h
  cases hl : c.ll with
  | none => simp [Cache.RemoveOldest, hl]
  | some l =>
    simp [hl] at h
    subst h
    simp [Cache.RemoveOldest, hl, back, Cache.removeElement]

/-- What `Remove` does for a key that the map finds. -/
theorem Remove_of_lookup [BEq K] (c : Cache K V σ) (k : K) (s : σ)
    (l : List (entry K V)) (i : Nat) (e : entry K V)
    (hl : c.ll = some l) (hi : lookup l k = some i) (he : l[i]? = some e) :
    c.Remove k s =
      ({ c with
         ll := some (l.eraseIdx i),
         stale := if e.key == e.key then c.stale else e :: c.stale },
        match c.onEvicted with
        | some fn => fn e.key e.val s
        | none => s) := by
  simp only [Cache.Remove, hl, hi, Cache.removeElement, Option.getD_some, he]
  cases c.onEvicted <;> rfl

theorem Remove_of_not_found [BEq K] (c : Cache K V σ) (k : K) (s : σ)
    (h : ∀ e ∈ c.entries, (e.key == k) = false) : c.Remove k s = (c, s) := by
  unfold Cache.entries at h
  cases hl : c.ll with
  | none => simp [Cache.Remove, hl]
  | some l =>
    simp only [hl, Option.getD_some] at h
    have := (lookup_eq_none_iff_beq l k).2 h
    simp [Cache.Remove, hl, this]

theorem lookup_val_eq_find [BEq K] (l : List (entry K V)) (k : K) :
    (match lookup l k with
      | some i => l[i]?.map (·.val)
      | none => none) = (l.find? (fun e => e.key == k)).map (·.val) := by
  induction l with
  | nil => simp [lookup]
  | cons a l ih =>
    cases ha : a.key == k with
    | true => simp [lookup, ha]
    | false =>
      simp only [lookup, ha, Bool.false_eq_true, if_false, List.find?_cons]
      rw [← ih]
      cases lookup l k <;> simp

theorem Get_eq_beq [BEq K] (c : Cache K V σ) (k : K) :
    c.Get k = (c.entries.find? (fun e => e.key == k)).map (·.val) := by
  unfold Cache.Get Cache.get Cache.entries
  cases hl : c.ll with
  | none => simp
  | some l => simpa using lookup_val_eq_find l k

theorem Get_eq [DecidableEq K] (c : Cache K V σ) (k : K) :
    c.Get k = (c.entries.find? (fun e => e.key = k)).map (·.val) := by
  rw [Get_eq_beq]
  rfl

theorem Len_eq (c : Cache K V σ) : c.Len = (c.entries.length : Int) := by
  unfold Cache.Len Cache.entries
  cases c.ll <;> simp

theorem split_of_getElem (l : List (entry K V)) (i : Nat) (e : entry K V)
    (he : l[i]? = some e) : l = l.take i ++ e :: l.drop (i + 1) := by
  induction l generalizing i with
  | nil => simp at he
  | cons a l ih =>
    cases i with
    | zero => simp at he; simp [he]
    | succ j =>
      simp only [List.getElem?_cons_succ] at he
      simp only [List.take_succ_cons, List.drop_succ_cons, List.cons_append]
      rw [← ih j he]

end lru

namespace lru

variable {K V σ : Type}

/-- What `Add` does for a key the map finds: the element moves to the front with the new
value (and keeps the key it was stored under). -/
theorem Add_of_lookup [BEq K] (c : Cache K V σ) (k : K) (v : V) (s : σ) (i : Nat)
    (e : entry K V) (hi : lookup c.entries k = some i) (he : c.entries[i]? = some e) :
    c.Add k v s =
      ({ c with
         ll := some ({ key := e.key, val := v } :: c.entries.eraseIdx i),
         stale := c.mapStale }, s) := by
  unfold Cache.entries at hi he
  simp [Cache.Add, hi, moveToFront, he, Cache.entries]

/-- What `Add` does for a key the map does not find. -/
theorem Add_of_not_found [BEq K] (c : Cache K V σ) (k : K) (v : V) (s : σ)
    (h : lookup c.entries k = none) :
    c.Add k v s =
      if c.MaxEntries ≠ 0 ∧ ((c.entries.length + 1 : Nat) : Int) > c.MaxEntries then
        Cache.RemoveOldest
          { c with ll := some ({ key := k, val := v } :: c.entries), stale := c.mapStale } s
      else ({ c with ll := some ({ key := k, val := v } :: c.entries), stale := c.mapStale }, s) := by
  unfold Cache.entries at h
  simp [Cache.Add, h, Cache.entries]

theorem Add_of_not_mem [DecidableEq K] (c : Cache K V σ) (k : K) (v : V) (s : σ)
    (h : k ∉ c.entries.map (·.key)) :
    c.Add k v s =
      if c.MaxEntries ≠ 0 ∧ ((c.entries.length + 1 : Nat) : Int) > c.MaxEntries then
        Cache.RemoveOldest
          { c with ll := some ({ key := k, val := v } :: c.entries), stale := c.mapStale } s
      else ({ c with ll := some ({ key := k, val := v } :: c.entries), stale := c.mapStale }, s) :=
  Add_of_not_found c k v s ((lookup_eq_none_iff c.entries k).2 h)

theorem RemoveOldest_entries [BEq K] (c : Cache K V σ) (s : σ) :
    (c.RemoveOldest s).1.entries = c.entries.dropLast := by
  by_cases h : c.entries = []
  · rw [RemoveOldest_of_nil c s h, h]; rfl
  · cases hl : c.ll with
    | none => simp [Cache.entries, hl] at h
    | some l =>
      have hne : l ≠ [] := by simpa [Cache.entries, hl] using h
      rw [RemoveOldest_of_ne_nil_beq c s l hl hne]
      simp [Cache.entries, hl]

theorem RemoveOldest_fields [BEq K] (c : Cache K V σ) (s : σ) :
    (c.RemoveOldest s).1.MaxEntries = c.MaxEntries ∧
      (c.RemoveOldest s).1.onEvicted = c.onEvicted := by
  by_cases h : c.entries = []
  · rw [RemoveOldest_of_nil c s h]; exact ⟨rfl, rfl⟩
  · cases hl : c.ll with
    | none => simp [Cache.entries, hl] at h
    | some l =>
      have hne : l ≠ [] := by simpa [Cache.entries, hl] using h
      rw [RemoveOldest_of_ne_nil_beq c s l hl hne]
      exact ⟨rfl, rfl⟩

/-- The length after `Add`: one more only when the key is new and no eviction is due. -/
theorem Add_Len [BEq K] (c : Cache K V σ) (k : K) (v : V) (s : σ) :
    (c.Add k v s).1.Len =
      if (lookup c.entries k).isSome then c.Len
      else if c.MaxEntries ≠ 0 ∧ ((c.entries.length + 1 : Nat) : Int) > c.MaxEntries then c.Len
      else c.Len + 1 := by
  cases hi : lookup c.entries k with
  | some i =>
    obtain ⟨e, he, -, -, -⟩ := lookup_some_beq c.entries k i hi
    obtain ⟨hlt, -⟩ := List.getElem?_eq_some.1 he
    rw [Add_of_lookup c k v s i e hi he, Len_eq, Len_eq]
    simp only [Cache.entries, Option.getD_some, List.length_cons, Option.isSome_some, if_true]
    have := List.length_eraseIdx_of_lt hlt
    unfold Cache.entries at this hlt
    omega
  | none =>
    rw [Add_of_not_found c k v s hi]
    simp only [Option.isSome_none, Bool.false_eq_true, if_false]
    split
    · rw [Len_eq, Len_eq, RemoveOldest_entries]
      simp [Cache.entries]
    · rw [Len_eq, Len_eq]
      simp [Cache.entries]

theorem Add_MaxEntries [BEq K] (c : Cache K V σ) (k : K) (v : V) (s : σ) :
    (c.Add k v s).1.MaxEntries = c.MaxEntries := by
  cases hi : lookup c.entries k with
  | some i =>
    obtain ⟨e, he, -⟩ := lookup_some_beq c.entries k i hi
    rw [Add_of_lookup c k v s i e hi he]
  | none =>
    rw [Add_of_not_found c k v s hi]
    split
    · exact (RemoveOldest_fields _ s).1
    · rfl

/-- With `MaxEntries = 0` an `Add` calls no callback and keeps every key of the list. -/
theorem Add_unbounded [BEq K] (c : Cache K V σ) (k : K) (v : V) (s : σ)
    (h0 : c.MaxEntries = 0) :
    (c.Add k v s).2 = s ∧
      ∀ k1, k1 ∈ c.entries.map (·.key) → k1 ∈ (c.Add k v s).1.entries.map (·.key) := by
  cases hi : lookup c.entries k with
  | some i =>
    obtain ⟨e, he, hk, herase, -⟩ := lookup_some_beq c.entries k i hi
    rw [Add_of_lookup c k v s i e hi he]
    refine ⟨rfl, ?_⟩
    intro k1 hk1
    have hsplit := split_of_getElem c.entries i e he
    rw [hsplit] at hk1
    simp only [Cache.entries, Option.getD_some, List.map_cons, List.mem_cons]
    unfold Cache.entries at herase hk1
    rw [herase]
    simp only [List.map_append, List.map_cons, List.mem_append, List.mem_cons] at hk1 ⊢
    tauto
  | none =>
    rw [Add_of_not_found c k v s hi]
    simp only [h0, ne_eq, not_true_eq_false, false_and, if_false]
    refine ⟨trivial, ?_⟩
    intro k1 hk1
    simp only [Cache.entries, Option.getD_some, List.map_cons, List.mem_cons]
    exact Or.inr hk1

/-- With a positive `MaxEntries`, `Add` keeps the setting, keeps a length that was within
capacity within capacity, and never leaves more than the larger of the capacity and the
length before. -/
theorem Add_capacity [BEq K] (c : Cache K V σ) (k : K) (v : V) (s : σ)
    (hn : 0 < c.MaxEntries) :
    (c.Add k v s).1.MaxEntries = c.MaxEntries ∧
    (c.Len ≤ c.MaxEntries → (c.Add k v s).1.Len ≤ c.MaxEntries) ∧
    (c.Add k v s).1.Len ≤ max c.Len c.MaxEntries := by
  have hlen := Add_Len c k v s
  have hL := Len_eq c
  refine ⟨Add_MaxEntries c k v s, ?_, ?_⟩
  · intro hle
    rw [hlen]
    split
    · exact hle
    · split
      · exact hle
      · rename_i hc
        have hne : c.MaxEntries ≠ 0 := by omega
        simp only [hne, ne_eq, not_false_eq_true, true_and, not_lt] at hc
        push_cast at hc
        omega
  · rw [hlen]
    split
    · exact le_max_left _ _
    · split
      · exact le_max_left _ _
      · rename_i hc
        have hne : c.MaxEntries ≠ 0 := by omega
        simp only [hne, ne_eq, not_false_eq_true, true_and, not_lt] at hc
        push_cast at hc
        exact le_max_of_le_right (by omega)

theorem find_dropLast_getLast [DecidableEq K] (l : List (entry K V)) (hne : l ≠ [])
    (hnd : (l.map (·.key)).Nodup) :
    l.dropLast.find? (fun e => decide (e.key = (l.getLast hne).key)) = none := by
  rw [List.find?_eq_none]
  intro e he hek
  have hsplit := List.dropLast_append_getLast hne
  rw [← hsplit, List.map_append, List.nodup_append] at hnd
  have h1 : e.key ∈ l.dropLast.map (·.key) := List.mem_map.2 ⟨e, he, rfl⟩
  have h2 : e.key ∈ [l.getLast hne].map (·.key) := by
    simp only [decide_eq_true_eq] at hek
    simp [hek]
  exact hnd.2.2 h1 h2

end lru

/-! ## Claims on the LRU map -/

/-- C4: `Get` returns the value of a resident key but does not promote it (the method has no
effect on the cache, so the cache after `Get` is the cache before). With `a` added before
`b`, the hit `Get a` is followed by a `RemoveOldest` that evicts `a` and keeps `b`. -/
theorem C4_get_keeps_recency_order :
    ((((lru.New : lru.Cache String Nat Unit).Add "a" 1 ()).1.Add "b" 2 ()).1.Get "a" = some 1) ∧
    (((((lru.New : lru.Cache String Nat Unit).Add "a" 1 ()).1.Add "b" 2 ()).1.RemoveOldest ()).1.Get
      "a" = none) ∧
    (((((lru.New : lru.Cache String Nat Unit).Add "a" 1 ()).1.Add "b" 2 ()).1.RemoveOldest ()).1.Get
      "b" = some 2) := by
  decide

/-- C9: on a non-empty cache (one element per key) `RemoveOldest` removes exactly the entry at
the back of the recency order: `Len` is one less, that key misses afterwards, the other
entries and their order are unchanged (the old list is the new one followed by the removed
entry), and an installed callback has run exactly once, on the removed key and value. On an
empty cache `RemoveOldest` changes nothing and runs no callback. -/
theorem C9_remove_oldest {K V σ : Type} [DecidableEq K] (c : lru.Cache K V σ) (s : σ)
    (hwf : c.WF) :
    (∀ hne : c.entries ≠ [],
      (c.RemoveOldest s).1.Len = c.Len - 1 ∧
      (c.RemoveOldest s).1.Get (c.entries.getLast hne).key = none ∧
      (c.RemoveOldest s).1.entries = c.entries.dropLast ∧
      c.entries = (c.RemoveOldest s).1.entries ++ [c.entries.getLast hne] ∧
      (∀ fn, c.onEvicted = some fn →
        (c.RemoveOldest s).2 = fn (c.entries.getLast hne).key (c.entries.getLast hne).val s)) ∧
    (c.entries = [] → c.RemoveOldest s = (c, s)) := by
  refine ⟨?_, lru.RemoveOldest_of_nil c s⟩
  intro hne
  have hent := lru.RemoveOldest_entries c s
  refine ⟨?_, ?_, hent, ?_, ?_⟩
  · rw [lru.Len_eq, lru.Len_eq, hent, List.length_dropLast]
    have : c.entries.length ≠ 0 := by simpa using hne
    omega
  · rw [lru.Get_eq, hent, lru.find_dropLast_getLast c.entries hne hwf]; rfl
  · rw [hent, List.dropLast_append_getLast hne]
  · intro fn hfn
    cases hl : c.ll with
    | none => simp [lru.Cache.entries, hl] at hne
    | some l =>
      have hle : c.entries = l := by simp [lru.Cache.entries, hl]
      have hne1 : l ≠ [] := by rw [← hle]; exact hne
      rw [lru.RemoveOldest_of_ne_nil c s l hl hne1]
      simp [hfn, hle]

theorem C9_remove_oldest_witness :
    ((((lru.New : lru.Cache String Nat Unit).Add "a" 1 ()).1.Add "b" 2 ()).1.RemoveOldest ()).1.entries
      = (((lru.New : lru.Cache String Nat Unit).Add "a" 1 ()).1.Add "b" 2 ()).1.entries.dropLast :=
  ((C9_remove_oldest (((lru.New : lru.Cache String Nat Unit).Add "a" 1 ()).1.Add "b" 2 ()).1 ()
    (by decide)).1 (by decide)).2.2.1

/-- C10: an `Add` evicts one entry at most, so a capacity lowered below the length is not
restored: with three entries resident and `MaxEntries` then set to 1, an `Add` of a new key
leaves `Len = 3`. -/
theorem C10_lowered_capacity_exceeded :
    ((((((lru.New : lru.Cache String Nat Unit).Add "a" 1 ()).1.Add "b" 2 ()).1.Add "c" 3
        ()).1.SetMaxEntries 1).Add "d" 4 ()).1.Len = 3 ∧
    ((((((lru.New : lru.Cache String Nat Unit).Add "a" 1 ()).1.Add "b" 2 ()).1.Add "c" 3
        ()).1.SetMaxEntries 1).Add "d" 4 ()).1.MaxEntries = 1 := by
  decide

namespace lru

variable {K V σ : Type}

/-- With no two `==` keys in the list, unlinking the element found for `k` is dropping the
entries whose key is `==` to `k`. -/
theorem eraseIdx_lookup_eq_filter [BEq K] [PartialEquivBEq K] (l : List (entry K V)) (k : K)
    (i : Nat) (hd : l.Pairwise (fun a b => (a.key == b.key) = false))
    (hi : lookup l k = some i) :
    l.eraseIdx i = l.filter (fun e => !(e.key == k)) := by
  induction l generalizing i with
  | nil => simp [lookup] at hi
  | cons a l ih =>
    rw [List.pairwise_cons] at hd
    cases ha : a.key == k with
    | true =>
      simp [lookup, ha] at hi
      subst hi
      have hall : ∀ e ∈ l, (!(e.key == k)) = true := by
        intro e he
        cases hek : e.key == k with
        | false => rfl
        | true =>
          have h1 : (a.key == e.key) = true := BEq.trans ha (BEq.symm hek)
          rw [hd.1 e he] at h1
          cases h1
      rw [List.filter_cons_of_neg (by simp [ha])]
      exact (List.filter_eq_self.2 hall).symm
    | false =>
      simp only [lookup, ha, Bool.false_eq_true, if_false, Option.map_eq_some'] at hi
      obtain ⟨j, hj, rfl⟩ := hi
      rw [List.filter_cons_of_pos (by simp [ha])]
      simp [ih j hd.2 hj]

theorem find_filter_ne [BEq K] [PartialEquivBEq K] (l : List (entry K V)) (k k1 : K)
    (h : (k1 == k) = false) :
    (l.filter (fun e => !(e.key == k))).find? (fun e => e.key == k1) =
      l.find? (fun e => e.key == k1) := by
  rw [List.find?_filter]
  congr 1
  funext e
  cases hb : e.key == k1 with
  | false => simp
  | true =>
    cases hk : e.key == k with
    | false => rfl
    | true =>
      have h1 : (k1 == k) = true := BEq.trans (BEq.symm hb) hk
      rw [h] at h1
      cases h1

theorem find_filter_self [BEq K] (l : List (entry K V)) (k : K) :
    (l.filter (fun e => !(e.key == k))).find? (fun e => e.key == k) = none := by
  rw [List.find?_eq_none]
  intro e he
  simp only [List.mem_filter] at he
  simpa using he.2

/-- `Remove` on a cache with no two `==` keys, whether or not the key is found. -/
theorem Remove_entries [BEq K] [PartialEquivBEq K] (c : Cache K V σ) (k : K) (s : σ)
    (hd : c.Distinct) :
    (c.Remove k s).1.entries = c.entries.filter (fun e => !(e.key == k)) := by
  cases hi : lookup c.entries k with
  | some i =>
    cases hl : c.ll with
    | none => simp [Cache.entries, hl, lookup] at hi
    | some l =>
      have hle : c.entries = l := by simp [Cache.entries, hl]
      rw [hle] at hi
      obtain ⟨e, he, -⟩ := lookup_some_beq l k i hi
      rw [Remove_of_lookup c k s l i e hl hi he, hle]
      have hd1 : l.Pairwise (fun a b => (a.key == b.key) = false) := by rw [← hle]; exact hd
      simp [Cache.entries, eraseIdx_lookup_eq_filter l k i hd1 hi]
  | none =>
    have hall := (lookup_eq_none_iff_beq c.entries k).1 hi
    rw [Remove_of_not_found c k s hall]
    symm
    rw [List.filter_eq_self]
    intro e he
    simp [hall e he]

theorem lookup_isSome_of_mem [BEq K] (l : List (entry K V)) (k : K) (e : entry K V)
    (he : e ∈ l) (hek : (e.key == k) = true) : ∃ i, lookup l k = some i := by
  cases hi : lookup l k with
  | some i => exact ⟨i, rfl⟩
  | none =>
    have := (lookup_eq_none_iff_beq l k).1 hi e he
    rw [hek] at this
    cases this

theorem length_filter_of_found [BEq K] [PartialEquivBEq K] (l : List (entry K V)) (k : K)
    (i : Nat) (hd : l.Pairwise (fun a b => (a.key == b.key) = false))
    (hi : lookup l k = some i) :
    (l.filter (fun e => !(e.key == k))).length + 1 = l.length := by
  obtain ⟨e, he, -⟩ := lookup_some_beq l k i hi
  rw [← eraseIdx_lookup_eq_filter l k i hd hi]
  obtain ⟨hlt, -⟩ := List.getElem?_eq_some.1 he
  rw [List.length_eraseIdx_of_lt hlt]
  omega

/-- The first element of the list after `Add`: it carries the new value under the key `k`,
or under the `==` key it was stored with. The one exception is an empty cache with a negative
`MaxEntries`, where the element is evicted at once. -/
theorem Add_entries_head [BEq K] (c : Cache K V σ) (k : K) (v : V) (s : σ)
    (hcap : 0 ≤ c.MaxEntries ∨ c.entries ≠ []) :
    ∃ e rest, (c.Add k v s).1.entries = e :: rest ∧ e.val = v ∧
      (e.key = k ∨ (e.key == k) = true) := by
  cases hi : lookup c.entries k with
  | some i =>
    obtain ⟨e, he, hk, -, -⟩ := lookup_some_beq c.entries k i hi
    rw [Add_of_lookup c k v s i e hi he]
    exact ⟨{ key := e.key, val := v }, c.entries.eraseIdx i, by simp [Cache.entries], rfl, Or.inr hk⟩
  | none =>
    rw [Add_of_not_found c k v s hi]
    split
    · rename_i hc
      rw [RemoveOldest_entries]
      have hne : c.entries ≠ [] := by
        rcases hcap with h | h
        · intro h0
          rw [h0] at hc
          simp at hc
          omega
        · exact h
      refine ⟨{ key := k, val := v }, c.entries.dropLast, ?_, rfl, Or.inl rfl⟩
      simp only [Cache.entries, Option.getD_some] at hne ⊢
      rw [List.dropLast_cons_of_ne_nil hne]
    · exact ⟨{ key := k, val := v }, c.entries, by simp [Cache.entries], rfl, Or.inl rfl⟩

end lru

/-- C6, as stated, fails in two cases. On an empty cache with a negative `MaxEntries` the
entry just added is evicted by the same `Add`, and the following `Get` misses. And a key that
is not equal to itself (a NaN) is never found: after `Add(NaN, 7)` with no entry limit the
entry is in the list, but `Get(NaN)` misses. -/
theorem C6_round_trip_misses :
    ((((lru.New : lru.Cache String Nat Unit).SetMaxEntries (-1)).Add "k" 7 ()).1.Get "k" = none) ∧
    ((((lru.New : lru.Cache String Nat Unit).SetMaxEntries (-1)).Add "k" 7 ()).1.entries = []) ∧
    (((lru.New : lru.Cache lru.IKey Nat Unit).Add .nan 7 ()).1.Get .nan = none) ∧
    (((lru.New : lru.Cache lru.IKey Nat Unit).Add .nan 7 ()).1.entries.map (·.val) = [7]) := by
  decide

/-- C6 (amended): for every cache state other than an empty cache with a negative
`MaxEntries`, every key `k` and value `v`: right after `Add k v` the front of the recency
order holds `v` under `k` (or under the `==` key it was stored with), and when `k` is equal to
itself `Get k` returns `v` as a hit; and `Get` of a key that no resident key is `==` to is a
miss. -/
theorem C6_add_get_roundtrip {K V σ : Type} [BEq K] (c : lru.Cache K V σ) (k : K)
    (v : V) (s : σ) (hcap : 0 ≤ c.MaxEntries ∨ c.entries ≠ []) :
    (∃ e, (c.Add k v s).1.entries.head? = some e ∧ e.val = v ∧
      (e.key = k ∨ (e.key == k) = true)) ∧
    ((k == k) = true → (c.Add k v s).1.Get k = some v) ∧
    (∀ (c1 : lru.Cache K V σ) (k1 : K),
      (∀ e ∈ c1.entries, (e.key == k1) = false) → c1.Get k1 = none) := by
  obtain ⟨e, rest, hr, hv, hk⟩ := lru.Add_entries_head c k v s hcap
  refine ⟨⟨e, by rw [hr]; rfl, hv, hk⟩, ?_, ?_⟩
  · intro hkk
    have hek : (e.key == k) = true := by
      rcases hk with h | h
      · rw [h]; exact hkk
      · exact h
    rw [lru.Get_eq_beq, hr]
    simp [hek, hv]
  · intro c1 k1 hk1
    rw [lru.Get_eq_beq]
    have : c1.entries.find? (fun e => e.key == k1) = none := by
      rw [List.find?_eq_none]
      intro e he
      simp [hk1 e he]
    rw [this]; rfl

theorem C6_add_get_roundtrip_witness :
    (((lru.New : lru.Cache lru.IKey Nat Unit).Add .nan 1 ()).1.Add (.str "k") 7 ()).1.Get
      (.str "k") = some 7 :=
  (C6_add_get_roundtrip ((lru.New : lru.Cache lru.IKey Nat Unit).Add .nan 1 ()).1 (.str "k") 7
    () (Or.inl (by decide))).2.1 (by decide)

/-- C7, as stated, fails for a key that is not equal to itself: after `Add(NaN, 7)` the entry
is in the cache (`Len = 1`), but `Remove(NaN)` finds nothing, and `Len` is still 1 with the
entry in place. -/
theorem C7_remove_misses_nan :
    ((lru.New : lru.Cache lru.IKey Nat Unit).Add .nan 7 ()).1.Len = 1 ∧
    (((lru.New : lru.Cache lru.IKey Nat Unit).Add .nan 7 ()).1.Remove .nan ()).1.Len = 1 ∧
    (((lru.New : lru.Cache lru.IKey Nat Unit).Add .nan 7 ()).1.Remove .nan ()).1.entries.map
      (·.val) = [7] := by
  decide

/-- C7 (amended): on a cache with no two `==` keys, after `Remove k` the call `Get k` misses;
if a resident key is `==` to `k` (as `k` itself is when it is resident and equal to itself)
`Len` goes down by exactly 1, otherwise the cache (and the callback state) is unchanged; every
key that is not `==` to `k` gets the same `Get` result as before; and the remaining entries
keep their relative order (the new list is the old one without the entry found for `k`). -/
theorem C7_remove {K V σ : Type} [BEq K] [PartialEquivBEq K] (c : lru.Cache K V σ) (k : K)
    (s : σ) (hd : c.Distinct) :
    (c.Remove k s).1.Get k = none ∧
    ((∃ e ∈ c.entries, (e.key == k) = true) → (c.Remove k s).1.Len = c.Len - 1) ∧
    ((k == k) = true → k ∈ c.entries.map (·.key) → (c.Remove k s).1.Len = c.Len - 1) ∧
    ((∀ e ∈ c.entries, (e.key == k) = false) → c.Remove k s = (c, s)) ∧
    (∀ k1, (k1 == k) = false → (c.Remove k s).1.Get k1 = c.Get k1) ∧
    (c.Remove k s).1.entries = c.entries.filter (fun e => !(e.key == k)) := by
  have hent := lru.Remove_entries c k s hd
  have hlen : (∃ e ∈ c.entries, (e.key == k) = true) → (c.Remove k s).1.Len = c.Len - 1 := by
    rintro ⟨e, he, hek⟩
    obtain ⟨i, hi⟩ := lru.lookup_isSome_of_mem c.entries k e he hek
    rw [lru.Len_eq, lru.Len_eq, hent]
    have := lru.length_filter_of_found c.entries k i hd hi
    omega
  refine ⟨?_, hlen, ?_, lru.Remove_of_not_found c k s, ?_, hent⟩
  · rw [lru.Get_eq_beq, hent, lru.find_filter_self]; rfl
  · intro hkk hmem
    obtain ⟨e, he, hek⟩ := List.mem_map.1 hmem
    exact hlen ⟨e, he, by rw [hek]; exact hkk⟩
  · intro k1 hk1
    rw [lru.Get_eq_beq, lru.Get_eq_beq, hent, lru.find_filter_ne c.entries k k1 hk1]

theorem C7_remove_witness :
    ((((lru.New : lru.Cache lru.IKey Nat Unit).Add .nan 1 ()).1.Add (.str "a") 2 ()).1.Remove
      (.str "a") ()).1.Get (.str "a") = none :=
  (C7_remove (((lru.New : lru.Cache lru.IKey Nat Unit).Add .nan 1 ()).1.Add (.str "a") 2 ()).1
    (.str "a") () (by decide)).1

namespace lru

variable {K V σ : Type}

theorem foldl_record (l : List (entry K V)) (log : List (K × V)) :
    l.foldl (fun acc kv => record kv.key kv.val acc) log = log ++ l.map entry.pair := by
  induction l generalizing log with
  | nil => simp
  | cons a l ih =>
    simp only [List.foldl_cons, List.map_cons]
    rw [ih]
    simp [record, entry.pair]

/-- A hit of `Get` names the element found by the map and its value. -/
theorem Get_some_lookup [BEq K] (c : Cache K V σ) (k : K) (v : V)
    (h : c.Get k = some v) :
    ∃ l i e, c.ll = some l ∧ lookup l k = some i ∧ l[i]? = some e ∧ (e.key == k) = true ∧
      e.val = v := by
  unfold Cache.Get Cache.get at h
  cases hl : c.ll with
  | none => simp [hl] at h
  | some l =>
    simp only [hl] at h
    cases hi : lookup l k with
    | none => simp [hi] at h
    | some i =>
      obtain ⟨e, he, hk, -, -⟩ := lookup_some_beq l k i hi
      simp only [hi, he, Option.map_some', Option.some.injEq] at h
      exact ⟨l, i, e, rfl, hi, he, hk, h⟩

theorem Add_found_entries [BEq K] [PartialEquivBEq K] (c : Cache K V σ) (k : K) (v : V)
    (s : σ) (hd : c.Distinct) (i : Nat) (e : entry K V) (hi : lookup c.entries k = some i)
    (he : c.entries[i]? = some e) :
    c.Add k v s =
      ({ c with
         ll := some ({ key := e.key, val := v } :: c.entries.filter (fun x => !(x.key == k))),
         stale := c.mapStale }, s) := by
  rw [Add_of_lookup c k v s i e hi he, eraseIdx_lookup_eq_filter c.entries k i hd hi]

end lru

/-- C8, as stated, fails for a key that is not equal to itself: `delete` does not find it, so
the map keeps the element after it has left the list. After `Add(NaN, 7)` and `RemoveOldest`
the callback has run once and `Len` is 0; `Clear`, which walks the map, then runs the callback
a second time for the entry that has already left. -/
theorem C8_clear_repeats_callback :
    ((((lru.New : lru.Cache lru.IKey Nat (List (lru.IKey × Nat))).SetOnEvicted
        (some lru.record)).Add .nan 7 []).1.RemoveOldest []).2.map (·.2) = [7] ∧
    ((((lru.New : lru.Cache lru.IKey Nat (List (lru.IKey × Nat))).SetOnEvicted
        (some lru.record)).Add .nan 7 []).1.RemoveOldest []).1.Len = 0 ∧
    (((((lru.New : lru.Cache lru.IKey Nat (List (lru.IKey × Nat))).SetOnEvicted
        (some lru.record)).Add .nan 7 []).1.RemoveOldest []).1.Clear
      ((((lru.New : lru.Cache lru.IKey Nat (List (lru.IKey × Nat))).SetOnEvicted
        (some lru.record)).Add .nan 7 []).1.RemoveOldest []).2).2.map (·.2) = [7, 7] := by
  decide

/-- C8 (amended): with the logging callback installed on a cache with no two `==` keys, every
way an entry leaves the list is logged once with its key and current value, and nothing else
is logged: `Remove` of a key the map finds logs that entry and drops only it; `RemoveOldest`
on a non-empty cache logs the back entry and drops only it; an `Add` that must evict logs the
back entry of the list after insertion and drops only it; an `Add` that need not evict logs
nothing and keeps every other entry; `Clear` logs once each element the map points to (in an
order Go does not fix), which are the resident entries and the elements that left the list
under a key not equal to itself, and leaves `Len = 0`; so when the map holds no such element,
`Clear` logs each resident entry once and nothing else. -/
theorem C8_callback_on_every_removal {K V : Type} [BEq K] [PartialEquivBEq K]
    (c : lru.Cache K V (List (K × V))) (log : List (K × V)) (hd : c.Distinct)
    (hcb : c.onEvicted = some lru.record) :
    (∀ k v, c.Get k = some v →
      ∃ e ∈ c.entries, (e.key == k) = true ∧ e.val = v ∧
        (c.Remove k log).2 = log ++ [e.pair] ∧
        (c.Remove k log).1.entries = c.entries.filter (fun x => !(x.key == k))) ∧
    (∀ hne : c.entries ≠ [],
      (c.RemoveOldest log).2 = log ++ [(c.entries.getLast hne).pair] ∧
      (c.RemoveOldest log).1.entries = c.entries.dropLast) ∧
    (∀ k v, (∀ e ∈ c.entries, (e.key == k) = false) →
      (c.MaxEntries ≠ 0 ∧ ((c.entries.length + 1 : Nat) : Int) > c.MaxEntries) →
      (c.Add k v log).2 =
        log ++ [((({ key := k, val := v } : lru.entry K V) :: c.entries).getLast
          (List.cons_ne_nil _ _)).pair] ∧
      (c.Add k v log).1.entries = (({ key := k, val := v } : lru.entry K V) :: c.entries).dropLast) ∧
    (∀ k v, ¬ ((∀ e ∈ c.entries, (e.key == k) = false) ∧
        (c.MaxEntries ≠ 0 ∧ ((c.entries.length + 1 : Nat) : Int) > c.MaxEntries)) →
      (c.Add k v log).2 = log ∧
      ∃ e, e.val = v ∧ (e.key = k ∨ (e.key == k) = true) ∧
        (c.Add k v log).1.entries = e :: c.entries.filter (fun x => !(x.key == k))) ∧
    (∃ ev, (c.Clear log).2 = log ++ ev ∧
      ev.Perm ((c.entries ++ c.mapStale).map lru.entry.pair) ∧ (c.Clear log).1.Len = 0) ∧
    (c.mapStale = [] →
      ∃ ev, (c.Clear log).2 = log ++ ev ∧ ev.Perm (c.entries.map lru.entry.pair) ∧
        (c.Clear log).1.Len = 0) := by
  have hme : c.mapEntries = c.entries ++ c.mapStale := by
    unfold lru.Cache.mapEntries lru.Cache.entries lru.Cache.mapStale
    cases hl : c.ll with
    | none => rfl
    | some l => rfl
  have hclear : (c.Clear log).2 = log ++ (c.entries ++ c.mapStale).map lru.entry.pair := by
    simp only [lru.Cache.Clear, hcb, hme]
    exact lru.foldl_record _ log
  refine ⟨?_, ?_, ?_, ?_, ?_, ?_⟩
  · intro k v hget
    obtain ⟨l, i, e, hl, hi, he, hek, hev⟩ := lru.Get_some_lookup c k v hget
    have hle : c.entries = l := by simp [lru.Cache.entries, hl]
    refine ⟨e, by rw [hle]; exact List.getElem?_mem he, hek, hev, ?_,
      lru.Remove_entries c k log hd⟩
    rw [lru.Remove_of_lookup c k log l i e hl hi he]
    simp [hcb, lru.record, lru.entry.pair]
  · intro hne
    refine ⟨?_, lru.RemoveOldest_entries c log⟩
    cases hl : c.ll with
    | none => simp [lru.Cache.entries, hl] at hne
    | some l =>
      have hle : c.entries = l := by simp [lru.Cache.entries, hl]
      have hne1 : l ≠ [] := by rw [← hle]; exact hne
      rw [lru.RemoveOldest_of_ne_nil_beq c log l hl hne1]
      simp [hcb, hle, lru.record, lru.entry.pair]
  · intro k v hk hc
    have hi := (lru.lookup_eq_none_iff_beq c.entries k).2 hk
    rw [lru.Add_of_not_found c k v log hi, if_pos hc]
    refine ⟨?_, ?_⟩
    · rw [lru.RemoveOldest_of_ne_nil_beq _ log _ rfl (List.cons_ne_nil _ _)]
      simp [hcb, lru.record, lru.entry.pair]
    · rw [lru.RemoveOldest_entries]
      simp [lru.Cache.entries]
  · intro k v hc
    cases hi : lru.lookup c.entries k with
    | some i =>
      obtain ⟨e, he, hek, -, -⟩ := lru.lookup_some_beq c.entries k i hi
      rw [lru.Add_found_entries c k v log hd i e hi he]
      exact ⟨rfl, { key := e.key, val := v }, rfl, Or.inr hek, by simp [lru.Cache.entries]⟩
    | none =>
      have hall := (lru.lookup_eq_none_iff_beq c.entries k).1 hi
      have hc2 : ¬ (c.MaxEntries ≠ 0 ∧ ((c.entries.length + 1 : Nat) : Int) > c.MaxEntries) :=
        fun h => hc ⟨hall, h⟩
      rw [lru.Add_of_not_found c k v log hi, if_neg hc2]
      refine ⟨rfl, { key := k, val := v }, rfl, Or.inl rfl, ?_⟩
      have hf : c.entries.filter (fun x => !(x.key == k)) = c.entries := by
        rw [List.filter_eq_self]
        intro e he
        simp [hall e he]
      rw [hf]
      simp [lru.Cache.entries]
  · exact ⟨_, hclear, List.Perm.refl _, by simp [lru.Cache.Clear, lru.Cache.Len]⟩
  · intro hst
    refine ⟨c.entries.map lru.entry.pair, ?_, List.Perm.refl _, ?_⟩
    · rw [hclear, hst, List.append_nil]
    · simp [lru.Cache.Clear, lru.Cache.Len]

theorem C8_callback_on_every_removal_witness :
    (((((lru.New : lru.Cache lru.IKey Nat (List (lru.IKey × Nat))).SetOnEvicted
        (some lru.record)).Add .nan 1 []).1.Add (.str "a") 2 []).1.RemoveOldest []).1.entries =
      ((((lru.New : lru.Cache lru.IKey Nat (List (lru.IKey × Nat))).SetOnEvicted
        (some lru.record)).Add .nan 1 []).1.Add (.str "a") 2 []).1.entries.dropLast :=
  ((C8_callback_on_every_removal
    ((((lru.New : lru.Cache lru.IKey Nat (List (lru.IKey × Nat))).SetOnEvicted
      (some lru.record)).Add .nan 1 []).1.Add (.str "a") 2 []).1 [] (by decide) rfl).2.1
    (List.ne_nil_of_length_pos (by decide))).2

namespace lru

variable {K V σ : Type}

theorem addAll_concat [BEq K] (c : Cache K V σ) (kvs : List (K × V)) (x : K × V)
    (s : σ) :
    c.addAll (kvs ++ [x]) s = (c.addAll kvs s).1.Add x.1 x.2 (c.addAll kvs s).2 := by
  simp [Cache.addAll, List.foldl_append]

/-- The state reached by adding pairwise distinct keys to a fresh cache of capacity `n`:
the log holds a prefix `ev` of the input, the list the remaining pairs, newest first. -/
theorem addAll_fresh [BEq K] (n : Nat) (hn : 0 < n) (kvs : List (K × V))
    (hd : kvs.Pairwise (fun a b => (a.1 == b.1) = false)) :
    ∃ ev res, kvs = ev ++ res ∧ res.length = min kvs.length n ∧
      ((((New : Cache K V (List (K × V))).SetMaxEntries n).SetOnEvicted (some record)).addAll
          kvs []).2 = ev ∧
      ((((New : Cache K V (List (K × V))).SetMaxEntries n).SetOnEvicted (some record)).addAll
          kvs []).1.entries = res.reverse.map entry.ofPair ∧
      ((((New : Cache K V (List (K × V))).SetMaxEntries n).SetOnEvicted (some record)).addAll
          kvs []).1.MaxEntries = n ∧
      ((((New : Cache K V (List (K × V))).SetMaxEntries n).SetOnEvicted (some record)).addAll
          kvs []).1.onEvicted = some record := by
  induction kvs using List.reverseRecOn with
  | nil =>
    exact ⟨[], [], rfl, by simp, rfl, rfl, rfl, rfl⟩
  | append_singleton kvs x ih =>
    rw [List.pairwise_append] at hd
    obtain ⟨hd1, -, hdx⟩ := hd
    obtain ⟨ev, res, hsplit, hlen, h2, h3, h4, h5⟩ := ih hd1
    rw [addAll_concat]
    generalize ((((New : Cache K V (List (K × V))).SetMaxEntries n).SetOnEvicted
      (some record)).addAll kvs []) = st at h2 h3 h4 h5
    have hres : ∀ p ∈ res, (p.1 == x.1) = false := by
      intro p hp
      exact hdx p (by rw [hsplit]; exact List.mem_append_right _ hp) x (List.mem_singleton.2 rfl)
    have hi : lookup st.1.entries x.1 = none := by
      rw [lookup_eq_none_iff_beq, h3]
      intro e he
      obtain ⟨p, hp, rfl⟩ := List.mem_map.1 he
      exact hres p (List.mem_reverse.1 hp)
    rw [Add_of_not_found st.1 x.1 x.2 st.2 hi, h4, h3, h2]
    simp only [List.length_map, List.length_reverse]
    by_cases hc : n ≤ kvs.length
    · have hlen2 : res.length = n := by rw [hlen]; exact Nat.min_eq_right hc
      have hcond : (n : Int) ≠ 0 ∧ ((res.length + 1 : Nat) : Int) > (n : Int) := by
        constructor
        · omega
        · rw [hlen2]; push_cast; omega
      rw [if_pos hcond]
      cases res with
      | nil => simp at hlen2; omega
      | cons r0 rs =>
        refine ⟨ev ++ [r0], rs ++ [x], by simp [hsplit], ?_, ?_, ?_, ?_, ?_⟩
        · simp only [List.length_append, List.length_cons, List.length_nil] at hlen2 ⊢
          omega
        · rw [RemoveOldest_of_ne_nil_beq _ ev _ rfl (List.cons_ne_nil _ _)]
          simp [h5, record, entry.ofPair, List.getLast_cons]
        · rw [RemoveOldest_entries]
          simp [Cache.entries, entry.ofPair, List.dropLast_cons_of_ne_nil]
        · rw [(RemoveOldest_fields _ ev).1]
        · rw [(RemoveOldest_fields _ ev).2]
          exact h5
    · have hlen2 : res.length = kvs.length := by rw [hlen]; exact Nat.min_eq_left (by omega)
      have hcond : ¬ ((n : Int) ≠ 0 ∧ ((res.length + 1 : Nat) : Int) > (n : Int)) := by
        rw [hlen2]; push_cast; omega
      rw [if_neg hcond]
      refine ⟨ev, res ++ [x], by simp [hsplit], ?_, rfl, ?_, rfl, h5⟩
      · simp only [List.length_append, List.length_cons, List.length_nil]
        omega
      · simp [Cache.entries, entry.ofPair]

theorem find_ofPair_of_mem [BEq K] [PartialEquivBEq K] (l : List (K × V)) (p : K × V)
    (hd : l.Pairwise (fun a b => (b.1 == a.1) = false)) (hp : p ∈ l)
    (hpp : (p.1 == p.1) = true) :
    (l.map entry.ofPair).find? (fun e => e.key == p.1) = some (entry.ofPair p) := by
  induction l with
  | nil => simp at hp
  | cons a l ih =>
    rw [List.pairwise_cons] at hd
    cases ha : a.1 == p.1 with
    | true =>
      have hap : p = a := by
        rcases List.mem_cons.1 hp with h | h
        · exact h
        · have h1 := hd.1 p h
          rw [BEq.symm ha] at h1
          cases h1
      subst hap
      simp [entry.ofPair, ha]
    | false =>
      have hpl : p ∈ l := by
        rcases List.mem_cons.1 hp with h | h
        · subst h
          rw [ha] at hpp
          cases hpp
        · exact h
      simp only [List.map_cons, List.find?_cons, entry.ofPair, ha]
      exact ih hd.2 hpl

end lru

/-- C5, as stated, fails for a key that is not equal to itself: after the single key NaN is
added to a fresh cache of capacity 1, nothing has been evicted and `Len` is 1, but `Get(NaN)`
misses although it is the last key added. -/
theorem C5_nan_key_misses :
    ((((lru.New : lru.Cache lru.IKey Nat (List (lru.IKey × Nat))).SetMaxEntries (1 : Nat)).SetOnEvicted
        (some lru.record)).addAll [(.nan, 1)] []).2.length = 0 ∧
    ((((lru.New : lru.Cache lru.IKey Nat (List (lru.IKey × Nat))).SetMaxEntries (1 : Nat)).SetOnEvicted
        (some lru.record)).addAll [(.nan, 1)] []).1.Len = 1 ∧
    ((((lru.New : lru.Cache lru.IKey Nat (List (lru.IKey × Nat))).SetMaxEntries (1 : Nat)).SetOnEvicted
        (some lru.record)).addAll [(.nan, 1)] []).1.Get .nan = none := by
  decide

/-- C5 (amended): for a capacity `n > 0` and keys no two of which are `==`, added in order to a
fresh cache with `MaxEntries = n` and the logging callback, the callback has fired exactly for
the first `m - n` pairs, in the order added (for none when `m ≤ n`), `Len` is `min m n`, and
each of the last `min m n` pairs added whose key is equal to itself is a hit with its
value. -/
theorem C5_eviction_order {K V : Type} [BEq K] [PartialEquivBEq K] (n : Nat) (hn : 0 < n)
    (kvs : List (K × V)) (hd : kvs.Pairwise (fun a b => (a.1 == b.1) = false)) :
    ((((lru.New : lru.Cache K V (List (K × V))).SetMaxEntries n).SetOnEvicted
        (some lru.record)).addAll kvs []).2 = kvs.take (kvs.length - n) ∧
    ((((lru.New : lru.Cache K V (List (K × V))).SetMaxEntries n).SetOnEvicted
        (some lru.record)).addAll kvs []).1.Len = ((min kvs.length n : Nat) : Int) ∧
    (∀ p ∈ kvs.drop (kvs.length - n), (p.1 == p.1) = true →
      ((((lru.New : lru.Cache K V (List (K × V))).SetMaxEntries n).SetOnEvicted
        (some lru.record)).addAll kvs []).1.Get p.1 = some p.2) := by
  obtain ⟨ev, res, hsplit, hlen, h2, h3, -, -⟩ := lru.addAll_fresh n hn kvs hd
  have hlen3 : kvs.length = ev.length + res.length := by rw [hsplit]; simp
  have hev : ev.length = kvs.length - n := by omega
  refine ⟨?_, ?_, ?_⟩
  · rw [h2]
    conv_rhs => rw [hsplit]
    rw [show (ev ++ res).length - n = ev.length by rw [← hsplit]; exact hev.symm]
    exact (List.take_left ev res).symm
  · rw [lru.Len_eq, h3]
    simp [hlen]
  · intro p hp hpp
    have hp2 : p ∈ res := by
      rw [← hev] at hp
      conv at hp => rw [hsplit]
      rwa [List.drop_left] at hp
    have hd2 : res.reverse.Pairwise (fun a b => (b.1 == a.1) = false) := by
      rw [List.pairwise_reverse]
      rw [hsplit, List.pairwise_append] at hd
      exact hd.2.1
    rw [lru.Get_eq_beq, h3,
      lru.find_ofPair_of_mem res.reverse p hd2 (List.mem_reverse.2 hp2) hpp]
    rfl

theorem C5_eviction_order_witness :
    ((((lru.New : lru.Cache lru.IKey Nat (List (lru.IKey × Nat))).SetMaxEntries (2 : Nat)).SetOnEvicted
        (some lru.record)).addAll [(.str "a", 1), (.nan, 2), (.str "c", 3)] []).1.Len =
      ((min ([(.str "a", 1), (.nan, 2), (.str "c", 3)] : List (lru.IKey × Nat)).length 2 : Nat)
        : Int) :=
  (@C5_eviction_order lru.IKey Nat _ _ 2 (by decide) [(.str "a", 1), (.nan, 2), (.str "c", 3)]
    (by simp [BEq.beq, lru.IKey.eq])).2.1

/-! ## No operation puts two `==` keys in the list -/

namespace lru

variable {K V σ : Type}

theorem New_Distinct [BEq K] : (New : Cache K V σ).Distinct :=
  List.Pairwise.nil

theorem RemoveOldest_Distinct [BEq K] (c : Cache K V σ) (s : σ) (hd : c.Distinct) :
    (c.RemoveOldest s).1.Distinct := by
  unfold Cache.Distinct
  rw [RemoveOldest_entries]
  exact List.Pairwise.sublist (List.dropLast_sublist _) hd

theorem Remove_Distinct [BEq K] [PartialEquivBEq K] (c : Cache K V σ) (k : K) (s : σ)
    (hd : c.Distinct) : (c.Remove k s).1.Distinct := by
  unfold Cache.Distinct
  rw [Remove_entries c k s hd]
  exact List.Pairwise.sublist (List.filter_sublist _) hd

theorem Add_Distinct [BEq K] [PartialEquivBEq K] (c : Cache K V σ) (k : K) (v : V) (s : σ)
    (hd : c.Distinct) : (c.Add k v s).1.Distinct := by
  cases hi : lookup c.entries k with
  | some i =>
    obtain ⟨e, he, hek, -, -⟩ := lookup_some_beq c.entries k i hi
    rw [Add_found_entries c k v s hd i e hi he]
    unfold Cache.Distinct
    simp only [Cache.entries, Option.getD_some]
    rw [List.pairwise_cons]
    refine ⟨?_, List.Pairwise.sublist (List.filter_sublist _) hd⟩
    intro b hb
    have hbk : (b.key == k) = false := by
      have := (List.mem_filter.1 hb).2
      simpa using this
    cases hc : e.key == b.key with
    | false => rfl
    | true =>
      have h1 : (b.key == k) = true := BEq.trans (BEq.symm hc) hek
      rw [hbk] at h1
      cases h1
  | none =>
    have hall := (lookup_eq_none_iff_beq c.entries k).1 hi
    have hd1 : (Cache.mk c.MaxEntries c.onEvicted
        (some ({ key := k, val := v } :: c.entries)) c.mapStale).Distinct := by
      unfold Cache.Distinct
      simp only [Cache.entries, Option.getD_some]
      rw [List.pairwise_cons]
      refine ⟨?_, hd⟩
      intro b hb
      cases hc : k == b.key with
      | false => rfl
      | true =>
        have h1 := hall b hb
        rw [BEq.symm hc] at h1
        cases h1
    rw [Add_of_not_found c k v s hi]
    by_cases hcond : c.MaxEntries ≠ 0 ∧ ((c.entries.length + 1 : Nat) : Int) > c.MaxEntries
    · rw [if_pos hcond]
      exact RemoveOldest_Distinct _ s hd1
    · rw [if_neg hcond]
      exact hd1

theorem Clear_Distinct [BEq K] (c : Cache K V σ) (s : σ) : (c.Clear s).1.Distinct :=
  List.Pairwise.nil

end lru
/-! ## Claims on the byte-accounted tier and the group -/

/-- C1, as stated, fails for a sequence that adds a resident key again: after
`add("k", v); add("k", v)` with a one-byte `v` on a fresh tier, one entry is resident with
cost 2 and `items` is 1, but `bytes` is 4. -/
theorem C1_readd_counts_twice :
    (gcache.cache.zero.run [.add "k" ⟨[1]⟩, .add "k" ⟨[1]⟩]).bytes = 4 ∧
    (gcache.cache.zero.run [.add "k" ⟨[1]⟩, .add "k" ⟨[1]⟩]).residentCost = 2 ∧
    (gcache.cache.zero.run [.add "k" ⟨[1]⟩, .add "k" ⟨[1]⟩]).items = 1 ∧
    (gcache.cache.zero.run [.add "k" ⟨[1]⟩, .add "k" ⟨[1]⟩]).resident.length = 1 := by
  decide

/-- C2: a loader error is dropped. On a group with budget 100, empty tiers, a picker that
returns no peer and a loader that fails with `"boom"`, `Get "k"` calls the loader once and
returns the empty value with a nil error; both tiers stay empty. -/
theorem C2_loader_error_dropped :
    (gcache.Group.Get 1 (some fun _ => some fun _ => none)
        (gcache.NewGroup "g" 100 fun _ => .error "boom") "k" 0).toOption.map
      (fun rep => (rep.value, rep.err, rep.calls, rep.g.mainCache.items, rep.g.hotCache.items))
      = some ({ b := [] }, none, [.origin "k"], 0, 0) := by
  decide

/-- On a tier whose LRU map is not built yet, `add` raises `nBytes` by the cost of the entry. -/
theorem gcache.cache.add_nBytes_of_unbuilt (c : gcache.cache) (key : String)
    (val : gcache.ByteView) (h : c.lru = none) :
    (c.add key val).nBytes = c.nBytes + (val.Len + gcache.len key) := by
  simp [gcache.cache.add, h, lru.Cache.Add, lru.New, lru.Cache.SetOnEvicted, lru.lookup]

/-- A loop state that is over budget and that a pass leaves unchanged never reaches the
`return`. -/
theorem gcache.Group.rebalance_stuck (fuel : Nat) (g : gcache.Group)
    (hover : ¬ (g.mainCache.bytes + g.hotCache.bytes ≤ g.cacheBytes)) (hfix : g.evictOne = g) :
    gcache.Group.rebalance fuel g = none := by
  induction fuel with
  | zero => rfl
  | succ m ih =>
    unfold gcache.Group.rebalance
    rw [if_neg hover, hfix]
    exact ih

/-- With budget 1 and two tiers never written to, `populate("ab", v, main)` for a one-byte `v`
runs out of any fuel. -/
theorem gcache.Group.populate_stuck (g : gcache.Group) (h1 : g.cacheBytes = 1)
    (h2 : g.mainCache.lru = none) (h3 : g.mainCache.nBytes = 0)
    (h4 : g.hotCache.lru = none) (h5 : g.hotCache.nBytes = 0) (fuel : Nat) :
    g.populate fuel "ab" { b := [1] } .main = none := by
  have hlen : gcache.len "ab" = 2 := by decide
  have hb : (g.mainCache.add "ab" { b := [1] }).nBytes = 3 := by
    rw [gcache.cache.add_nBytes_of_unbuilt _ _ _ h2, h3, hlen]
    decide
  unfold gcache.Group.populate
  rw [if_neg (by rw [h1]; decide)]
  apply gcache.Group.rebalance_stuck
  · simp only [gcache.cache.bytes, hb, h5, h1]
    decide
  · have hc : (g.hotCache.nBytes ≥ ((g.mainCache.add "ab" { b := [1] }).nBytes).tdiv 8) := by
      rw [hb, h5]; decide
    simp only [gcache.Group.evictOne, gcache.cache.bytes]
    rw [if_pos hc]
    simp [gcache.cache.removeOldest, h4]

/-- C3: `populate` does not return when the over-budget bytes sit in a main tier of fewer
than 8 bytes while the hot tier is empty. On a fresh group with `cacheBytes = 1` (both tiers
empty, so each `bytes` counter equals the cost of its resident entries),
`populate("ab", v, main)` with a one-byte `v` brings `main.bytes` to 3; every pass of the loop
then picks the hot tier (`0 ≥ 3 / 8`), whose `removeOldest` removes nothing, and the budget
test fails again: no amount of fuel reaches the `return`. The same state is reached through
`Get("ab")` on that group when the key is self-owned and the loader returns one byte. -/
theorem C3_populate_never_returns :
    (gcache.NewGroup "g" 1 fun _ => .ok { b := [1] }).mainCache.bytes =
      (gcache.NewGroup "g" 1 fun _ => .ok { b := [1] }).mainCache.residentCost ∧
    (gcache.NewGroup "g" 1 fun _ => .ok { b := [1] }).hotCache.bytes =
      (gcache.NewGroup "g" 1 fun _ => .ok { b := [1] }).hotCache.residentCost ∧
    (∀ fuel : Nat,
      (gcache.NewGroup "g" 1 fun _ => .ok { b := [1] }).populate fuel "ab" { b := [1] } .main
        = none) ∧
    (∀ fuel : Nat,
      gcache.Group.Get fuel (some fun _ => some fun _ => none)
        (gcache.NewGroup "g" 1 fun _ => .ok { b := [1] }) "ab" 0 = .error .outOfFuel) := by
  refine ⟨by decide, by decide, ?_, ?_⟩
  · intro fuel
    exact gcache.Group.populate_stuck _ rfl rfl rfl rfl rfl fuel
  · intro fuel
    simp only [gcache.Group.Get, gcache.NewGroup, gcache.Group.initPeers, gcache.Group.Name,
      gcache.Group.lookupCache, gcache.cache.get, gcache.cache.zero, gcache.Group.load,
      gcache.Do, gcache.Group.getLocally]
    simp
    rw [gcache.Group.populate_stuck _ rfl rfl rfl rfl rfl]

/-! ## The consistent-hash ring: the map, the search and the ring invariant -/

namespace consistenthash

theorem mapGet_filter_ne (hm : List (Int × String)) (k x : Int) (hx : x ≠ k) :
    mapGet (hm.filter (fun e => !decide (e.1 = k))) x = mapGet hm x := by
  induction hm with
  | nil => rfl
  | cons e t ih =>
    by_cases he : e.1 = k
    · have hex : ¬ e.1 = x := fun h => hx (h.symm.trans he)
      rw [List.filter_cons_of_neg (by simp [he])]
      simp only [mapGet, hex, if_false]
      exact ih
    · rw [List.filter_cons_of_pos (by simp [he])]
      by_cases hex : e.1 = x
      · simp only [mapGet, hex, if_true]
      · simp only [mapGet, hex, if_false]
        exact ih

theorem mapGet_mapSet (hm : List (Int × String)) (k : Int) (v : String) (x : Int) :
    mapGet (mapSet hm k v) x = if x = k then some v else mapGet hm x := by
  by_cases hx : x = k
  · subst hx
    simp [mapSet, mapGet]
  · have hx2 : ¬ k = x := fun h => hx h.symm
    simp only [mapSet, mapGet, hx2, if_false, hx]
    exact mapGet_filter_ne hm k x hx

theorem mapGet_eq_none_iff (hm : List (Int × String)) (x : Int) :
    mapGet hm x = none ↔ x ∉ hm.map (·.1) := by
  induction hm with
  | nil => simp [mapGet]
  | cons e t ih =>
    by_cases he : e.1 = x
    · simp [mapGet, he]
    · have he2 : ¬ x = e.1 := fun h => he h.symm
      simp [mapGet, he, he2, ih]

theorem mapGet_eq_some_iff (hm : List (Int × String)) (hnd : (hm.map (·.1)).Nodup) (x : Int)
    (v : String) : mapGet hm x = some v ↔ (x, v) ∈ hm := by
  induction hm with
  | nil => simp [mapGet]
  | cons e t ih =>
    simp only [List.map_cons, List.nodup_cons] at hnd
    by_cases he : e.1 = x
    · simp only [mapGet, he, if_true, Option.some.injEq, List.mem_cons]
      constructor
      · intro h
        left
        rw [← h, ← he]
      · rintro (h | h)
        · rw [← h]
        · exact absurd (List.mem_map.2 ⟨(x, v), h, rfl⟩) (he ▸ hnd.1)
    · simp only [mapGet, he, if_false, List.mem_cons]
      rw [ih hnd.2]
      constructor
      · exact Or.inr
      · rintro (h | h)
        · exact absurd (by rw [← h]) he
        · exact h

theorem nodup_mapSet (hm : List (Int × String)) (hnd : (hm.map (·.1)).Nodup) (k : Int)
    (v : String) : ((mapSet hm k v).map (·.1)).Nodup := by
  simp only [mapSet, List.map_cons, List.nodup_cons]
  constructor
  · intro hmem
    obtain ⟨e, he, hek⟩ := List.mem_map.1 hmem
    have := (List.mem_filter.1 he).2
    simp only [Bool.not_eq_true', decide_eq_false_iff_not] at this
    exact this hek
  · exact hnd.sublist ((List.filter_sublist _).map _)

end consistenthash

namespace consistenthash

/-- Binary search on a predicate that stays true once true: with enough passes the loop
stops at the boundary between the false and the true indices. -/
theorem searchLoop_spec (f : Nat → Bool) (n : Nat)
    (hmono : ∀ a b, a ≤ b → b < n → f a = true → f b = true) :
    ∀ fuel i j, i ≤ j → j ≤ n → j - i ≤ fuel →
      (∀ k, k < i → f k = false) → (∀ k, j ≤ k → k < n → f k = true) →
      searchLoop f fuel i j ≤ n ∧
        (∀ k, k < searchLoop f fuel i j → f k = false) ∧
        (∀ k, searchLoop f fuel i j ≤ k → k < n → f k = true) := by
  intro fuel
  induction fuel with
  | zero =>
    intro i j hij hjn hfuel hlo hhi
    have hji : j = i := by omega
    subst hji
    exact ⟨hjn, hlo, hhi⟩
  | succ fuel ih =>
    intro i j hij hjn hfuel hlo hhi
    unfold searchLoop
    by_cases hlt : i < j
    · rw [if_pos hlt]
      have hh1 : i ≤ (i + j) / 2 := by omega
      have hh2 : (i + j) / 2 < j := by omega
      by_cases hf : f ((i + j) / 2) = true
      · rw [if_neg (by simp [hf])]
        apply ih i ((i + j) / 2) hh1 (by omega) (by omega) hlo
        intro k hk hkn
        exact hmono _ _ hk hkn hf
      · rw [if_pos (by simpa using hf)]
        apply ih ((i + j) / 2 + 1) j (by omega) hjn (by omega) _ hhi
        intro k hk
        by_contra hfk
        have hfk2 : f k = true := by simpa using hfk
        exact hf (hmono k _ (by omega) (by omega) hfk2)
    · rw [if_neg hlt]
      have hji : j = i := by omega
      subst hji
      exact ⟨hjn, hlo, hhi⟩

theorem Search_spec (f : Nat → Bool) (n : Nat)
    (hmono : ∀ a b, a ≤ b → b < n → f a = true → f b = true) :
    Search n f ≤ n ∧ (∀ k, k < Search n f → f k = false) ∧
      (∀ k, Search n f ≤ k → k < n → f k = true) := by
  unfold Search
  apply searchLoop_spec f n hmono n 0 n (Nat.zero_le _) (le_refl _) (by omega)
  · intro k hk
    omega
  · intro k hk hkn
    omega

/-- On a sorted non-empty point list, `Get` reads the back-map at the least point that is
at least the hash of the key, or at the least point of all when there is none. -/
theorem Get_sorted (m : Map) (key : String) (hs : m.keys.Sorted (· ≤ ·)) (hne : m.keys ≠ []) :
    ∃ p, p ∈ m.keys ∧ m.Get key = (mapGet m.hashMap p).getD "" ∧
      ((m.point key ≤ p ∧ ∀ q ∈ m.keys, m.point key ≤ q → p ≤ q) ∨
       ((∀ q ∈ m.keys, q < m.point key) ∧ ∀ q ∈ m.keys, p ≤ q)) := by
  have hlen : 0 < m.keys.length := List.length_pos.2 hne
  have hpw : ∀ (i j : Nat) (hi : i < m.keys.length) (hj : j < m.keys.length), i ≤ j →
      m.keys[i] ≤ m.keys[j] := by
    intro i j hi hj hij
    rcases Nat.lt_or_eq_of_le hij with h | h
    · exact (List.pairwise_iff_getElem.1 hs) i j hi hj h
    · subst h; exact le_refl _
  have hmono : ∀ a b, a ≤ b → b < m.keys.length →
      (fun i => decide (m.keys.getD i 0 ≥ m.point key)) a = true →
      (fun i => decide (m.keys.getD i 0 ≥ m.point key)) b = true := by
    intro a b hab hb ha
    have ha' : a < m.keys.length := by omega
    simp only [List.getD_eq_getElem?_getD, List.getElem?_eq_getElem ha', Option.getD_some,
      List.getElem?_eq_getElem hb, ge_iff_le, decide_eq_true_eq] at ha ⊢
    exact le_trans ha (hpw a b ha' hb hab)
  obtain ⟨h1, h2, h3⟩ := Search_spec _ m.keys.length hmono
  have hemp : m.IsEmpty = false := by
    simp only [Map.IsEmpty, decide_eq_false_iff_not]
    omega
  have hget : m.Get key = (mapGet m.hashMap (m.keys.getD
      (Search m.keys.length (fun i => decide (m.keys.getD i 0 ≥ m.point key)) %
        m.keys.length) 0)).getD "" := by
    simp [Map.Get, hemp]
  rw [hget]
  generalize Search m.keys.length (fun i => decide (m.keys.getD i 0 ≥ m.point key)) = idx
    at h1 h2 h3
  by_cases hidx : idx < m.keys.length
  · rw [Nat.mod_eq_of_lt hidx]
    refine ⟨m.keys[idx], List.getElem_mem _, ?_, Or.inl ⟨?_, ?_⟩⟩
    · simp [List.getD_eq_getElem?_getD, List.getElem?_eq_getElem hidx]
    · have := h3 idx (le_refl _) hidx
      simpa [List.getD_eq_getElem?_getD, List.getElem?_eq_getElem hidx] using this
    · intro q hq hqge
      obtain ⟨k, hk, rfl⟩ := List.getElem_of_mem hq
      have hki : idx ≤ k := by
        by_contra hlt
        have := h2 k (by omega)
        simp [List.getD_eq_getElem?_getD, List.getElem?_eq_getElem hk] at this
        omega
      exact hpw idx k hidx hk hki
  · have hidx2 : idx = m.keys.length := by omega
    rw [hidx2, Nat.mod_self]
    refine ⟨m.keys[0], List.getElem_mem _, ?_, Or.inr ⟨?_, ?_⟩⟩
    · simp [List.getD_eq_getElem?_getD, List.getElem?_eq_getElem hlen]
    · intro q hq
      obtain ⟨k, hk, rfl⟩ := List.getElem_of_mem hq
      have := h2 k (by omega)
      simpa [List.getD_eq_getElem?_getD, List.getElem?_eq_getElem hk] using this
    · intro q hq
      obtain ⟨k, hk, rfl⟩ := List.getElem_of_mem hq
      exact hpw 0 k hlen hk (Nat.zero_le _)

end consistenthash

namespace consistenthash

theorem mapGet_foldl_mapSet (xs : List Int) (v : String) (hm : List (Int × String)) (y : Int) :
    mapGet (xs.foldl (fun acc x => mapSet acc x v) hm) y =
      if y ∈ xs then some v else mapGet hm y := by
  induction xs generalizing hm with
  | nil => simp
  | cons a xs ih =>
    simp only [List.foldl_cons, List.mem_cons]
    rw [ih, mapGet_mapSet]
    by_cases h1 : y ∈ xs
    · simp [h1]
    · by_cases h2 : y = a
      · simp [h2]
      · simp [h1, h2]

theorem nodup_foldl_mapSet (xs : List Int) (v : String) (hm : List (Int × String))
    (hnd : (hm.map (·.1)).Nodup) :
    ((xs.foldl (fun acc x => mapSet acc x v) hm).map (·.1)).Nodup := by
  induction xs generalizing hm with
  | nil => simpa using hnd
  | cons a xs ih =>
    simp only [List.foldl_cons]
    exact ih _ (nodup_mapSet hm hnd a v)

/-- The inner loop of `Add` over any list of replica indices. -/
theorem addPeer_fold (key : String) (is : List Nat) (m : Map) :
    (is.foldl
      (fun acc i =>
        { acc with
          keys := acc.keys ++ [acc.point (toString i ++ key)],
          hashMap := mapSet acc.hashMap (acc.point (toString i ++ key)) key })
      m) =
    { m with
      keys := m.keys ++ is.map (fun i => m.point (toString i ++ key)),
      hashMap := (is.map (fun i => m.point (toString i ++ key))).foldl
        (fun acc x => mapSet acc x key) m.hashMap } := by
  induction is generalizing m with
  | nil => simp
  | cons i is ih =>
    simp only [List.foldl_cons, List.map_cons]
    rw [ih]
    simp [Map.point, List.append_assoc]

/-- What `Add` does for one peer before the sort: its points are appended and mapped to it. -/
theorem addPeer_eq (m : Map) (key : String) :
    m.addPeer key =
      { m with
        keys := m.keys ++ m.pointsOf key,
        hashMap := (m.pointsOf key).foldl (fun acc x => mapSet acc x key) m.hashMap } := by
  unfold Map.addPeer Map.pointsOf
  exact addPeer_fold key _ m

theorem Inv_mono (m : Map) (reg reg1 : List String) (h : m.Inv reg)
    (hsub : ∀ p ∈ reg, p ∈ reg1) : m.Inv reg1 :=
  ⟨h.1, h.2.1, fun x v hx => ⟨hsub v (h.2.2 x v hx).1, (h.2.2 x v hx).2⟩⟩

theorem addPeer_Inv (m : Map) (reg : List String) (key : String) (h : m.Inv reg)
    (hk : key ∈ reg) :
    (m.addPeer key).Inv reg ∧ (m.addPeer key).hash = m.hash ∧
      (m.addPeer key).replicas = m.replicas := by
  rw [addPeer_eq]
  refine ⟨⟨?_, ?_, ?_⟩, rfl, rfl⟩
  · exact nodup_foldl_mapSet _ key _ h.1
  · intro x
    simp only [List.mem_append]
    rw [h.2.1 x]
    have e1 := mapGet_eq_none_iff m.hashMap x
    have e2 := mapGet_eq_none_iff
      ((m.pointsOf key).foldl (fun acc x => mapSet acc x key) m.hashMap) x
    rw [mapGet_foldl_mapSet] at e2
    by_cases hx : x ∈ m.pointsOf key
    · simp only [hx, if_true, or_true, true_iff]
      by_contra hc
      have := e2.2 hc
      simp [hx] at this
    · simp only [hx, if_false, or_false] at e2 ⊢
      rw [← not_iff_not, ← e1, ← e2]
  · intro x v hx
    simp only at hx
    rw [mapGet_foldl_mapSet] at hx
    by_cases hmem : x ∈ m.pointsOf key
    · simp only [hmem, if_true, Option.some.injEq] at hx
      subst hx
      exact ⟨hk, hmem⟩
    · simp only [hmem, if_false] at hx
      exact h.2.2 x v hx

theorem foldl_addPeer_Inv (ps : List String) (m : Map) (reg : List String) (h : m.Inv reg)
    (hk : ∀ p ∈ ps, p ∈ reg) :
    (ps.foldl Map.addPeer m).Inv reg ∧ (ps.foldl Map.addPeer m).hash = m.hash ∧
      (ps.foldl Map.addPeer m).replicas = m.replicas := by
  induction ps generalizing m with
  | nil => exact ⟨h, rfl, rfl⟩
  | cons p ps ih =>
    simp only [List.foldl_cons]
    obtain ⟨h1, h2, h3⟩ := addPeer_Inv m reg p h (hk p (List.mem_cons_self _ _))
    obtain ⟨g1, g2, g3⟩ := ih (m.addPeer p) h1 (fun q hq => hk q (List.mem_cons_of_mem _ hq))
    exact ⟨g1, g2.trans h2, g3.trans h3⟩

theorem mem_sortInts (l : List Int) (x : Int) : x ∈ sortInts l ↔ x ∈ l :=
  (List.perm_insertionSort (· ≤ ·) l).mem_iff

theorem sorted_sortInts (l : List Int) : (sortInts l).Sorted (· ≤ ·) :=
  List.sorted_insertionSort (· ≤ ·) l

theorem Add_Inv (m : Map) (reg : List String) (ps : List String) (h : m.Inv reg) :
    (m.Add ps).Inv (reg ++ ps) ∧ (m.Add ps).keys.Sorted (· ≤ ·) ∧ (m.Add ps).hash = m.hash ∧
      (m.Add ps).replicas = m.replicas := by
  have h0 : m.Inv (reg ++ ps) := Inv_mono m reg _ h (fun p hp => List.mem_append_left _ hp)
  obtain ⟨g1, g2, g3⟩ := foldl_addPeer_Inv ps m (reg ++ ps) h0
    (fun p hp => List.mem_append_right _ hp)
  refine ⟨⟨g1.1, ?_, ?_⟩, sorted_sortInts _, g2, g3⟩
  · intro x
    simp only [Map.Add]
    rw [mem_sortInts]
    exact g1.2.1 x
  · intro x v hx
    have := g1.2.2 x v hx
    simpa [Map.pointsOf, Map.point, Map.Add] using this

end consistenthash

namespace consistenthash

theorem mapGet_filter_peers (hm : List (Int × String)) (hnd : (hm.map (·.1)).Nodup)
    (ks : List String) (x : Int) (v : String) :
    mapGet (hm.filter (fun e => !decide (e.2 ∈ ks))) x = some v ↔
      mapGet hm x = some v ∧ v ∉ ks := by
  have hnd2 : ((hm.filter (fun e => !decide (e.2 ∈ ks))).map (·.1)).Nodup :=
    hnd.sublist ((List.filter_sublist _).map _)
  rw [mapGet_eq_some_iff _ hnd2, mapGet_eq_some_iff _ hnd, List.mem_filter]
  simp

theorem Remove_Inv (m : Map) (reg : List String) (ps : List String) (h : m.Inv reg) :
    (m.Remove ps).Inv (reg.filter (fun p => !decide (p ∈ ps))) ∧
      (m.Remove ps).keys.Sorted (· ≤ ·) ∧ (m.Remove ps).hash = m.hash ∧
      (m.Remove ps).replicas = m.replicas := by
  refine ⟨⟨?_, ?_, ?_⟩, sorted_sortInts _, rfl, rfl⟩
  · exact h.1.sublist ((List.filter_sublist _).map _)
  · intro x
    simp only [Map.Remove]
    rw [mem_sortInts]
  · intro x v hx
    simp only [Map.Remove] at hx
    obtain ⟨h1, h2⟩ := (mapGet_filter_peers m.hashMap h.1 ps x v).1 hx
    obtain ⟨g1, g2⟩ := h.2.2 x v h1
    refine ⟨?_, ?_⟩
    · rw [List.mem_filter]
      exact ⟨g1, by simpa using h2⟩
    · simpa [Map.pointsOf, Map.point, Map.Remove] using g2

theorem step_Inv (m : Map) (reg : List String) (op : RingOp) (h : m.Inv reg) :
    (m.step op).Inv (registered reg [op]) ∧ (m.step op).keys.Sorted (· ≤ ·) ∧
      (m.step op).hash = m.hash ∧ (m.step op).replicas = m.replicas := by
  cases op with
  | add ps => exact Add_Inv m reg ps h
  | remove ps => exact Remove_Inv m reg ps h

theorem run_Inv (ops : List RingOp) (m : Map) (reg : List String) (h : m.Inv reg)
    (hs : m.keys.Sorted (· ≤ ·)) :
    (m.run ops).Inv (registered reg ops) ∧ (m.run ops).keys.Sorted (· ≤ ·) ∧
      (m.run ops).hash = m.hash ∧ (m.run ops).replicas = m.replicas := by
  induction ops generalizing m reg with
  | nil => exact ⟨h, hs, rfl, rfl⟩
  | cons op ops ih =>
    obtain ⟨h1, h2, h3, h4⟩ := step_Inv m reg op h
    have hreg : registered reg (op :: ops) = registered (registered reg [op]) ops := by
      cases op <;> rfl
    obtain ⟨g1, g2, g3, g4⟩ := ih (m.step op) (registered reg [op]) h1 h2
    rw [hreg]
    exact ⟨g1, g2, g3.trans h3, g4.trans h4⟩

theorem New_Inv (crc : Hash) (replicas : Int) (fn : Option Hash) :
    (New crc replicas fn).Inv [] ∧ (New crc replicas fn).keys.Sorted (· ≤ ·) := by
  refine ⟨⟨by simp [New], by simp [New], ?_⟩, by simp [New]⟩
  intro x v hx
  simp [New, mapGet] at hx

/-- Every point of a ring that satisfies the invariant has a back-map entry. -/
theorem Inv_mapGet_of_mem (m : Map) (reg : List String) (h : m.Inv reg) (x : Int)
    (hx : x ∈ m.keys) : ∃ v, mapGet m.hashMap x = some v := by
  cases hg : mapGet m.hashMap x with
  | some v => exact ⟨v, rfl⟩
  | none => exact absurd ((h.2.1 x).1 hx) ((mapGet_eq_none_iff _ _).1 hg)

end consistenthash

/-! ## Claims on the consistent-hash ring -/

/-- C11: for a ring built from `New` by `Add` and `Remove` calls and any key: with no points
`Get` returns the empty string; otherwise `Get` returns the peer that the back-map assigns to
the least point that is at least the hash of the key, or, when no point is, to the least point
of the ring. In the scenario with `replicas = 3`, hash `atoi` and peers 6, 4, 2 the point list
is 2, 4, 6, 12, 14, 16, 22, 24, 26 and the keys 2, 11, 23, 27 go to the peers 2, 2, 4, 2. -/
theorem C11_ring_get (crc : consistenthash.Hash) (replicas : Int)
    (fn : Option consistenthash.Hash) (ops : List consistenthash.RingOp) (key : String) :
    (((consistenthash.New crc replicas fn).run ops).keys = [] →
      ((consistenthash.New crc replicas fn).run ops).Get key = "") ∧
    (∀ p, p ∈ ((consistenthash.New crc replicas fn).run ops).keys →
      ((consistenthash.New crc replicas fn).run ops).point key ≤ p →
      (∀ q ∈ ((consistenthash.New crc replicas fn).run ops).keys,
        ((consistenthash.New crc replicas fn).run ops).point key ≤ q → p ≤ q) →
      ∃ peer, consistenthash.mapGet ((consistenthash.New crc replicas fn).run ops).hashMap p
          = some peer ∧
        ((consistenthash.New crc replicas fn).run ops).Get key = peer) ∧
    (∀ p, p ∈ ((consistenthash.New crc replicas fn).run ops).keys →
      (∀ q ∈ ((consistenthash.New crc replicas fn).run ops).keys,
        q < ((consistenthash.New crc replicas fn).run ops).point key) →
      (∀ q ∈ ((consistenthash.New crc replicas fn).run ops).keys, p ≤ q) →
      ∃ peer, consistenthash.mapGet ((consistenthash.New crc replicas fn).run ops).hashMap p
          = some peer ∧
        ((consistenthash.New crc replicas fn).run ops).Get key = peer) ∧
    (((consistenthash.New consistenthash.atoi 3 (some consistenthash.atoi)).run [.add ["6", "4", "2"]]).keys
        = [2, 4, 6, 12, 14, 16, 22, 24, 26] ∧
      ((consistenthash.New consistenthash.atoi 3 (some consistenthash.atoi)).run [.add ["6", "4", "2"]]).Get "2"
        = "2" ∧
      ((consistenthash.New consistenthash.atoi 3 (some consistenthash.atoi)).run [.add ["6", "4", "2"]]).Get "11"
        = "2" ∧
      ((consistenthash.New consistenthash.atoi 3 (some consistenthash.atoi)).run [.add ["6", "4", "2"]]).Get "23"
        = "4" ∧
      ((consistenthash.New consistenthash.atoi 3 (some consistenthash.atoi)).run [.add ["6", "4", "2"]]).Get "27"
        = "2") := by
  obtain ⟨hinv0, hs0⟩ := consistenthash.New_Inv crc replicas fn
  obtain ⟨hinv, hs, -, -⟩ := consistenthash.run_Inv ops _ [] hinv0 hs0
  generalize (consistenthash.New crc replicas fn).run ops = m at hinv hs
  refine ⟨?_, ?_, ?_, ?_⟩
  · intro hnil
    simp [consistenthash.Map.Get, consistenthash.Map.IsEmpty, hnil]
  · intro p hp hge hmin
    have hne : m.keys ≠ [] := List.ne_nil_of_mem hp
    obtain ⟨p0, hp0, hget, hcase⟩ := consistenthash.Get_sorted m key hs hne
    obtain ⟨peer, hpeer⟩ := consistenthash.Inv_mapGet_of_mem m _ hinv p hp
    refine ⟨peer, hpeer, ?_⟩
    have hpp : p0 = p := by
      rcases hcase with ⟨h1, h2⟩ | ⟨h1, -⟩
      · exact le_antisymm (h2 p hp hge) (hmin p0 hp0 h1)
      · exact absurd (h1 p hp) (not_lt.2 hge)
    rw [hget, hpp, hpeer]
    rfl
  · intro p hp hlt hmin
    have hne : m.keys ≠ [] := List.ne_nil_of_mem hp
    obtain ⟨p0, hp0, hget, hcase⟩ := consistenthash.Get_sorted m key hs hne
    obtain ⟨peer, hpeer⟩ := consistenthash.Inv_mapGet_of_mem m _ hinv p hp
    refine ⟨peer, hpeer, ?_⟩
    have hpp : p0 = p := by
      rcases hcase with ⟨h1, -⟩ | ⟨-, h2⟩
      · exact absurd (hlt p0 hp0) (not_lt.2 h1)
      · exact le_antisymm (h2 p hp) (hmin p0 hp0)
    rw [hget, hpp, hpeer]
    rfl
  · decide

/-- C14: after any sequence of `Add` and `Remove` calls on a ring made by `New`, the point
list is sorted ascending, every point has a back-map entry, that entry is a peer added and not
removed since, and `Get` on a ring with points returns such a peer. -/
theorem C14_ring_invariant (crc : consistenthash.Hash) (replicas : Int)
    (fn : Option consistenthash.Hash) (ops : List consistenthash.RingOp) :
    ((consistenthash.New crc replicas fn).run ops).keys.Sorted (· ≤ ·) ∧
    (∀ x ∈ ((consistenthash.New crc replicas fn).run ops).keys,
      ∃ p, consistenthash.mapGet ((consistenthash.New crc replicas fn).run ops).hashMap x
          = some p ∧
        p ∈ consistenthash.registered [] ops) ∧
    (((consistenthash.New crc replicas fn).run ops).keys ≠ [] →
      ∀ key, ((consistenthash.New crc replicas fn).run ops).Get key ∈
        consistenthash.registered [] ops) := by
  obtain ⟨hinv0, hs0⟩ := consistenthash.New_Inv crc replicas fn
  obtain ⟨hinv, hs, -, -⟩ := consistenthash.run_Inv ops _ [] hinv0 hs0
  generalize (consistenthash.New crc replicas fn).run ops = m at hinv hs
  have hall : ∀ x ∈ m.keys, ∃ p, consistenthash.mapGet m.hashMap x = some p ∧
      p ∈ consistenthash.registered [] ops := by
    intro x hx
    obtain ⟨v, hv⟩ := consistenthash.Inv_mapGet_of_mem m _ hinv x hx
    exact ⟨v, hv, (hinv.2.2 x v hv).1⟩
  refine ⟨hs, hall, ?_⟩
  intro hne key
  obtain ⟨p0, hp0, hget, -⟩ := consistenthash.Get_sorted m key hs hne
  obtain ⟨v, hv, hreg⟩ := hall p0 hp0
  rw [hget, hv]
  exact hreg

namespace consistenthash

theorem pointsOf_congr (m m1 : Map) (hh : m1.hash = m.hash) (hr : m1.replicas = m.replicas)
    (p : String) : m1.pointsOf p = m.pointsOf p := by
  simp [Map.pointsOf, Map.point, hh, hr]

theorem point_congr (m m1 : Map) (hh : m1.hash = m.hash) (s : String) :
    m1.point s = m.point s := by
  simp [Map.point, hh]

theorem foldl_addPeer_keys (ps : List String) (m : Map) (x : Int) :
    x ∈ (ps.foldl Map.addPeer m).keys ↔ x ∈ m.keys ∨ ∃ p ∈ ps, x ∈ m.pointsOf p := by
  induction ps generalizing m with
  | nil => simp
  | cons p ps ih =>
    simp only [List.foldl_cons]
    rw [ih]
    have hk : (m.addPeer p).keys = m.keys ++ m.pointsOf p := by rw [addPeer_eq]
    have hp : ∀ q, (m.addPeer p).pointsOf q = m.pointsOf q := by
      intro q
      apply pointsOf_congr <;> rw [addPeer_eq]
    simp only [hk, hp, List.mem_append, List.mem_cons, exists_eq_or_imp]
    tauto

theorem foldl_addPeer_fields (ps : List String) (m : Map) :
    (ps.foldl Map.addPeer m).hash = m.hash ∧ (ps.foldl Map.addPeer m).replicas = m.replicas := by
  induction ps generalizing m with
  | nil => exact ⟨rfl, rfl⟩
  | cons p ps ih =>
    simp only [List.foldl_cons]
    obtain ⟨h1, h2⟩ := ih (m.addPeer p)
    rw [h1, h2, addPeer_eq]
    exact ⟨rfl, rfl⟩

theorem Add_fields (m : Map) (ps : List String) :
    (m.Add ps).hash = m.hash ∧ (m.Add ps).replicas = m.replicas := by
  simpa [Map.Add] using foldl_addPeer_fields ps m

theorem Add_keys_mem (m : Map) (ps : List String) (x : Int) :
    x ∈ (m.Add ps).keys ↔ x ∈ m.keys ∨ ∃ p ∈ ps, x ∈ m.pointsOf p := by
  simp only [Map.Add]
  rw [mem_sortInts, foldl_addPeer_keys]

theorem run_adds_keys (adds : List (List String)) (m : Map) (x : Int) :
    x ∈ (m.run (adds.map RingOp.add)).keys ↔
      x ∈ m.keys ∨ ∃ p ∈ adds.flatten, x ∈ m.pointsOf p := by
  induction adds generalizing m with
  | nil => simp [Map.run]
  | cons ps adds ih =>
    have hrun : m.run ((ps :: adds).map RingOp.add) = (m.Add ps).run (adds.map RingOp.add) := rfl
    rw [hrun, ih, Add_keys_mem]
    have hp : ∀ q, (m.Add ps).pointsOf q = m.pointsOf q := fun q =>
      pointsOf_congr m _ (Add_fields m ps).1 (Add_fields m ps).2 q
    simp only [hp, List.flatten_cons, List.mem_append]
    constructor
    · rintro ((h | ⟨p, hp1, hp2⟩) | ⟨p, hp1, hp2⟩)
      · exact Or.inl h
      · exact Or.inr ⟨p, Or.inl hp1, hp2⟩
      · exact Or.inr ⟨p, Or.inr hp1, hp2⟩
    · rintro (h | ⟨p, hp1 | hp1, hp2⟩)
      · exact Or.inl (Or.inl h)
      · exact Or.inl (Or.inr ⟨p, hp1, hp2⟩)
      · exact Or.inr ⟨p, hp1, hp2⟩

theorem registered_adds (adds : List (List String)) (reg : List String) (p : String)
    (h : p ∈ registered reg (adds.map RingOp.add)) : p ∈ reg ∨ p ∈ adds.flatten := by
  induction adds generalizing reg with
  | nil => exact Or.inl h
  | cons ps adds ih =>
    have h1 : p ∈ registered (reg ++ ps) (adds.map RingOp.add) := h
    rcases ih (reg ++ ps) h1 with h2 | h2
    · rcases List.mem_append.1 h2 with h3 | h3
      · exact Or.inl h3
      · exact Or.inr (by simp [h3])
    · exact Or.inr (by simp [h2])

end consistenthash

/-- C12, as stated, fails when two peers share a hash point: with the string length as hash
and one replica, the peers a and b both get the point 2, the back-map keeps the peer added
last, and the two orders of adding the same peer set give different owners for a key. -/
theorem C12_collision_order_matters :
    ((consistenthash.New String.length 1 (some String.length)).run [.add ["a", "b"]]).Get "x"
      = "b" ∧
    ((consistenthash.New String.length 1 (some String.length)).run [.add ["b", "a"]]).Get "x"
      = "a" := by
  decide

/-- C12 (amended): for every replica count and hash function, two rings made by `New` with
them and filled by `Add` calls that name the same set of peers, in any order and grouping,
give the same `Get` result for every key, provided no two distinct peers of that set share a
hash point. -/
theorem C12_ring_deterministic (crc : consistenthash.Hash) (replicas : Int)
    (fn : Option consistenthash.Hash) (adds1 adds2 : List (List String))
    (hsub1 : ∀ p ∈ adds1.flatten, p ∈ adds2.flatten)
    (hsub2 : ∀ p ∈ adds2.flatten, p ∈ adds1.flatten)
    (hcoll : ∀ a ∈ adds1.flatten, ∀ b ∈ adds1.flatten,
      ∀ x ∈ (consistenthash.New crc replicas fn).pointsOf a,
        x ∈ (consistenthash.New crc replicas fn).pointsOf b → a = b)
    (k : String) :
    ((consistenthash.New crc replicas fn).run (adds1.map consistenthash.RingOp.add)).Get k =
      ((consistenthash.New crc replicas fn).run (adds2.map consistenthash.RingOp.add)).Get k := by
  have hset : ∀ p, p ∈ adds1.flatten ↔ p ∈ adds2.flatten := fun p => ⟨hsub1 p, hsub2 p⟩
  obtain ⟨hinv0, hs0⟩ := consistenthash.New_Inv crc replicas fn
  obtain ⟨hinv1, hs1, hh1, hr1⟩ := consistenthash.run_Inv
    (adds1.map consistenthash.RingOp.add) _ [] hinv0 hs0
  obtain ⟨hinv2, hs2, hh2, hr2⟩ := consistenthash.run_Inv
    (adds2.map consistenthash.RingOp.add) _ [] hinv0 hs0
  have hk1 := fun x => consistenthash.run_adds_keys adds1 (consistenthash.New crc replicas fn) x
  have hk2 := fun x => consistenthash.run_adds_keys adds2 (consistenthash.New crc replicas fn) x
  have hreg1 := fun p => consistenthash.registered_adds adds1 [] p
  have hreg2 := fun p => consistenthash.registered_adds adds2 [] p
  generalize (consistenthash.New crc replicas fn).run (adds1.map consistenthash.RingOp.add) = m1
    at hinv1 hs1 hh1 hr1 hk1
  generalize (consistenthash.New crc replicas fn).run (adds2.map consistenthash.RingOp.add) = m2
    at hinv2 hs2 hh2 hr2 hk2
  have hkeys : ∀ x, x ∈ m1.keys ↔ x ∈ m2.keys := by
    intro x
    rw [hk1, hk2]
    constructor
    · rintro (h | ⟨p, hp1, hp2⟩)
      · exact Or.inl h
      · exact Or.inr ⟨p, (hset p).1 hp1, hp2⟩
    · rintro (h | ⟨p, hp1, hp2⟩)
      · exact Or.inl h
      · exact Or.inr ⟨p, (hset p).2 hp1, hp2⟩
  have hpt : m1.point k = m2.point k :=
    (consistenthash.point_congr _ m1 hh1 k).trans (consistenthash.point_congr _ m2 hh2 k).symm
  by_cases hne : m1.keys = []
  · have hne2 : m2.keys = [] := by
      cases h2 : m2.keys with
      | nil => rfl
      | cons a t =>
        have : a ∈ m1.keys := (hkeys a).2 (by rw [h2]; exact List.mem_cons_self _ _)
        rw [hne] at this
        exact absurd this (List.not_mem_nil _)
    simp [consistenthash.Map.Get, consistenthash.Map.IsEmpty, hne, hne2]
  · have hne2 : m2.keys ≠ [] := by
      intro h2
      obtain ⟨a, ha⟩ := List.exists_mem_of_ne_nil _ hne
      have := (hkeys a).1 ha
      rw [h2] at this
      exact absurd this (List.not_mem_nil _)
    obtain ⟨p1, hp1, hget1, hc1⟩ := consistenthash.Get_sorted m1 k hs1 hne
    obtain ⟨p2, hp2, hget2, hc2⟩ := consistenthash.Get_sorted m2 k hs2 hne2
    have hpp : p1 = p2 := by
      rcases hc1 with ⟨a1, a2⟩ | ⟨a1, a2⟩
      · rcases hc2 with ⟨b1, b2⟩ | ⟨b1, -⟩
        · exact le_antisymm (a2 p2 ((hkeys p2).2 hp2) (hpt ▸ b1))
            (b2 p1 ((hkeys p1).1 hp1) (hpt ▸ a1))
        · exact absurd (b1 p1 ((hkeys p1).1 hp1)) (not_lt.2 (hpt ▸ a1))
      · rcases hc2 with ⟨b1, -⟩ | ⟨-, b2⟩
        · exact absurd (a1 p2 ((hkeys p2).2 hp2)) (not_lt.2 (hpt ▸ b1))
        · exact le_antisymm (a2 p2 ((hkeys p2).2 hp2)) (b2 p1 ((hkeys p1).1 hp1))
    subst hpp
    obtain ⟨v1, hv1⟩ := consistenthash.Inv_mapGet_of_mem m1 _ hinv1 p1 hp1
    obtain ⟨v2, hv2⟩ := consistenthash.Inv_mapGet_of_mem m2 _ hinv2 p1 hp2
    obtain ⟨g1, g2⟩ := hinv1.2.2 p1 v1 hv1
    obtain ⟨g3, g4⟩ := hinv2.2.2 p1 v2 hv2
    have e1 : v1 ∈ adds1.flatten := by
      rcases hreg1 v1 g1 with h | h
      · exact absurd h (List.not_mem_nil _)
      · exact h
    have e2 : v2 ∈ adds1.flatten := by
      rcases hreg2 v2 g3 with h | h
      · exact absurd h (List.not_mem_nil _)
      · exact (hset v2).2 h
    rw [consistenthash.pointsOf_congr _ m1 hh1 hr1] at g2
    rw [consistenthash.pointsOf_congr _ m2 hh2 hr2] at g4
    have hv : v1 = v2 := hcoll v1 e1 v2 e2 p1 g2 g4
    rw [hget1, hget2, hv1, hv2, hv]

theorem C12_ring_deterministic_witness :
    ((consistenthash.New consistenthash.atoi 3 (some consistenthash.atoi)).run
        ([["6", "4"], ["2"]].map consistenthash.RingOp.add)).Get "11" =
      ((consistenthash.New consistenthash.atoi 3 (some consistenthash.atoi)).run
        ([["2", "6", "4"]].map consistenthash.RingOp.add)).Get "11" :=
  C12_ring_deterministic consistenthash.atoi 3 (some consistenthash.atoi)
    [["6", "4"], ["2"]] [["2", "6", "4"]] (by decide) (by decide) (by decide) "11"

namespace consistenthash

theorem addPeer_Owns (m : Map) (reg : List String) (p : String) (h : m.Owns reg)
    (hc : ∀ q ∈ reg, q ≠ p → ∀ x ∈ m.pointsOf q, x ∉ m.pointsOf p) :
    (m.addPeer p).Owns (p :: reg) := by
  intro q hq x hx
  have hp : (m.addPeer p).pointsOf q = m.pointsOf q := by
    apply pointsOf_congr <;> rw [addPeer_eq]
  rw [hp] at hx
  rw [addPeer_eq]
  simp only
  rw [mapGet_foldl_mapSet]
  by_cases hqp : q = p
  · subst hqp
    simp [hx]
  · have hqr : q ∈ reg := by
      rcases List.mem_cons.1 hq with h1 | h1
      · exact absurd h1 hqp
      · exact h1
    rw [if_neg (hc q hqr hqp x hx)]
    exact h q hqr x hx

theorem foldl_addPeer_Owns (ps : List String) (m : Map) (reg : List String) (h : m.Owns reg)
    (hc : ∀ a, (a ∈ reg ∨ a ∈ ps) → ∀ b, (b ∈ reg ∨ b ∈ ps) →
      ∀ x ∈ m.pointsOf a, x ∈ m.pointsOf b → a = b) :
    (ps.foldl Map.addPeer m).Owns (reg ++ ps) := by
  induction ps generalizing m reg with
  | nil => simpa using h
  | cons p ps ih =>
    simp only [List.foldl_cons]
    have h1 : (m.addPeer p).Owns (p :: reg) := by
      apply addPeer_Owns m reg p h
      intro q hq hqp x hx hxp
      exact hqp (hc q (Or.inl hq) p (Or.inr (List.mem_cons_self _ _)) x hx hxp)
    have hp : ∀ q, (m.addPeer p).pointsOf q = m.pointsOf q := by
      intro q
      apply pointsOf_congr <;> rw [addPeer_eq]
    have h2 := ih (m.addPeer p) (p :: reg) h1 (by
      intro a ha b hb x hxa hxb
      rw [hp] at hxa hxb
      refine hc a ?_ b ?_ x hxa hxb
      · rcases ha with ha | ha
        · rcases List.mem_cons.1 ha with h3 | h3
          · exact Or.inr (h3 ▸ List.mem_cons_self _ _)
          · exact Or.inl h3
        · exact Or.inr (List.mem_cons_of_mem _ ha)
      · rcases hb with hb | hb
        · rcases List.mem_cons.1 hb with h3 | h3
          · exact Or.inr (h3 ▸ List.mem_cons_self _ _)
          · exact Or.inl h3
        · exact Or.inr (List.mem_cons_of_mem _ hb))
    intro q hq x hx
    apply h2 q _ x hx
    simp only [List.mem_append, List.mem_cons] at hq ⊢
    tauto

theorem Add_Owns (m : Map) (reg : List String) (ps : List String) (h : m.Owns reg)
    (hc : ∀ a, (a ∈ reg ∨ a ∈ ps) → ∀ b, (b ∈ reg ∨ b ∈ ps) →
      ∀ x ∈ m.pointsOf a, x ∈ m.pointsOf b → a = b) :
    (m.Add ps).Owns (reg ++ ps) := by
  have h1 := foldl_addPeer_Owns ps m reg h hc
  intro q hq x hx
  have := h1 q hq x (by simpa [Map.pointsOf, Map.point, Map.Add] using hx)
  simpa [Map.Add] using this

theorem Remove_Owns (m : Map) (reg0 reg : List String) (ps : List String) (hinv : m.Inv reg0)
    (h : m.Owns reg) : (m.Remove ps).Owns (reg.filter (fun p => !decide (p ∈ ps))) := by
  intro q hq x hx
  obtain ⟨hq1, hq2⟩ := List.mem_filter.1 hq
  have hx1 : x ∈ m.pointsOf q := by simpa [Map.pointsOf, Map.point, Map.Remove] using hx
  simp only [Map.Remove]
  rw [mapGet_filter_peers m.hashMap hinv.1 ps x q]
  exact ⟨h q hq1 x hx1, by simpa using hq2⟩

theorem mem_addedPeers_cons (op : RingOp) (ops : List RingOp) (a : String)
    (h : a ∈ addedPeers ops) : a ∈ addedPeers (op :: ops) := by
  cases op with
  | add ps => exact List.mem_append_right _ h
  | remove ps => exact h

theorem run_Owns (ops : List RingOp) (m : Map) (reg : List String) (hinv : m.Inv reg)
    (hs : m.keys.Sorted (· ≤ ·)) (h : m.Owns reg)
    (hc : ∀ a, (a ∈ reg ∨ a ∈ addedPeers ops) → ∀ b, (b ∈ reg ∨ b ∈ addedPeers ops) →
      ∀ x ∈ m.pointsOf a, x ∈ m.pointsOf b → a = b) :
    (m.run ops).Owns (registered reg ops) ∧
      (∀ a ∈ registered reg ops, a ∈ reg ∨ a ∈ addedPeers ops) := by
  induction ops generalizing m reg with
  | nil => exact ⟨h, fun a ha => Or.inl ha⟩
  | cons op ops ih =>
    obtain ⟨h1, h2, h3, h4⟩ := step_Inv m reg op hinv
    have hreg : registered reg (op :: ops) = registered (registered reg [op]) ops := by
      cases op <;> rfl
    have hp : ∀ q, (m.step op).pointsOf q = m.pointsOf q := fun q => pointsOf_congr m _ h3 h4 q
    have hsub : ∀ a ∈ registered reg [op], a ∈ reg ∨ a ∈ addedPeers (op :: ops) := by
      intro a ha
      cases op with
      | add ps =>
        rcases List.mem_append.1 ha with h5 | h5
        · exact Or.inl h5
        · exact Or.inr (List.mem_append_left _ h5)
      | remove ps => exact Or.inl (List.mem_filter.1 ha).1
    have hown : (m.step op).Owns (registered reg [op]) := by
      cases op with
      | add ps =>
        apply Add_Owns m reg ps h
        intro a ha b hb x hxa hxb
        refine hc a ?_ b ?_ x hxa hxb
        · rcases ha with ha | ha
          · exact Or.inl ha
          · exact Or.inr (List.mem_append_left _ ha)
        · rcases hb with hb | hb
          · exact Or.inl hb
          · exact Or.inr (List.mem_append_left _ hb)
      | remove ps => exact Remove_Owns m reg reg ps hinv h
    have hlift : ∀ a, (a ∈ registered reg [op] ∨ a ∈ addedPeers ops) →
        (a ∈ reg ∨ a ∈ addedPeers (op :: ops)) := by
      intro a ha
      rcases ha with ha | ha
      · exact hsub a ha
      · exact Or.inr (mem_addedPeers_cons op ops a ha)
    obtain ⟨g1, g2⟩ := ih (m.step op) (registered reg [op]) h1 h2 hown (by
      intro a ha b hb x hxa hxb
      rw [hp] at hxa hxb
      exact hc a (hlift a ha) b (hlift b hb) x hxa hxb)
    rw [hreg]
    refine ⟨g1, ?_⟩
    intro a ha
    exact hlift a (g2 a ha)

end consistenthash

/-- C13, as stated, fails when two peers share a hash point: with the string length as hash
and one replica, the peers a and b both get the point 2. After `Add a`, `Add b`,
`Remove b` the peer a is still registered, but its point 2 has left the point list and the
back-map. -/
theorem C13_collision_removes_other_peer :
    consistenthash.registered [] [.add ["a"], .add ["b"], .remove ["b"]] = ["a"] ∧
    ((consistenthash.New String.length 1 (some String.length)).run
        [.add ["a"], .add ["b"], .remove ["b"]]).pointsOf "a" = [2] ∧
    ((consistenthash.New String.length 1 (some String.length)).run
        [.add ["a"], .add ["b"], .remove ["b"]]).keys = [] ∧
    consistenthash.mapGet ((consistenthash.New String.length 1 (some String.length)).run
        [.add ["a"], .add ["b"], .remove ["b"]]).hashMap 2 = none := by
  decide

/-- C13 (amended): on a ring built from `New` by `Add` and `Remove` calls in which no two
distinct peers (the added ones and `p`) share a hash point, `Add p` puts exactly the points
`hash(itoa(i) ++ p)`, `i` below `replicas`, into the point list, each mapped back to `p`;
`Remove p` deletes exactly the points of `p` from the point list and no others, and every
other registered peer `q` keeps all of its points, still mapped to `q`. -/
theorem C13_add_remove_points (crc : consistenthash.Hash) (replicas : Int)
    (fn : Option consistenthash.Hash) (ops : List consistenthash.RingOp) (p : String)
    (hcoll : ∀ a ∈ p :: consistenthash.addedPeers ops,
      ∀ b ∈ p :: consistenthash.addedPeers ops,
      ∀ x ∈ (consistenthash.New crc replicas fn).pointsOf a,
        x ∈ (consistenthash.New crc replicas fn).pointsOf b → a = b) :
    ((consistenthash.New crc replicas fn).run ops).pointsOf p =
      (List.range replicas.toNat).map
        (fun i => (((fn.getD crc) (toString i ++ p) % 4294967296 : Nat) : Int)) ∧
    ((((consistenthash.New crc replicas fn).run ops).Add [p]).keys.Perm
      (((consistenthash.New crc replicas fn).run ops).keys ++
        ((consistenthash.New crc replicas fn).run ops).pointsOf p)) ∧
    (∀ x ∈ ((consistenthash.New crc replicas fn).run ops).pointsOf p,
      consistenthash.mapGet (((consistenthash.New crc replicas fn).run ops).Add [p]).hashMap x
        = some p) ∧
    (∀ x, x ∈ (((consistenthash.New crc replicas fn).run ops).Remove [p]).keys ↔
      x ∈ ((consistenthash.New crc replicas fn).run ops).keys ∧
        x ∉ ((consistenthash.New crc replicas fn).run ops).pointsOf p) ∧
    (∀ q ∈ consistenthash.registered [] ops, q ≠ p →
      ∀ x ∈ ((consistenthash.New crc replicas fn).run ops).pointsOf q,
        x ∈ (((consistenthash.New crc replicas fn).run ops).Remove [p]).keys ∧
        consistenthash.mapGet
          (((consistenthash.New crc replicas fn).run ops).Remove [p]).hashMap x = some q) := by
  obtain ⟨hinv0, hs0⟩ := consistenthash.New_Inv crc replicas fn
  obtain ⟨hinv, hs, hh, hr⟩ := consistenthash.run_Inv ops _ [] hinv0 hs0
  have hown0 : (consistenthash.New crc replicas fn).Owns [] := by
    intro q hq
    exact absurd hq (List.not_mem_nil _)
  obtain ⟨hown, hregsub⟩ := consistenthash.run_Owns ops _ [] hinv0 hs0 hown0 (by
    intro a ha b hb x hxa hxb
    have ha1 : a ∈ p :: consistenthash.addedPeers ops := by
      rcases ha with ha | ha
      · exact absurd ha (List.not_mem_nil _)
      · exact List.mem_cons_of_mem _ ha
    have hb1 : b ∈ p :: consistenthash.addedPeers ops := by
      rcases hb with hb | hb
      · exact absurd hb (List.not_mem_nil _)
      · exact List.mem_cons_of_mem _ hb
    exact hcoll a ha1 b hb1 x hxa hxb)
  have hpt : ∀ q, ((consistenthash.New crc replicas fn).run ops).pointsOf q =
      (consistenthash.New crc replicas fn).pointsOf q :=
    fun q => consistenthash.pointsOf_congr _ _ hh hr q
  have hregP : ∀ a ∈ consistenthash.registered [] ops, a ∈ p :: consistenthash.addedPeers ops := by
    intro a ha
    rcases hregsub a ha with h | h
    · exact absurd h (List.not_mem_nil _)
    · exact List.mem_cons_of_mem _ h
  generalize (consistenthash.New crc replicas fn).run ops = m at hinv hs hh hr hown hpt
  refine ⟨?_, ?_, ?_, ?_, ?_⟩
  · rw [hpt]
    simp [consistenthash.Map.pointsOf, consistenthash.Map.point, consistenthash.New]
  · have hk : (m.Add [p]).keys = consistenthash.sortInts (m.keys ++ m.pointsOf p) := by
      simp [consistenthash.Map.Add, consistenthash.addPeer_eq]
    rw [hk]
    exact List.perm_insertionSort _ _
  · intro x hx
    have hm : (m.Add [p]).hashMap =
        (m.pointsOf p).foldl (fun acc y => consistenthash.mapSet acc y p) m.hashMap := by
      simp [consistenthash.Map.Add, consistenthash.addPeer_eq]
    rw [hm, consistenthash.mapGet_foldl_mapSet, if_pos hx]
  · intro x
    have hrem : x ∈ (m.Remove [p]).keys ↔ ∃ v, consistenthash.mapGet m.hashMap x = some v ∧
        v ∉ [p] := by
      simp only [consistenthash.Map.Remove]
      rw [consistenthash.mem_sortInts]
      constructor
      · intro hmem
        obtain ⟨e, he, hex⟩ := List.mem_map.1 hmem
        refine ⟨e.2, ?_, ?_⟩
        · rw [consistenthash.mapGet_eq_some_iff _ hinv.1, ← hex]
          exact (List.mem_filter.1 he).1
        · simpa using (List.mem_filter.1 he).2
      · rintro ⟨v, hv1, hv2⟩
        have hv3 := (consistenthash.mapGet_filter_peers m.hashMap hinv.1 [p] x v).2 ⟨hv1, hv2⟩
        have hnd : ((m.hashMap.filter (fun e => !decide (e.2 ∈ [p]))).map (·.1)).Nodup :=
          hinv.1.sublist ((List.filter_sublist _).map _)
        exact List.mem_map.2 ⟨(x, v), (consistenthash.mapGet_eq_some_iff _ hnd x v).1 hv3, rfl⟩
    rw [hrem]
    constructor
    · rintro ⟨v, hv1, hv2⟩
      obtain ⟨g1, g2⟩ := hinv.2.2 x v hv1
      refine ⟨(hinv.2.1 x).2 (List.mem_map.2
        ⟨(x, v), (consistenthash.mapGet_eq_some_iff _ hinv.1 x v).1 hv1, rfl⟩), ?_⟩
      intro hxp
      rw [hpt] at g2 hxp
      have := hcoll v (hregP v g1) p (List.mem_cons_self _ _) x g2 hxp
      exact hv2 (by simp [this])
    · rintro ⟨hx1, hx2⟩
      obtain ⟨v, hv⟩ := consistenthash.Inv_mapGet_of_mem m _ hinv x hx1
      refine ⟨v, hv, ?_⟩
      intro hvp
      have hvp2 : v = p := by simpa using hvp
      subst hvp2
      exact hx2 (hinv.2.2 x v hv).2
  · intro q hq hqp x hx
    have hq1 : consistenthash.mapGet m.hashMap x = some q := hown q hq x hx
    have hq2 := (consistenthash.mapGet_filter_peers m.hashMap hinv.1 [p] x q).2
      ⟨hq1, by simpa using hqp⟩
    have hnd : ((m.hashMap.filter (fun e => !decide (e.2 ∈ [p]))).map (·.1)).Nodup :=
      hinv.1.sublist ((List.filter_sublist _).map _)
    refine ⟨?_, by simpa [consistenthash.Map.Remove] using hq2⟩
    simp only [consistenthash.Map.Remove]
    rw [consistenthash.mem_sortInts]
    exact List.mem_map.2 ⟨(x, q), (consistenthash.mapGet_eq_some_iff _ hnd x q).1 hq2, rfl⟩

theorem C13_add_remove_points_witness :
    ((((consistenthash.New consistenthash.atoi 3 (some consistenthash.atoi)).run
        [.add ["6", "4", "2"]]).Add ["8"]).keys.Perm
      (((consistenthash.New consistenthash.atoi 3 (some consistenthash.atoi)).run
        [.add ["6", "4", "2"]]).keys ++
        ((consistenthash.New consistenthash.atoi 3 (some consistenthash.atoi)).run
          [.add ["6", "4", "2"]]).pointsOf "8")) :=
  (C13_add_remove_points consistenthash.atoi 3 (some consistenthash.atoi)
    [.add ["6", "4", "2"]] "8" (by decide)).2.1

/-! ## Claims on the group without peer routing and with a zero budget -/

/-- C15: with no peer routing `Get` does not reach the loader. When `RegisterPeerPicker` was
never called, `initPeers` calls the nil function `portPicker`; when the registered provider
yields no picker, `g.peers` stays nil and `load` calls `PickPeer` on it. For every new group,
key, budget and loader both runs end in a nil-call panic. -/
theorem C15_get_without_picker_panics (name : String) (cacheBytes : Int)
    (getter : String → Except gcache.error gcache.ByteView) (key : String) (fuel r : Nat) :
    gcache.Group.Get fuel none (gcache.NewGroup name cacheBytes getter) key r
      = .error .nilCall ∧
    gcache.Group.Get fuel (some fun _ => none) (gcache.NewGroup name cacheBytes getter) key r
      = .error .nilCall := by
  constructor
  · simp [gcache.Group.Get, gcache.NewGroup, gcache.Group.initPeers]
  · by_cases h : cacheBytes ≤ 0
    · simp [gcache.Group.Get, gcache.NewGroup, gcache.Group.initPeers, gcache.Group.Name,
        gcache.Group.lookupCache, h, gcache.Group.load, gcache.Do]
    · simp [gcache.Group.Get, gcache.NewGroup, gcache.Group.initPeers, gcache.Group.Name,
        gcache.Group.lookupCache, h, gcache.Group.load, gcache.Do, gcache.cache.get,
        gcache.cache.zero]

namespace gcache

theorem Group.populate_of_nonpos (g : Group) (h : g.cacheBytes ≤ 0) (fuel : Nat) (k : String)
    (v : ByteView) (tier : Tier) : g.populate fuel k v tier = some g := by
  simp [Group.populate, h]

theorem Group.lookupCache_of_nonpos (g : Group) (h : g.cacheBytes ≤ 0) (k : String) :
    g.lookupCache k = (g, none) := by
  simp [Group.lookupCache, h]

/-- The once-guarded `initPeers` of `Get` on a routed group: the group goes on with the
picker stored and the once-flag set. -/
theorem Group.init_of_routed (pp : PortPicker) (g : Group) (picker : PeerPicker)
    (hr : g.routed pp picker) :
    (if g.peersOnce then (Except.ok g : Except Fault Group)
      else Group.initPeers pp { g with peersOnce := true })
      = .ok { g with peersOnce := true, peers := some picker } := by
  rcases hr with hp | ⟨ho, hp, f, hf, hfp⟩
  · cases hb : g.peersOnce with
    | true =>
      simp only [if_true]
      congr 1
      cases g
      simp_all
    | false =>
      simp only [Group.initPeers, hp, Bool.false_eq_true, if_false]
  · subst hf
    have hfp2 : f g.name = some picker := hfp
    simp [Group.initPeers, hp, ho, Group.Name, hfp2]

/-- One `Get` on a routed group with no budget: the group is left as it was (only the picker
is stored and the once-flag set), and one upstream call is made. -/
theorem Group.Get_of_nonpos (fuel : Nat) (pp : PortPicker) (g : Group) (picker : PeerPicker)
    (k : String) (r : Nat) (h : g.cacheBytes ≤ 0) (hr : g.routed pp picker) :
    ∃ rep, g.Get fuel pp k r = .ok rep ∧
      rep.g = { g with peersOnce := true, peers := some picker } ∧
      (picker k = none → rep.calls = [.origin k] ∧
        ∀ v, g.getter k = .ok v → rep.value = v ∧ rep.err = none) ∧
      (∀ peer, picker k = some peer → rep.calls = [.peer k] ∧
        ∀ b, peer g.name k = .ok b → rep.value = { b := b } ∧ rep.err = none) := by
  have hcb : ({ g with peersOnce := true, peers := some picker } : Group).cacheBytes ≤ 0 := h
  have hp1 : ({ g with peersOnce := true, peers := some picker } : Group).peers
      = some picker := rfl
  unfold Group.Get
  rw [Group.init_of_routed pp g picker hr]
  simp only [Group.lookupCache_of_nonpos _ hcb, Group.load, Do, hp1]
  cases hpk : picker k with
  | none =>
    cases hg : g.getter k with
    | error e =>
      simp [Group.getLocally, hg]
    | ok v =>
      simp [Group.getLocally, hg, Group.populate_of_nonpos _ hcb]
  | some peer =>
    cases hf : peer g.name k with
    | error e =>
      simp [Group.getFromPeer, Group.Name, hf]
    | ok b =>
      by_cases hr0 : r = 0
      · simp [Group.getFromPeer, Group.Name, hf, hr0, Group.populate_of_nonpos _ hcb]
      · simp [Group.getFromPeer, Group.Name, hf, hr0]

end gcache

namespace gcache

/-- A run of `Get` calls on a group with no budget, started from any routed group `g0` that
has the tiers, the name, the loader and the budget of `g`. -/
theorem Group.runGets_of_nonpos (fuel : Nat) (pp : PortPicker) (g : Group)
    (picker : PeerPicker) (h : g.cacheBytes ≤ 0) (reqs : List (String × Nat)) :
    ∀ g0 : Group, g0.routed pp picker → g0.name = g.name → g0.getter = g.getter →
      g0.cacheBytes = g.cacheBytes → g0.mainCache = g.mainCache → g0.hotCache = g.hotCache →
      ∃ reps, Group.runGets fuel pp g0 reqs = .ok reps ∧
        List.Forall₂
          (fun req rep =>
            rep.g.mainCache = g.mainCache ∧ rep.g.hotCache = g.hotCache ∧
            (picker req.1 = none → rep.calls = [.origin req.1] ∧
              ∀ v, g.getter req.1 = .ok v → rep.value = v ∧ rep.err = none) ∧
            (∀ peer, picker req.1 = some peer → rep.calls = [.peer req.1] ∧
              ∀ b, peer g.name req.1 = .ok b → rep.value = { b := b } ∧ rep.err = none))
          reqs reps := by
  induction reqs with
  | nil =>
    intro g0 _ _ _ _ _ _
    exact ⟨[], rfl, List.Forall₂.nil⟩
  | cons req rest ih =>
    intro g0 hr hname hgetter hcb hm hh
    obtain ⟨rep, hrep, hg, hc1, hc2⟩ := Group.Get_of_nonpos fuel pp g0 picker req.1 req.2
      (by rw [hcb]; exact h) hr
    have hr1 : rep.g.routed pp picker := by rw [hg]; exact Or.inl rfl
    have hname1 : rep.g.name = g.name := by rw [hg]; exact hname
    have hgetter1 : rep.g.getter = g.getter := by rw [hg]; exact hgetter
    have hcb1 : rep.g.cacheBytes = g.cacheBytes := by rw [hg]; exact hcb
    have hm1 : rep.g.mainCache = g.mainCache := by rw [hg]; exact hm
    have hh1 : rep.g.hotCache = g.hotCache := by rw [hg]; exact hh
    obtain ⟨reps, hreps, hall⟩ := ih rep.g hr1 hname1 hgetter1 hcb1 hm1 hh1
    refine ⟨rep :: reps, ?_, List.Forall₂.cons ⟨hm1, hh1, ?_, ?_⟩ hall⟩
    · simp [Group.runGets, hrep, hreps]
    · intro hpk
      refine ⟨(hc1 hpk).1, ?_⟩
      intro v hv
      exact (hc1 hpk).2 v (by rw [hgetter]; exact hv)
    · intro peer hpk
      refine ⟨(hc2 peer hpk).1, ?_⟩
      intro b hb
      exact (hc2 peer hpk).2 b (by rw [hname]; exact hb)

end gcache

/-- C18, as stated, fails for a group without peer routing: on a new group with
`cacheBytes = 0`, when no provider was registered or the registered provider yields no picker,
the one-call run of `Get` does not return a value but ends in a nil-call panic, before the
loader is reached. -/
theorem C18_get_needs_routing :
    (gcache.NewGroup "g" 0 (fun _ => .ok { b := [1] })).cacheBytes ≤ 0 ∧
    gcache.Group.runGets 1 none (gcache.NewGroup "g" 0 (fun _ => .ok { b := [1] }))
        [("k", 0)] = .error .nilCall ∧
    gcache.Group.runGets 1 (some fun _ => none)
        (gcache.NewGroup "g" 0 (fun _ => .ok { b := [1] })) [("k", 0)] = .error .nilCall := by
  refine ⟨by decide, ?_, ?_⟩
  · simp [gcache.Group.runGets, gcache.Group.Get, gcache.NewGroup, gcache.Group.initPeers]
  · simp [gcache.Group.runGets, gcache.Group.Get, gcache.NewGroup, gcache.Group.initPeers,
      gcache.Group.Name, gcache.Group.lookupCache, gcache.Group.load, gcache.Do]

/-- C18 (amended): on every group with `cacheBytes ≤ 0`, `populate` leaves the group as it
is and `lookupCache` reports a miss without touching a tier; and when the group is routed (a
picker is stored, or the group is new and the registered provider yields one for its name), in
any run of `Get` calls every call returns, leaves both tiers (contents, bytes and counters) as
they were at the start, makes exactly one upstream call (the loader for a self-owned key, the
peer fetch otherwise) and returns the value that call produced. -/
theorem C18_pass_through (pp : gcache.PortPicker) (g : gcache.Group)
    (picker : gcache.PeerPicker) (h : g.cacheBytes ≤ 0) (hr : g.routed pp picker) :
    (∀ fuel k v tier, g.populate fuel k v tier = some g) ∧
    (∀ k, g.lookupCache k = (g, none)) ∧
    (∀ fuel (reqs : List (String × Nat)),
      ∃ reps, gcache.Group.runGets fuel pp g reqs = .ok reps ∧
        List.Forall₂
          (fun req rep =>
            rep.g.mainCache = g.mainCache ∧ rep.g.hotCache = g.hotCache ∧
            (picker req.1 = none → rep.calls = [.origin req.1] ∧
              ∀ v, g.getter req.1 = .ok v → rep.value = v ∧ rep.err = none) ∧
            (∀ peer, picker req.1 = some peer → rep.calls = [.peer req.1] ∧
              ∀ b, peer g.name req.1 = .ok b → rep.value = { b := b } ∧ rep.err = none))
          reqs reps) := by
  refine ⟨fun fuel k v tier => gcache.Group.populate_of_nonpos g h fuel k v tier,
    fun k => gcache.Group.lookupCache_of_nonpos g h k, ?_⟩
  intro fuel reqs
  exact gcache.Group.runGets_of_nonpos fuel pp g picker h reqs g hr rfl rfl rfl rfl rfl

theorem C18_pass_through_witness :
    (gcache.Group.runGets 1 (some fun _ => some fun _ => none)
        (gcache.NewGroup "g" 0 (fun _ => .ok { b := [1] }))
        [("k", 0), ("k", 3)]).toOption.map (fun reps => reps.length) = some 2 :=
  ((C18_pass_through (some fun _ => some fun _ => none)
      (gcache.NewGroup "g" 0 (fun _ => .ok { b := [1] })) (fun _ => none) (by decide)
      (Or.inr ⟨rfl, rfl, fun _ => some fun _ => none, rfl, rfl⟩)).2.2 1
    [("k", 0), ("k", 3)]).elim fun reps h => by
      rw [h.1]
      exact congrArg some h.2.length_eq.symm

/-! ## The byte-accounted tier: what each operation does to the counters -/

namespace gcache

theorem cost_nonneg (e : lru.entry String ByteView) : 0 ≤ cost e := by
  unfold cost len ByteView.Len
  omega

theorem sum_cost_nonneg (l : List (lru.entry String ByteView)) : 0 ≤ (l.map cost).sum := by
  induction l with
  | nil => simp
  | cons a l ih =>
    have := cost_nonneg a
    simp only [List.map_cons, List.sum_cons]
    omega

theorem cache.items_eq (c : cache) : c.items = (c.resident.length : Int) := by
  unfold cache.items cache.itemsLocked cache.resident
  cases c.lru with
  | none => rfl
  | some l => exact lru.Len_eq l

theorem cache.get_fst (c : cache) (k : String) :
    (c.get k).1.lru = c.lru ∧ (c.get k).1.nBytes = c.nBytes ∧ (c.get k).1.nEvict = c.nEvict := by
  unfold cache.get
  cases hl : c.lru with
  | none => simp [hl]
  | some l =>
    simp only [hl]
    cases l.Get k <;> simp [hl]

theorem cache.get_snd (c : cache) (k : String) :
    (c.get k).2 = (c.resident.find? (fun e => decide (e.key = k))).map (·.val) := by
  unfold cache.get cache.resident
  cases hl : c.lru with
  | none => simp [hl]
  | some l =>
    simp only [hl]
    rw [← lru.Get_eq]
    cases l.Get k <;> rfl

theorem cache.resident_congr (c c1 : cache) (h : c1.lru = c.lru) : c1.resident = c.resident := by
  unfold cache.resident
  rw [h]

/-- The LRU map that `cache.add` works on: the tier's own, or a new one with the callback. -/
theorem cache.add_eq (c : cache) (k : String) (v : ByteView) (h : c.Tidy) :
    ∃ l : lru.Cache String ByteView (Int × Int),
      l.MaxEntries = 0 ∧ l.onEvicted = some onEvicted ∧ l.entries = c.resident ∧
      c.add k v =
        { c with
          lru := some (l.Add k v (c.nBytes, c.nEvict)).1,
          nBytes := (l.Add k v (c.nBytes, c.nEvict)).2.1 + (v.Len + len k),
          nEvict := (l.Add k v (c.nBytes, c.nEvict)).2.2 } := by
  cases hl : c.lru with
  | none =>
    refine ⟨(lru.New).SetOnEvicted (some onEvicted), rfl, rfl, ?_, ?_⟩
    · simp [cache.resident, hl, lru.Cache.entries, lru.New, lru.Cache.SetOnEvicted]
    · simp [cache.add, hl]
  | some l =>
    refine ⟨l, (h l hl).1, (h l hl).2, ?_, ?_⟩
    · simp [cache.resident, hl]
    · simp [cache.add, hl]

theorem cache.resident_of_lru (c : cache) (l : lru.Cache String ByteView (Int × Int))
    (h : c.lru = some l) : c.resident = l.entries := by
  simp [cache.resident, h]

/-- What `add` does on a tidy tier: the counter grows by the new cost, no callback runs, and
the entry is put at the front, in place of the old entry of that key if there was one. -/
theorem cache.add_spec (c : cache) (k : String) (v : ByteView) (h : c.Tidy) :
    (c.add k v).Tidy ∧ (c.add k v).nEvict = c.nEvict ∧
    (c.add k v).nBytes = c.nBytes + (v.Len + len k) ∧
    (k ∉ c.resident.map (·.key) → (c.add k v).resident = { key := k, val := v } :: c.resident) ∧
    (∀ i e, lru.lookup c.resident k = some i → c.resident[i]? = some e →
      (c.add k v).resident = { key := e.key, val := v } :: c.resident.eraseIdx i) := by
  obtain ⟨l, hmax, hcb, hent, hadd⟩ := cache.add_eq c k v h
  have hlru : (c.add k v).lru = some (l.Add k v (c.nBytes, c.nEvict)).1 := by rw [hadd]
  have hnb : (c.add k v).nBytes = (l.Add k v (c.nBytes, c.nEvict)).2.1 + (v.Len + len k) := by
    rw [hadd]
  have hne : (c.add k v).nEvict = (l.Add k v (c.nBytes, c.nEvict)).2.2 := by rw [hadd]
  have hres := cache.resident_of_lru _ _ hlru
  rw [← hent]
  cases hi : lru.lookup l.entries k with
  | some i =>
    obtain ⟨e, he, hk, -, -⟩ := lru.lookup_some_spec l.entries k i hi
    have hA := lru.Add_of_lookup l k v (c.nBytes, c.nEvict) i e hi he
    rw [hA] at hlru hnb hne hres
    refine ⟨?_, hne, hnb, ?_, ?_⟩
    · intro l1 hl1
      rw [hlru] at hl1
      cases hl1
      exact ⟨hmax, hcb⟩
    · intro hn
      rw [(lru.lookup_eq_none_iff l.entries k).2 hn] at hi
      cases hi
    · intro i1 e1 hi1 he1
      cases hi1
      rw [he] at he1
      cases he1
      rw [hres]
      rfl
  | none =>
    have hn := (lru.lookup_eq_none_iff l.entries k).1 hi
    have hA := lru.Add_of_not_mem l k v (c.nBytes, c.nEvict) hn
    simp only [hmax, ne_eq, not_true_eq_false, false_and, if_false] at hA
    rw [hA] at hlru hnb hne hres
    refine ⟨?_, hne, hnb, ?_, ?_⟩
    · intro l1 hl1
      rw [hlru] at hl1
      cases hl1
      exact ⟨rfl, hcb⟩
    · intro _
      rw [hres]
      rfl
    · intro i1 e1 hi1 _
      cases hi1

end gcache

namespace gcache

/-- What `removeOldest` does on a tidy tier: nothing when no entry is resident; otherwise the
back entry leaves, its cost is taken off the counter and one eviction is counted. -/
theorem cache.removeOldest_spec (c : cache) (h : c.Tidy) :
    c.removeOldest.Tidy ∧
    (c.resident = [] → c.removeOldest.resident = [] ∧ c.removeOldest.nBytes = c.nBytes ∧
      c.removeOldest.nEvict = c.nEvict) ∧
    (∀ hne : c.resident ≠ [],
      c.removeOldest.resident = c.resident.dropLast ∧
      c.removeOldest.nBytes = c.nBytes - cost (c.resident.getLast hne) ∧
      c.removeOldest.nEvict = c.nEvict + 1) := by
  cases hl : c.lru with
  | none =>
    have hr : c.resident = [] := by simp [cache.resident, hl]
    have he : c.removeOldest = c := by simp [cache.removeOldest, hl]
    rw [he]
    exact ⟨h, fun _ => ⟨hr, rfl, rfl⟩, fun hne => absurd hr hne⟩
  | some l =>
    obtain ⟨hmax, hcb⟩ := h l hl
    have hr : c.resident = l.entries := cache.resident_of_lru c l hl
    have he : c.removeOldest =
        { c with
          lru := some (l.RemoveOldest (c.nBytes, c.nEvict)).1,
          nBytes := (l.RemoveOldest (c.nBytes, c.nEvict)).2.1,
          nEvict := (l.RemoveOldest (c.nBytes, c.nEvict)).2.2 } := by
      simp [cache.removeOldest, hl]
    have hlru : c.removeOldest.lru = some (l.RemoveOldest (c.nBytes, c.nEvict)).1 := by rw [he]
    have hnb : c.removeOldest.nBytes = (l.RemoveOldest (c.nBytes, c.nEvict)).2.1 := by rw [he]
    have hne1 : c.removeOldest.nEvict = (l.RemoveOldest (c.nBytes, c.nEvict)).2.2 := by rw [he]
    have hres := cache.resident_of_lru _ _ hlru
    rw [hr]
    by_cases hnil : l.entries = []
    · have hR := lru.RemoveOldest_of_nil l (c.nBytes, c.nEvict) hnil
      rw [hR] at hlru hnb hne1 hres
      refine ⟨?_, fun _ => ⟨by rw [hres]; exact hnil, hnb, hne1⟩, fun hne => absurd hnil hne⟩
      intro l1 hl1
      rw [hlru] at hl1
      cases hl1
      exact ⟨hmax, hcb⟩
    · cases hll : l.ll with
      | none => simp [lru.Cache.entries, hll] at hnil
      | some es =>
        have hes : l.entries = es := by simp [lru.Cache.entries, hll]
        have hne2 : es ≠ [] := by rw [← hes]; exact hnil
        have hR := lru.RemoveOldest_of_ne_nil l (c.nBytes, c.nEvict) es hll hne2
        simp only [hcb] at hR
        rw [hR] at hlru hnb hne1 hres
        refine ⟨?_, fun h0 => absurd h0 hnil, ?_⟩
        · intro l1 hl1
          rw [hlru] at hl1
          cases hl1
          exact ⟨hmax, rfl⟩
        · intro hne
          refine ⟨?_, ?_, ?_⟩
          · rw [hres]
            simp [lru.Cache.entries, hll]
          · rw [hnb]
            simp only [onEvicted, cost, hes]
            omega
          · rw [hne1]
            rfl

theorem sum_cost_dropLast (l : List (lru.entry String ByteView)) (hne : l ≠ []) :
    (l.dropLast.map cost).sum = (l.map cost).sum - cost (l.getLast hne) := by
  have h := List.dropLast_append_getLast hne
  have h2 : (l.map cost).sum = ((l.dropLast ++ [l.getLast hne]).map cost).sum := by rw [h]
  rw [h2]
  simp

theorem sum_cost_eraseIdx (l : List (lru.entry String ByteView)) (i : Nat)
    (e : lru.entry String ByteView) (he : l[i]? = some e) :
    ((l.eraseIdx i).map cost).sum = (l.map cost).sum - cost e := by
  have h1 := lru.split_of_getElem l i e he
  have h2 : l.eraseIdx i = l.take i ++ l.drop (i + 1) := List.eraseIdx_eq_take_drop_succ l i
  have h3 : (l.map cost).sum = ((l.take i ++ e :: l.drop (i + 1)).map cost).sum := by rw [← h1]
  rw [h2, h3]
  simp only [List.map_append, List.sum_append, List.map_cons, List.sum_cons]
  omega

end gcache

namespace gcache

theorem cache.inserted_cons (c : cache) (op : TierOp) (ops : List TierOp) :
    cache.inserted c (op :: ops) = cache.inserted c [op] + cache.inserted (c.step op) ops := by
  cases op <;> simp [cache.inserted, cache.step]

theorem cache.noReadd_cons (c : cache) (op : TierOp) (ops : List TierOp) :
    cache.noReadd c (op :: ops) ↔ cache.noReadd c [op] ∧ cache.noReadd (c.step op) ops := by
  cases op <;> simp [cache.noReadd, cache.step]

/-- One operation on a tidy tier: the surplus of `nBytes` over the resident cost does not
shrink, it is kept when no resident key is added again, and the evictions and the resident
entries together count the entries that have entered. -/
theorem cache.step_spec (c : cache) (op : TierOp) (h : c.Tidy) :
    (c.step op).Tidy ∧
    c.nBytes - c.residentCost ≤ (c.step op).nBytes - (c.step op).residentCost ∧
    (cache.noReadd c [op] →
      (c.step op).nBytes - (c.step op).residentCost = c.nBytes - c.residentCost) ∧
    (c.step op).nEvict + (c.step op).items = c.nEvict + c.items + cache.inserted c [op] := by
  cases op with
  | add k v =>
    obtain ⟨h1, h2, h3, h4, h5⟩ := cache.add_spec c k v h
    simp only [cache.step, cache.residentCost, cache.items_eq, cache.inserted, cache.noReadd]
    by_cases hk : k ∈ c.resident.map (·.key)
    · cases hi : lru.lookup c.resident k with
      | none => exact absurd hk ((lru.lookup_eq_none_iff c.resident k).1 hi)
      | some i =>
        obtain ⟨e, he, hek, -, -⟩ := lru.lookup_some_spec c.resident k i hi
        have hres := h5 i e hi he
        have hsum := sum_cost_eraseIdx c.resident i e he
        have hlen := List.length_eraseIdx_of_lt (List.getElem?_eq_some.1 he).1
        have hpos : 0 < c.resident.length := by
          have := (List.getElem?_eq_some.1 he).1
          omega
        have hce : 0 ≤ len e.key + e.val.Len := cost_nonneg e
        rw [hek] at hce
        rw [hres, h2, h3]
        simp only [List.map_cons, List.sum_cons, List.length_cons, hsum, hlen, hk, if_true,
          not_true_eq_false, false_and, false_implies, true_and, and_true]
        refine ⟨h1, ?_, ?_⟩
        · simp only [cost, hek]
          omega
        · push_cast
          omega
    · rw [h4 hk, h2, h3]
      simp only [List.map_cons, List.sum_cons, List.length_cons, hk, if_false,
        not_false_eq_true, true_and, and_true]
      refine ⟨h1, ?_, ?_, ?_⟩
      · simp only [cost]
        omega
      · intro _
        simp only [cost]
        omega
      · push_cast
        omega
  | get k =>
    obtain ⟨g1, g2, g3⟩ := cache.get_fst c k
    have hres := cache.resident_congr c (c.get k).1 g1
    simp only [cache.step, cache.residentCost, cache.items_eq, cache.inserted, hres, g2, g3]
    refine ⟨?_, le_refl _, fun _ => trivial, by omega⟩
    intro l hl
    rw [g1] at hl
    exact h l hl
  | removeOldest =>
    obtain ⟨h1, h2, h3⟩ := cache.removeOldest_spec c h
    simp only [cache.step, cache.residentCost, cache.items_eq, cache.inserted]
    by_cases hnil : c.resident = []
    · obtain ⟨a1, a2, a3⟩ := h2 hnil
      rw [a1, a2, a3, hnil]
      exact ⟨h1, le_refl _, fun _ => rfl, by simp⟩
    · obtain ⟨a1, a2, a3⟩ := h3 hnil
      have hsum := sum_cost_dropLast c.resident hnil
      have hpos : 0 < c.resident.length := List.length_pos.2 hnil
      rw [a1, a2, a3, hsum, List.length_dropLast]
      refine ⟨h1, by omega, fun _ => by omega, ?_⟩
      push_cast [Nat.cast_sub (Nat.succ_le_of_lt hpos)]
      omega

theorem cache.run_spec (ops : List TierOp) :
    ∀ c : cache, c.Tidy →
      (c.run ops).Tidy ∧
      c.nBytes - c.residentCost ≤ (c.run ops).nBytes - (c.run ops).residentCost ∧
      (cache.noReadd c ops →
        (c.run ops).nBytes - (c.run ops).residentCost = c.nBytes - c.residentCost) ∧
      (c.run ops).nEvict + (c.run ops).items = c.nEvict + c.items + cache.inserted c ops := by
  induction ops with
  | nil =>
    intro c h
    exact ⟨h, le_refl _, fun _ => rfl, by simp [cache.run, cache.inserted]⟩
  | cons op ops ih =>
    intro c h
    obtain ⟨s1, s2, s3, s4⟩ := cache.step_spec c op h
    obtain ⟨r1, r2, r3, r4⟩ := ih (c.step op) s1
    have hrun : c.run (op :: ops) = (c.step op).run ops := rfl
    rw [hrun, cache.inserted_cons, cache.noReadd_cons]
    refine ⟨r1, le_trans s2 r2, ?_, by omega⟩
    rintro ⟨n1, n2⟩
    rw [r3 n2, s3 n1]

end gcache

/-- C20: after any sequence of `add`, `get` and `removeOldest` on a fresh tier, `bytes` is not
negative and not smaller than the summed cost of the resident entries; the two are equal when
no `add` of the sequence named a key resident at that moment; and the evictions counted are
the entries that entered the tier less those still resident. -/
theorem C20_tier_counters (ops : List gcache.TierOp) :
    0 ≤ (gcache.cache.zero.run ops).bytes ∧
    (gcache.cache.zero.run ops).residentCost ≤ (gcache.cache.zero.run ops).bytes ∧
    (gcache.cache.noReadd gcache.cache.zero ops →
      (gcache.cache.zero.run ops).bytes = (gcache.cache.zero.run ops).residentCost) ∧
    (gcache.cache.zero.run ops).stats.Evictions =
      gcache.cache.inserted gcache.cache.zero ops - (gcache.cache.zero.run ops).items := by
  have hz : gcache.cache.zero.Tidy := by
    intro l hl
    simp [gcache.cache.zero] at hl
  obtain ⟨-, r2, r3, r4⟩ := gcache.cache.run_spec ops gcache.cache.zero hz
  have hnn := gcache.sum_cost_nonneg (gcache.cache.zero.run ops).resident
  have h0 : gcache.cache.zero.nBytes - gcache.cache.zero.residentCost = 0 := by decide
  have h1 : gcache.cache.zero.nEvict + gcache.cache.zero.items = 0 := by decide
  simp only [gcache.cache.bytes, gcache.cache.stats]
  unfold gcache.cache.residentCost at r2 r3 h0 ⊢
  refine ⟨by omega, by omega, ?_, by omega⟩
  intro hn
  have := r3 hn
  omega

/-- C1 (amended): after any sequence of `add`, `get` and `removeOldest` on a fresh tier,
`items` is the number of resident entries; and when no `add` of the sequence names a key that
is resident at that moment, `bytes` is the summed cost `len(key) + value.Len()` of the
resident entries. -/
theorem C1_tier_counters_without_readd (ops : List gcache.TierOp) :
    (gcache.cache.zero.run ops).items = ((gcache.cache.zero.run ops).resident.length : Int) ∧
    (gcache.cache.noReadd gcache.cache.zero ops →
      (gcache.cache.zero.run ops).bytes = (gcache.cache.zero.run ops).residentCost) := by
  have hz : gcache.cache.zero.Tidy := by
    intro l hl
    simp [gcache.cache.zero] at hl
  obtain ⟨-, -, r3, -⟩ := gcache.cache.run_spec ops gcache.cache.zero hz
  have h0 : gcache.cache.zero.nBytes - gcache.cache.zero.residentCost = 0 := by decide
  refine ⟨gcache.cache.items_eq _, fun h => ?_⟩
  have := r3 h
  simp only [gcache.cache.bytes]
  omega

theorem C1_tier_counters_without_readd_witness :
    (gcache.cache.zero.run
        [.add "k" ⟨[1]⟩, .get "k", .add "j" ⟨[2, 3]⟩, .removeOldest, .add "k" ⟨[4]⟩]).bytes =
      (gcache.cache.zero.run
        [.add "k" ⟨[1]⟩, .get "k", .add "j" ⟨[2, 3]⟩, .removeOldest, .add "k" ⟨[4]⟩]).residentCost :=
  (C1_tier_counters_without_readd
    [.add "k" ⟨[1]⟩, .get "k", .add "j" ⟨[2, 3]⟩, .removeOldest, .add "k" ⟨[4]⟩]).2 (by decide)

/-! ## The group with a positive budget: the self-owned path and the peer path -/

namespace gcache

theorem cache.get_of_empty (c : cache) (k : String) (h : c.Empty) :
    c.get k = ({ c with nGet := c.nGet + 1 }, none) := by
  obtain ⟨-, -, hres⟩ := h
  have h2 := cache.get_snd c k
  rw [hres] at h2
  simp only [List.find?_nil, Option.map_none'] at h2
  unfold cache.get at h2 ⊢
  cases hl : c.lru with
  | none => simp [hl]
  | some l =>
    simp only [hl] at h2 ⊢
    cases hg : l.Get k with
    | none => simp [hg]
    | some val => simp [hg] at h2

theorem cache.get_of_find (c : cache) (k : String) (e : lru.entry String ByteView)
    (h : c.resident.find? (fun e => decide (e.key = k)) = some e) :
    c.get k = ({ c with nGet := c.nGet + 1, nHit := c.nHit + 1 }, some e.val) := by
  have h2 := cache.get_snd c k
  rw [h] at h2
  simp only [Option.map_some'] at h2
  unfold cache.get at h2 ⊢
  cases hl : c.lru with
  | none => simp [hl] at h2
  | some l =>
    simp only [hl] at h2 ⊢
    cases hg : l.Get k with
    | none => simp [hg] at h2
    | some val =>
      simp only [hg] at h2 ⊢
      simp only [Option.some.injEq] at h2
      rw [h2]

/-- An `add` on an empty tier: the counter is the cost of the entry, which alone is resident. -/
theorem cache.add_of_empty (c : cache) (k : String) (v : ByteView) (h : c.Empty) :
    (c.add k v).nBytes = v.Len + len k ∧ (c.add k v).Tidy ∧
      (c.add k v).resident = [{ key := k, val := v }] := by
  obtain ⟨hb, ht, hres⟩ := h
  obtain ⟨h1, -, h3, h4, -⟩ := cache.add_spec c k v ht
  refine ⟨by rw [h3, hb]; omega, h1, ?_⟩
  rw [h4 (by rw [hres]; simp), hres]

/-- The once-guarded `initPeers` of `Get` when a picker is already installed. -/
theorem Group.init_of_peers (pp : PortPicker) (g : Group) (picker : PeerPicker)
    (hp : g.peers = some picker) :
    (if g.peersOnce then (Except.ok g : Except Fault Group)
      else Group.initPeers pp { g with peersOnce := true }) = .ok { g with peersOnce := true } := by
  cases hb : g.peersOnce with
  | true =>
    simp only [if_true]
    congr 1
    cases g
    simp_all
  | false => simp [Group.initPeers, hp]

/-- A lookup on a group whose two tiers are empty: a miss; only `nGet` may have moved. -/
theorem Group.lookupCache_of_empty (g : Group) (k : String) (hm : g.mainCache.Empty)
    (hh : g.hotCache.Empty) :
    ∃ g1, g.lookupCache k = (g1, none) ∧ g.sameConfig g1 ∧ g1.mainCache.Empty ∧
      g1.hotCache.Empty := by
  by_cases hc : g.cacheBytes ≤ 0
  · exact ⟨g, by simp [Group.lookupCache, hc], ⟨rfl, rfl, rfl, rfl⟩, hm, hh⟩
  · refine ⟨{ g with
        mainCache := { g.mainCache with nGet := g.mainCache.nGet + 1 },
        hotCache := { g.hotCache with nGet := g.hotCache.nGet + 1 } }, ?_,
      ⟨rfl, rfl, rfl, rfl⟩, hm, hh⟩
    simp [Group.lookupCache, hc, cache.get_of_empty _ k hm, cache.get_of_empty _ k hh]

/-- `populate` of an entry that fits the budget, into the main tier of a group whose two
tiers are empty: one pass of the loop finds the group within budget. -/
theorem Group.populate_main_of_empty (fuel : Nat) (g : Group) (k : String) (v : ByteView)
    (hpos : 0 < g.cacheBytes) (hfit : len k + v.Len ≤ g.cacheBytes) (hm : g.mainCache.Empty)
    (hh : g.hotCache.Empty) :
    g.populate (fuel + 1) k v .main = some { g with mainCache := g.mainCache.add k v } := by
  have hb := (cache.add_of_empty g.mainCache k v hm).1
  have hc : ¬ g.cacheBytes ≤ 0 := by omega
  simp only [Group.populate, hc, if_false, Group.rebalance, cache.bytes, hb, hh.1]
  rw [if_pos (by omega)]

theorem Group.populate_hot_of_empty (fuel : Nat) (g : Group) (k : String) (v : ByteView)
    (hpos : 0 < g.cacheBytes) (hfit : len k + v.Len ≤ g.cacheBytes) (hm : g.mainCache.Empty)
    (hh : g.hotCache.Empty) :
    g.populate (fuel + 1) k v .hot = some { g with hotCache := g.hotCache.add k v } := by
  have hb := (cache.add_of_empty g.hotCache k v hh).1
  have hc : ¬ g.cacheBytes ≤ 0 := by omega
  simp only [Group.populate, hc, if_false, Group.rebalance, cache.bytes, hb, hm.1]
  rw [if_pos (by omega)]

/-- Reading back the one entry of a tier. -/
theorem cache.get_of_single (c : cache) (k : String) (v : ByteView)
    (h : c.resident = [{ key := k, val := v }]) :
    c.get k = ({ c with nGet := c.nGet + 1, nHit := c.nHit + 1 }, some v) := by
  have := cache.get_of_find c k { key := k, val := v } (by rw [h]; simp)
  simpa using this

end gcache

/-- C16, as stated, fails for a zero budget: on a new group with `cacheBytes = 0` whose
registered picker returns no peer, the empty key with an empty value has cost
0 ≤ `cacheBytes`, `Get` calls the loader and returns the value, but `populate` stores nothing
in a group without budget, so the main tier does not contain the key. -/
theorem C16_zero_budget_stores_nothing :
    gcache.len "" + (gcache.ByteView.mk []).Len ≤ 0 ∧
    (gcache.Group.Get 1 (some fun _ => some fun _ => none)
        (gcache.NewGroup "g" 0 (fun _ => .ok { b := [] })) "" 0).toOption.map
      (fun rep => (rep.value, rep.err, rep.calls, (rep.g.mainCache.get "").2,
        rep.g.mainCache.items))
      = some ({ b := [] }, none, [.origin ""], none, 0) := by
  decide

/-- C16 (amended): on a routed group (a picker is stored, or the group is new and the
registered provider yields one for its name) with a positive budget and empty tiers, whose
picker returns no peer for `k`, when the loader returns `v` and
`len(k) + len(v) ≤ cacheBytes`, `Get k` returns `v` after exactly one loader call; afterwards
the main tier holds `k` with `v` and the hot tier does not hold `k`; a second `Get k` returns
`v` as a hit of the main tier, with no upstream call. -/
theorem C16_self_owned (fuel fuel2 : Nat) (pp : gcache.PortPicker) (g : gcache.Group)
    (picker : gcache.PeerPicker) (k : String) (v : gcache.ByteView) (r r2 : Nat)
    (hm : g.mainCache.Empty) (hh : g.hotCache.Empty) (hrt : g.routed pp picker)
    (hpick : picker k = none) (hload : g.getter k = .ok v) (hpos : 0 < g.cacheBytes)
    (hfit : gcache.len k + v.Len ≤ g.cacheBytes) :
    ∃ rep, g.Get (fuel + 1) pp k r = .ok rep ∧ rep.value = v ∧ rep.err = none ∧
      rep.calls = [.origin k] ∧ (rep.g.mainCache.get k).2 = some v ∧
      (rep.g.hotCache.get k).2 = none ∧
      ∃ rep2, rep.g.Get fuel2 pp k r2 = .ok rep2 ∧ rep2.value = v ∧ rep2.err = none ∧
        rep2.calls = [] ∧ rep2.g.mainCache.nHit = rep.g.mainCache.nHit + 1 ∧
        rep2.g.hotCache = rep.g.hotCache := by
  obtain ⟨g1, hl1, ⟨-, c12, c13, c14⟩, hm1, hh1⟩ :=
    gcache.Group.lookupCache_of_empty { g with peersOnce := true, peers := some picker } k hm hh
  obtain ⟨g2, hl2, ⟨-, c22, c23, c24⟩, hm2, hh2⟩ := gcache.Group.lookupCache_of_empty g1 k hm1 hh1
  have hp2 : g2.peers = some picker := by rw [c23, c13]
  have hg2 : g2.getter k = .ok v := by rw [c22, c12]; exact hload
  have hcb2 : g2.cacheBytes = g.cacheBytes := by rw [c24, c14]
  have hpop := gcache.Group.populate_main_of_empty fuel g2 k v (by rw [hcb2]; exact hpos)
    (by rw [hcb2]; exact hfit) hm2 hh2
  obtain ⟨-, -, hres⟩ := gcache.cache.add_of_empty g2.mainCache k v hm2
  have hget1 : g.Get (fuel + 1) pp k r =
      .ok { g := { g2 with mainCache := g2.mainCache.add k v }, value := v, err := none,
            calls := [.origin k] } := by
    unfold gcache.Group.Get
    rw [gcache.Group.init_of_routed pp g picker hrt]
    simp only [hl1, gcache.Group.load, gcache.Do, hl2, hp2, hpick, gcache.Group.getLocally, hg2,
      hpop]
  refine ⟨_, hget1, rfl, rfl, rfl, ?_, ?_, ?_⟩
  · simp only [gcache.cache.get_of_single _ k v hres]
  · simp only [gcache.cache.get_of_empty _ k hh2]
  · have hp3 : ({ g2 with mainCache := g2.mainCache.add k v } : gcache.Group).peers
        = some picker := hp2
    have hc3 : ¬ ({ ({ g2 with mainCache := g2.mainCache.add k v } : gcache.Group) with
        peersOnce := true } : gcache.Group).cacheBytes ≤ 0 := by
      show ¬ g2.cacheBytes ≤ 0
      rw [hcb2]
      omega
    refine ⟨{ g := { ({ g2 with mainCache := g2.mainCache.add k v } : gcache.Group) with
                peersOnce := true,
                mainCache := ((g2.mainCache.add k v).get k).1 },
              value := v, err := none, calls := [] }, ?_, rfl, rfl, rfl, ?_, rfl⟩
    · unfold gcache.Group.Get
      rw [gcache.Group.init_of_peers pp _ picker hp3]
      simp only [gcache.Group.lookupCache, hc3, if_false,
        gcache.cache.get_of_single _ k v hres]
    · simp only [gcache.cache.get_of_single _ k v hres]

theorem C16_self_owned_witness :
    (gcache.Group.Get 1 (some fun _ => some fun _ => none)
        (gcache.NewGroup "g" 10 (fun _ => .ok { b := [1] }))
        "k" 0).toOption.map (fun rep => rep.value) = some { b := [1] } :=
  (C16_self_owned 0 0 (some fun _ => some fun _ => none)
    (gcache.NewGroup "g" 10 (fun _ => .ok { b := [1] }))
    (fun _ => none) "k" { b := [1] } 0 0
    ⟨rfl, fun l hl => by simp [gcache.NewGroup, gcache.cache.zero] at hl, rfl⟩
    ⟨rfl, fun l hl => by simp [gcache.NewGroup, gcache.cache.zero] at hl, rfl⟩
    (Or.inr ⟨rfl, rfl, fun _ => some fun _ => none, rfl, rfl⟩)
    rfl rfl (by decide) (by decide)).elim fun rep h => by
      rw [h.1]
      exact congrArg some h.2.1

/-- C17, as stated, fails for a zero budget: on a new group with `cacheBytes = 0` whose
registered picker routes every key to a peer, the empty key with an empty value fits the
budget, the peer fetch succeeds and the sampler fires (`rand.Intn(10)` gives 0), but
`populate` stores nothing in a group without budget, so the hot tier does not contain the
key. -/
theorem C17_zero_budget_stores_nothing :
    gcache.len "" + (gcache.ByteView.mk []).Len ≤ 0 ∧
    (gcache.Group.Get 1 (some fun _ => some fun _ => some fun _ _ => .ok [])
        (gcache.NewGroup "g" 0 (fun _ => .ok { b := [] })) "" 0).toOption.map
      (fun rep => (rep.value, rep.err, rep.calls, (rep.g.hotCache.get "").2,
        rep.g.hotCache.items))
      = some ({ b := [] }, none, [.peer ""], none, 0) := by
  decide

/-- C17 (amended): on a routed group (a picker is stored, or the group is new and the
registered provider yields one for its name) with empty tiers whose picker routes `k` to a
remote peer: if
the fetch returns the bytes `v`, the budget is positive and the entry fits it, `Get k` returns
`v` with the peer fetch as its only upstream call (the loader is not called), the main tier
does not hold `k` afterwards, and the hot tier holds `k` with `v` exactly when
`rand.Intn(10)` gave 0; if the fetch returns an error, `Get` returns that error, the fetch is
the only upstream call and both tiers stay empty. -/
theorem C17_peer_path (fuel : Nat) (pp : gcache.PortPicker) (g : gcache.Group)
    (picker : gcache.PeerPicker) (peer : gcache.ProtoGetter) (k : String) (r : Nat)
    (hm : g.mainCache.Empty) (hh : g.hotCache.Empty) (hrt : g.routed pp picker)
    (hpick : picker k = some peer) :
    (∀ v, peer g.name k = .ok v → 0 < g.cacheBytes →
      gcache.len k + (gcache.ByteView.mk v).Len ≤ g.cacheBytes →
      ∃ rep, g.Get (fuel + 1) pp k r = .ok rep ∧ rep.value = { b := v } ∧ rep.err = none ∧
        rep.calls = [.peer k] ∧ (rep.g.mainCache.get k).2 = none ∧
        ((rep.g.hotCache.get k).2 = some { b := v } ↔ r = 0) ∧
        (r ≠ 0 → (rep.g.hotCache.get k).2 = none)) ∧
    (∀ e, peer g.name k = .error e →
      ∃ rep, g.Get fuel pp k r = .ok rep ∧ rep.err = some e ∧ rep.calls = [.peer k] ∧
        rep.g.mainCache.Empty ∧ rep.g.hotCache.Empty) := by
  obtain ⟨g1, hl1, ⟨c11, -, c13, c14⟩, hm1, hh1⟩ :=
    gcache.Group.lookupCache_of_empty { g with peersOnce := true, peers := some picker } k hm hh
  obtain ⟨g2, hl2, ⟨c21, -, c23, c24⟩, hm2, hh2⟩ := gcache.Group.lookupCache_of_empty g1 k hm1 hh1
  have hp2 : g2.peers = some picker := by rw [c23, c13]
  have hn2 : g2.name = g.name := by rw [c21, c11]
  have hcb2 : g2.cacheBytes = g.cacheBytes := by rw [c24, c14]
  constructor
  · intro v hv hpos hfit
    have hv2 : peer g2.name k = .ok v := by rw [hn2]; exact hv
    by_cases hr : r = 0
    · have hpop := gcache.Group.populate_hot_of_empty fuel g2 k { b := v }
        (by rw [hcb2]; exact hpos) (by rw [hcb2]; exact hfit) hm2 hh2
      obtain ⟨-, -, hres⟩ := gcache.cache.add_of_empty g2.hotCache k { b := v } hh2
      have hget1 : g.Get (fuel + 1) pp k r =
          .ok { g := { g2 with hotCache := g2.hotCache.add k { b := v } }, value := { b := v },
                err := none, calls := [.peer k] } := by
        unfold gcache.Group.Get
        rw [gcache.Group.init_of_routed pp g picker hrt]
        simp only [hl1, gcache.Group.load, gcache.Do, hl2, hp2, hpick, gcache.Group.getFromPeer,
          gcache.Group.Name, hv2, hr, if_true, hpop]
      refine ⟨_, hget1, rfl, rfl, rfl, ?_, ?_, fun h => absurd hr h⟩
      · simp only [gcache.cache.get_of_empty _ k hm2]
      · simp only [gcache.cache.get_of_single _ k _ hres, hr]
    · have hget1 : g.Get (fuel + 1) pp k r =
          .ok { g := g2, value := { b := v }, err := none, calls := [.peer k] } := by
        unfold gcache.Group.Get
        rw [gcache.Group.init_of_routed pp g picker hrt]
        simp only [hl1, gcache.Group.load, gcache.Do, hl2, hp2, hpick, gcache.Group.getFromPeer,
          gcache.Group.Name, hv2, hr, if_false]
      refine ⟨_, hget1, rfl, rfl, rfl, ?_, ?_, fun _ => ?_⟩
      · simp only [gcache.cache.get_of_empty _ k hm2]
      · simp only [gcache.cache.get_of_empty _ k hh2, hr]
        simp
      · simp only [gcache.cache.get_of_empty _ k hh2]
  · intro e he
    have he2 : peer g2.name k = .error e := by rw [hn2]; exact he
    refine ⟨{ g := g2, value := { b := [] }, err := some e, calls := [.peer k] }, ?_, rfl, rfl,
      hm2, hh2⟩
    unfold gcache.Group.Get
    rw [gcache.Group.init_of_routed pp g picker hrt]
    simp only [hl1, gcache.Group.load, gcache.Do, hl2, hp2, hpick, gcache.Group.getFromPeer,
      gcache.Group.Name, he2]

theorem C17_peer_path_witness :
    (gcache.Group.Get 1 (some fun _ => some fun _ => some fun _ _ => .ok [7])
        (gcache.NewGroup "g" 10 (fun _ => .ok { b := [] }))
        "k" 0).toOption.map (fun rep => rep.value) = some { b := [7] } :=
  ((C17_peer_path 0 (some fun _ => some fun _ => some fun _ _ => .ok [7])
    (gcache.NewGroup "g" 10 (fun _ => .ok { b := [] }))
    (fun _ => some fun _ _ => .ok [7]) (fun _ _ => .ok [7]) "k" 0
    ⟨rfl, fun l hl => by simp [gcache.NewGroup, gcache.cache.zero] at hl, rfl⟩
    ⟨rfl, fun l hl => by simp [gcache.NewGroup, gcache.cache.zero] at hl, rfl⟩
    (Or.inr ⟨rfl, rfl, fun _ => some fun _ => some fun _ _ => .ok [7], rfl, rfl⟩)
    rfl).1 [7] rfl (by decide) (by decide)).elim fun rep h => by
      rw [h.1]
      exact congrArg some h.2.1

/-! ## The group keeps its tiers accounted: `populate` never adds a resident key -/

namespace gcache

/-- One tier operation that adds no resident key keeps the tier accounted. -/
theorem cache.step_accounted (c : cache) (op : TierOp) (h : c.Accounted)
    (hn : cache.noReadd c [op]) : (c.step op).Accounted := by
  obtain ⟨s1, -, s3, -⟩ := cache.step_spec c op h.1
  refine ⟨s1, ?_⟩
  have h1 := s3 hn
  have h2 := h.2
  omega

theorem cache.get_accounted (c : cache) (k : String) (h : c.Accounted) :
    (c.get k).1.Accounted :=
  cache.step_accounted c (.get k) h (by simp [cache.noReadd])

theorem cache.removeOldest_accounted (c : cache) (h : c.Accounted) :
    c.removeOldest.Accounted :=
  cache.step_accounted c .removeOldest h (by simp [cache.noReadd])

theorem cache.add_accounted (c : cache) (k : String) (v : ByteView) (h : c.Accounted)
    (hk : k ∉ c.resident.map (·.key)) : (c.add k v).Accounted :=
  cache.step_accounted c (.add k v) h (by simp only [cache.noReadd]; exact ⟨hk, trivial⟩)

theorem cache.get_resident (c : cache) (k : String) : (c.get k).1.resident = c.resident :=
  cache.resident_congr c (c.get k).1 (cache.get_fst c k).1

/-- A miss of `get` means that the key is not resident. -/
theorem cache.not_resident_of_get_none (c : cache) (k : String) (h : (c.get k).2 = none) :
    k ∉ c.resident.map (·.key) := by
  rw [cache.get_snd] at h
  simp only [Option.map_eq_none'] at h
  rw [List.find?_eq_none] at h
  intro hmem
  obtain ⟨e, he, hek⟩ := List.mem_map.1 hmem
  exact h e he (by simpa using hek)

/-- The lookup of `Get` and `load` keeps the tiers accounted, and on a group with a budget a
miss means that the key is resident in neither tier. -/
theorem Group.lookupCache_accounted (g : Group) (k : String) (h : g.Accounted) :
    (g.lookupCache k).1.Accounted ∧ (g.lookupCache k).1.cacheBytes = g.cacheBytes ∧
    ((g.lookupCache k).2 = none → 0 < g.cacheBytes →
      k ∉ (g.lookupCache k).1.mainCache.resident.map (·.key) ∧
      k ∉ (g.lookupCache k).1.hotCache.resident.map (·.key)) := by
  by_cases hc : g.cacheBytes ≤ 0
  · have hlc : g.lookupCache k = (g, none) := by simp [Group.lookupCache, hc]
    rw [hlc]
    exact ⟨h, rfl, fun _ hpos => absurd hpos (by omega)⟩
  · cases hm : (g.mainCache.get k).2 with
    | some value =>
      have hlc : g.lookupCache k =
          ({ g with mainCache := (g.mainCache.get k).1 }, some value) := by
        simp [Group.lookupCache, hc, hm]
      rw [hlc]
      refine ⟨⟨cache.get_accounted _ k h.1, h.2⟩, rfl, fun hn => ?_⟩
      simp at hn
    | none =>
      have hlc : g.lookupCache k =
          ({ g with mainCache := (g.mainCache.get k).1, hotCache := (g.hotCache.get k).1 },
            (g.hotCache.get k).2) := by
        simp [Group.lookupCache, hc, hm]
      rw [hlc]
      refine ⟨⟨cache.get_accounted _ k h.1, cache.get_accounted _ k h.2⟩, rfl, fun hn _ => ?_⟩
      refine ⟨?_, ?_⟩
      · show k ∉ (g.mainCache.get k).1.resident.map (·.key)
        rw [cache.get_resident]
        exact cache.not_resident_of_get_none _ k hm
      · show k ∉ (g.hotCache.get k).1.resident.map (·.key)
        rw [cache.get_resident]
        exact cache.not_resident_of_get_none _ k hn

theorem Group.evictOne_accounted (g : Group) (h : g.Accounted) : g.evictOne.Accounted := by
  unfold Group.evictOne
  by_cases hc : g.hotCache.bytes ≥ (g.mainCache.bytes).tdiv 8
  · simp only [hc, if_true]
    exact ⟨h.1, cache.removeOldest_accounted _ h.2⟩
  · simp only [hc, if_false]
    exact ⟨cache.removeOldest_accounted _ h.1, h.2⟩

theorem Group.rebalance_accounted (fuel : Nat) :
    ∀ g g1 : Group, g.Accounted → Group.rebalance fuel g = some g1 → g1.Accounted := by
  induction fuel with
  | zero =>
    intro g g1 _ hr
    simp [Group.rebalance] at hr
  | succ fuel ih =>
    intro g g1 h hr
    unfold Group.rebalance at hr
    by_cases hc : g.mainCache.bytes + g.hotCache.bytes ≤ g.cacheBytes
    · simp only [hc, if_true, Option.some.injEq] at hr
      rw [← hr]
      exact h
    · simp only [hc, if_false] at hr
      exact ih _ g1 (Group.evictOne_accounted g h) hr

/-- `populate` of a key that is resident in neither tier keeps the tiers accounted. -/
theorem Group.populate_accounted (fuel : Nat) (g g1 : Group) (k : String) (v : ByteView)
    (tier : Tier) (h : g.Accounted)
    (hk : 0 < g.cacheBytes →
      k ∉ g.mainCache.resident.map (·.key) ∧ k ∉ g.hotCache.resident.map (·.key))
    (hp : g.populate fuel k v tier = some g1) : g1.Accounted := by
  unfold Group.populate at hp
  by_cases hc : g.cacheBytes ≤ 0
  · simp only [hc, if_true, Option.some.injEq] at hp
    rw [← hp]
    exact h
  · simp only [hc, if_false] at hp
    obtain ⟨hkm, hkh⟩ := hk (by omega)
    cases tier with
    | main =>
      have hp1 : Group.rebalance fuel { g with mainCache := g.mainCache.add k v } = some g1 := hp
      exact Group.rebalance_accounted fuel { g with mainCache := g.mainCache.add k v } g1
        ⟨cache.add_accounted _ k v h.1 hkm, h.2⟩ hp1
    | hot =>
      have hp1 : Group.rebalance fuel { g with hotCache := g.hotCache.add k v } = some g1 := hp
      exact Group.rebalance_accounted fuel { g with hotCache := g.hotCache.add k v } g1
        ⟨h.1, cache.add_accounted _ k v h.2 hkh⟩ hp1

theorem Group.getFromPeer_accounted (fuel : Nat) (g : Group) (peer : ProtoGetter)
    (k : String) (r : Nat) (rep : Reply) (h : g.Accounted)
    (hk : 0 < g.cacheBytes →
      k ∉ g.mainCache.resident.map (·.key) ∧ k ∉ g.hotCache.resident.map (·.key))
    (hg : g.getFromPeer fuel peer k r = .ok rep) : rep.g.Accounted := by
  unfold Group.getFromPeer at hg
  cases hf : peer g.Name k with
  | error e =>
    simp only [hf, Except.ok.injEq] at hg
    rw [← hg]
    exact h
  | ok bytes =>
    simp only [hf] at hg
    by_cases hr : r = 0
    · simp only [hr, if_true] at hg
      cases hp : g.populate fuel k { b := bytes } .hot with
      | none => simp [hp] at hg
      | some g1 =>
        simp only [hp, Except.ok.injEq] at hg
        rw [← hg]
        exact Group.populate_accounted fuel g g1 k _ .hot h hk hp
    · simp only [hr, if_false, Except.ok.injEq] at hg
      rw [← hg]
      exact h

theorem Group.load_accounted (fuel : Nat) (g : Group) (k : String) (r : Nat) (rep : Reply)
    (h : g.Accounted) (hl : g.load fuel k r = .ok rep) : rep.g.Accounted := by
  obtain ⟨ha, hcb, hmiss⟩ := Group.lookupCache_accounted g k h
  unfold Group.load Do at hl
  simp only at hl
  cases hlc : (g.lookupCache k).2 with
  | some v =>
    simp only [hlc, Except.ok.injEq] at hl
    rw [← hl]
    exact ha
  | none =>
    have hk : 0 < (g.lookupCache k).1.cacheBytes →
        k ∉ (g.lookupCache k).1.mainCache.resident.map (·.key) ∧
        k ∉ (g.lookupCache k).1.hotCache.resident.map (·.key) := by
      intro hpos
      exact hmiss hlc (by rw [← hcb]; exact hpos)
    simp only [hlc] at hl
    cases hpe : (g.lookupCache k).1.peers with
    | none => simp [hpe] at hl
    | some picker =>
      simp only [hpe] at hl
      cases hpk : picker k with
      | some peer =>
        simp only [hpk] at hl
        cases hgp : (g.lookupCache k).1.getFromPeer fuel peer k r with
        | error f => simp [hgp] at hl
        | ok view =>
          have hva := Group.getFromPeer_accounted fuel _ peer k r view ha hk hgp
          simp only [hgp] at hl
          cases hve : view.err with
          | none =>
            simp only [hve, Except.ok.injEq] at hl
            rw [← hl]
            exact hva
          | some err =>
            simp only [hve, Except.ok.injEq] at hl
            rw [← hl]
            exact hva
      | none =>
        simp only [hpk] at hl
        cases hgl : ((g.lookupCache k).1.getLocally k).2 with
        | some e =>
          simp only [hgl, Except.ok.injEq] at hl
          rw [← hl]
          exact ha
        | none =>
          simp only [hgl] at hl
          cases hp : (g.lookupCache k).1.populate fuel k ((g.lookupCache k).1.getLocally k).1
              .main with
          | none => simp [hp] at hl
          | some g1 =>
            simp only [hp, Except.ok.injEq] at hl
            rw [← hl]
            exact Group.populate_accounted fuel _ g1 k _ .main ha hk hp

theorem Group.initPeers_tiers (pp : PortPicker) (g g1 : Group)
    (hi : Group.initPeers pp g = .ok g1) :
    g1.mainCache = g.mainCache ∧ g1.hotCache = g.hotCache := by
  unfold Group.initPeers at hi
  cases hp : g.peers with
  | some p =>
    simp only [hp, Except.ok.injEq] at hi
    rw [← hi]
    exact ⟨rfl, rfl⟩
  | none =>
    simp only [hp] at hi
    cases pp with
    | none => simp at hi
    | some f =>
      simp only at hi
      cases hf : f g.Name with
      | some p =>
        simp only [hf, Except.ok.injEq] at hi
        rw [← hi]
        exact ⟨rfl, rfl⟩
      | none =>
        simp only [hf, Except.ok.injEq] at hi
        rw [← hi]
        exact ⟨rfl, rfl⟩

/-- A `Get` that returns leaves an accounted group accounted. -/
theorem Group.Get_accounted (fuel : Nat) (pp : PortPicker) (g : Group) (k : String) (r : Nat)
    (rep : Reply) (h : g.Accounted) (hg : g.Get fuel pp k r = .ok rep) : rep.g.Accounted := by
  unfold Group.Get at hg
  simp only at hg
  cases hin : (if g.peersOnce then (Except.ok g : Except Fault Group)
      else Group.initPeers pp { g with peersOnce := true }) with
  | error f => simp [hin] at hg
  | ok g1 =>
    have h1 : g1.Accounted := by
      by_cases hb : g.peersOnce
      · simp only [hb, if_true, Except.ok.injEq] at hin
        rw [← hin]
        exact h
      · simp only [hb, Bool.false_eq_true, if_false] at hin
        obtain ⟨e1, e2⟩ := Group.initPeers_tiers pp _ g1 hin
        unfold Group.Accounted
        rw [e1, e2]
        exact h
    obtain ⟨ha, -, -⟩ := Group.lookupCache_accounted g1 k h1
    simp only [hin] at hg
    cases hlc : (g1.lookupCache k).2 with
    | some v =>
      simp only [hlc, Except.ok.injEq] at hg
      rw [← hg]
      exact ha
    | none =>
      simp only [hlc] at hg
      exact Group.load_accounted fuel _ k r rep ha hg

theorem Group.runGets_accounted (fuel : Nat) (pp : PortPicker) (reqs : List (String × Nat)) :
    ∀ (g : Group) (reps : List Reply), g.Accounted →
      Group.runGets fuel pp g reqs = .ok reps → ∀ rep ∈ reps, rep.g.Accounted := by
  induction reqs with
  | nil =>
    intro g reps _ hr
    simp only [Group.runGets, Except.ok.injEq] at hr
    rw [← hr]
    simp
  | cons req rest ih =>
    intro g reps h hr
    unfold Group.runGets at hr
    cases hg : g.Get fuel pp req.1 req.2 with
    | error f => simp [hg] at hr
    | ok rep =>
      have ha := Group.Get_accounted fuel pp g req.1 req.2 rep h hg
      simp only [hg] at hr
      cases hrest : Group.runGets fuel pp rep.g rest with
      | error f => simp [hrest] at hr
      | ok reps1 =>
        simp only [hrest, Except.ok.injEq] at hr
        rw [← hr]
        intro x hx
        rcases List.mem_cons.1 hx with hx1 | hx1
        · rw [hx1]
          exact ha
        · exact ih rep.g reps1 ha hrest x hx1

/-- On every group that `NewGroup` builds, after every run of `Get` calls that returns, each
tier's `bytes` is the summed cost of its resident entries and `items` is their number:
`populate` is reached only after `lookupCache` missed the key in both tiers, so the group
never adds a resident key again. -/
theorem NewGroup_runGets_accounted (name : String) (cacheBytes : Int)
    (getter : String → Except error ByteView) (fuel : Nat) (pp : PortPicker)
    (reqs : List (String × Nat)) (reps : List Reply)
    (hr : Group.runGets fuel pp (NewGroup name cacheBytes getter) reqs = .ok reps) :
    ∀ rep ∈ reps,
      rep.g.mainCache.bytes = rep.g.mainCache.residentCost ∧
      rep.g.hotCache.bytes = rep.g.hotCache.residentCost ∧
      rep.g.mainCache.items = (rep.g.mainCache.resident.length : Int) ∧
      rep.g.hotCache.items = (rep.g.hotCache.resident.length : Int) := by
  have hz : cache.zero.Accounted := by
    refine ⟨?_, by decide⟩
    intro l hl
    simp [cache.zero] at hl
  intro rep hrep
  have ha := Group.runGets_accounted fuel pp reqs _ reps ⟨hz, hz⟩ hr rep hrep
  exact ⟨ha.1.2, ha.2.2, cache.items_eq _, cache.items_eq _⟩

end gcache
